import Mathlib

/-!
Verification development for the neo/NIX conversion engine.

The repository contains two implementations of a Neo-object-graph to NIX
container-file mapping engine:

  * `neonix/io/nixio.py` (class NixIO) - the primary engine: path-addressed
    writes, an identity map, a name mediator, per-kind write/read rules.
  * `neo2nix/nixio.py` (class NixIO + helpers) - a second engine with
    create-or-fetch semantics and a `file_transaction` decorator.

Everything below is a shallow embedding of those two files.  Python values
are modelled as follows: `datetime` carries integer epoch seconds plus a
sub-second remainder; floats are modelled as rationals; numpy payloads are
rational lists; NIX metadata sections live in an arena (`SecStore`) so that
section *identity* (shared metadata of a multi-channel signal) is the
identity of arena indices, mirroring object identity in nixpy.
-/

namespace Neonix

/-- Model of a Python `datetime`: epoch seconds plus sub-second remainder
(microseconds).  `time.mktime(dt.timetuple())` keeps only whole seconds. -/
structure DT where
  sec : Int
  usec : Nat
deriving DecidableEq, Repr

/-- Source `calculate_timestamp`: `int(time.mktime(dt.timetuple()))` -
whole seconds of the datetime, sub-second part discarded. -/
def calculate_timestamp (dt : DT) : Int := dt.sec

/-- Model of `datetime.fromtimestamp` applied to an integer number of
seconds: the resulting datetime has no sub-second component. -/
def fromtimestamp (sec : Int) : DT := ⟨sec, 0⟩

/-- Model of `nixio.Value`: a single typed metadata value. -/
inductive NixValue where
  | int (n : Int)
  | float (q : ℚ)
  | str (s : String)
deriving DecidableEq, Repr

/-- A scalar Python value as it may appear in a Neo annotation dictionary. -/
inductive PyScalar where
  | int (n : Int)
  | float (q : ℚ)
  | str (s : String)
  | bytes (s : String)
  | dt (d : DT)
  | quantity (mag : ℚ) (unit : String)
  | npScalar (q : ℚ)
deriving DecidableEq, Repr

/-- A Python annotation value: a scalar, a flat sequence of scalars, or a
nested (two-level) sequence.  Strings and bytes are iterable in Python but
`_to_value` tests for them before the `Iterable` branch, so they are kept
as scalars here. -/
inductive PyVal where
  | scalar (s : PyScalar)
  | seq (items : List PyScalar)
  | seqOfSeq (items : List (List PyScalar))
deriving DecidableEq, Repr

/-- Result of `NixIO._to_value`: either one `nixio.Value` or a list of them
(`None` is modelled by the surrounding `Option`). -/
inductive ToValueRes where
  | single (v : NixValue)
  | multiple (vs : List NixValue)
deriving DecidableEq, Repr

/-- Conversion applied by `_to_value` to one scalar item inside the
`Iterable` branch (`nixio.Value(item.item())` for numpy scalars, otherwise
`nixio.Value(item)`). -/
def item_to_nix_value : PyScalar → NixValue
  | .int n => .int n
  | .float q => .float q
  | .str s => .str s
  | .bytes s => .str s
  | .dt d => .int (calculate_timestamp d)
  | .quantity mag _ => .float mag
  | .npScalar q => .float q

/-- Source `NixIO._to_value` (`neonix/io/nixio.py` lines 924-964).
The branches are tested in source order: `pq.Quantity`, `datetime`,
string, bytes, `Iterable`, numpy scalar, fallback.

Inside the `Iterable` branch the source executes

    for item in v:
        if isinstance(v, Iterable):   # tests v, not item
            warn(...); return None

so the first loop iteration of ANY non-empty sequence returns `None`, and
an empty sequence yields `vv = []` which the final `if not len(vv)` also
turns into `None`. -/
def to_value : PyVal → Option ToValueRes
  | .scalar (.quantity _ _) => none
  | .scalar (.dt d) => some (.single (.int (calculate_timestamp d)))
  | .scalar (.str s) => some (.single (.str s))
  | .scalar (.bytes s) => some (.single (.str s))
  | .scalar (.npScalar q) => some (.single (.float q))
  | .scalar (.int n) => some (.single (.int n))
  | .scalar (.float q) => some (.single (.float q))
  | .seq items => if items.isEmpty then none else none
  | .seqOfSeq _ => none

/-- What the specification says `_to_value` does with a flat sequence of
plain scalars: store it as an ordered sequence of single converted values,
one per element, in order.  (Modelled from the spec sentence "flat
sequences of scalars are stored as ordered sequences of single values";
this is the intended behaviour that the code's `isinstance(v, Iterable)`
slip fails to implement.) -/
def to_value_spec_flat (items : List PyScalar) : Option ToValueRes :=
  some (.multiple (items.map item_to_nix_value))

/-- Decimal rendering of a natural number (Python `str(k)` as used by
`"{}-{}".format` and `"{}.{}".format`). -/
def natDecimal (n : Nat) : String :=
  if n = 0 then "0" else ⟨((Nat.digits 10 n).map Nat.digitChar).reverse⟩

theorem digitChar_inj_lt_ten (a b : Nat) (ha : a < 10) (hb : b < 10)
    (h : Nat.digitChar a = Nat.digitChar b) : a = b := by
  have key : ∀ x : Fin 10, ∀ y : Fin 10,
      Nat.digitChar x.val = Nat.digitChar y.val → x.val = y.val := by decide
  exact key ⟨a, ha⟩ ⟨b, hb⟩ h

theorem map_digitChar_inj :
    ∀ l₁ l₂ : List Nat, (∀ x ∈ l₁, x < 10) → (∀ x ∈ l₂, x < 10) →
      l₁.map Nat.digitChar = l₂.map Nat.digitChar → l₁ = l₂ := by
  intro l₁
  induction l₁ with
  | nil =>
      intro l₂ _ _ h
      cases l₂ with
      | nil => rfl
      | cons b t => simp at h
  | cons a t ih =>
      intro l₂ h₁ h₂ h
      cases l₂ with
      | nil => simp at h
      | cons b t₂ =>
          simp only [List.map_cons, List.cons.injEq] at h
          have ha : a < 10 := h₁ a (List.mem_cons_self a t)
          have hb : b < 10 := h₂ b (List.mem_cons_self b t₂)
          have hab := digitChar_inj_lt_ten a b ha hb h.1
          have ht := ih t₂ (fun x hx => h₁ x (List.mem_cons_of_mem a hx))
            (fun x hx => h₂ x (List.mem_cons_of_mem b hx)) h.2
          rw [hab, ht]

theorem natDecimal_injective : Function.Injective natDecimal := by
  intro m n h
  unfold natDecimal at h
  by_cases hm : m = 0 <;> by_cases hn : n = 0
  · rw [hm, hn]
  · exfalso
    rw [if_pos hm, if_neg hn] at h
    have h₂ : ("0" : String).data = (((Nat.digits 10 n).map Nat.digitChar).reverse) := by
      rw [h]
    have hlen : (((Nat.digits 10 n).map Nat.digitChar).reverse).length = 1 := by
      rw [← h₂]; rfl
    rw [List.length_reverse, List.length_map] at hlen
    obtain ⟨d, hd⟩ := List.length_eq_one.mp hlen
    have hdmem : d ∈ Nat.digits 10 n := by rw [hd]; exact List.mem_singleton_self d
    have hdlt : d < 10 := Nat.digits_lt_base (by norm_num) hdmem
    rw [hd] at h₂
    simp only [List.map_cons, List.map_nil, List.reverse_singleton] at h₂
    have hchar : Nat.digitChar 0 = Nat.digitChar d := by
      have := congrArg (fun l => l.head?) h₂
      simpa using this
    have hd0 : d = 0 := (digitChar_inj_lt_ten 0 d (by norm_num) hdlt hchar).symm
    have hnd : n = d := by
      have hh := (Nat.ofDigits_digits 10 n).symm
      rw [hd] at hh
      simpa [Nat.ofDigits] using hh
    exact hn (by rw [hnd, hd0])
  · exfalso
    rw [if_neg hm, if_pos hn] at h
    have h₂ : (((Nat.digits 10 m).map Nat.digitChar).reverse) = ("0" : String).data := by
      have := congrArg String.data h
      simpa using this
    have hlen : (((Nat.digits 10 m).map Nat.digitChar).reverse).length = 1 := by
      rw [h₂]; rfl
    rw [List.length_reverse, List.length_map] at hlen
    obtain ⟨d, hd⟩ := List.length_eq_one.mp hlen
    have hdmem : d ∈ Nat.digits 10 m := by rw [hd]; exact List.mem_singleton_self d
    have hdlt : d < 10 := Nat.digits_lt_base (by norm_num) hdmem
    rw [hd] at h₂
    simp only [List.map_cons, List.map_nil, List.reverse_singleton] at h₂
    have hchar : Nat.digitChar d = Nat.digitChar 0 := by
      have := congrArg (fun l => l.head?) h₂
      simpa using this
    have hd0 : d = 0 := digitChar_inj_lt_ten d 0 hdlt (by norm_num) hchar
    have hmd : m = d := by
      have hh := (Nat.ofDigits_digits 10 m).symm
      rw [hd] at hh
      simpa [Nat.ofDigits] using hh
    exact hm (by rw [hmd, hd0])
  · rw [if_neg hm, if_neg hn] at h
    have h₂ : (((Nat.digits 10 m).map Nat.digitChar).reverse)
        = (((Nat.digits 10 n).map Nat.digitChar).reverse) := by
      have := congrArg String.data h
      simpa using this
    have h₃ := List.reverse_injective h₂
    have h₄ := map_digitChar_inj _ _
      (fun x hx => Nat.digits_lt_base (by norm_num) hx)
      (fun x hx => Nat.digits_lt_base (by norm_num) hx) h₃
    exact Nat.digits.injective 10 h₄

/-! ### Name mediation (`NixIO._neo_attr_to_nix`, lines 884-916) -/

/-- Python truthiness of an optional string attribute (`if neo_obj.name:`)
- `None` and the empty string are falsy. -/
def strTruthy : Option String → Bool
  | none => false
  | some s => !(s == "")

/-- Base name chosen by `_neo_attr_to_nix`: the logical name when truthy,
otherwise the synthesized kind tag `"neo.<TypeName>"`. -/
def nix_basename (name : Option String) (neoType : String) : String :=
  if strTruthy name then name.getD "" else "neo." ++ neoType

/-- Collision-probe suffix: `".0"` for the multi-array signal kinds,
empty for every other kind. -/
def name_suffix (neoType : String) : String :=
  if neoType = "AnalogSignal" ∨ neoType = "IrregularlySampledSignal" then ".0"
  else ""

/-- The candidate `"<base>-<k>"` tried on collision. -/
def candidate (base : String) (k : Nat) : String := base ++ "-" ++ natDecimal k

/-- The `while nix_name+suffix in container` loop of `_neo_attr_to_nix`,
made total with explicit fuel (the loop always terminates because the
probes are pairwise distinct and the container is finite). -/
def collide_loop (container : List String) (suffix base : String) :
    Nat → Nat → String
  | 0, k => candidate base k
  | fuel + 1, k =>
      if candidate base k ++ suffix ∈ container then
        collide_loop container suffix base fuel (k + 1)
      else candidate base k

/-- Name computation of `_neo_attr_to_nix`: keep the base if its probe is
absent from the sibling namespace, otherwise try `"<base>-<k>"` for
`k = 1, 2, ...` until the probe is free. -/
def mediate_name (name : Option String) (neoType : String)
    (container : List String) : String :=
  let base := nix_basename name neoType
  let suffix := name_suffix neoType
  if base ++ suffix ∈ container then
    collide_loop container suffix base (container.length + 1) 1
  else base

theorem candidate_probe_injective (base suffix : String) :
    Function.Injective (fun k => candidate base k ++ suffix) := by
  intro k₁ k₂ h
  apply natDecimal_injective
  apply String.ext
  have hd := congrArg String.data h
  simp only [candidate, String.data_append, List.append_assoc] at hd
  have h₁ := List.append_cancel_left hd
  have h₂ := List.append_cancel_left h₁
  exact List.append_cancel_right h₂

theorem exists_free_probe (base suffix : String) (container : List String) :
    ∃ j, j < container.length + 1 ∧
      candidate base (1 + j) ++ suffix ∉ container := by
  by_contra hcon
  push_neg at hcon
  set f : Nat → String := fun j => candidate base (1 + j) ++ suffix with hf
  have hinj : Function.Injective f := by
    intro a b hab
    have := candidate_probe_injective base suffix hab
    omega
  have hnodup : ((List.range (container.length + 1)).map f).Nodup :=
    (List.nodup_range _).map hinj
  have hsub : ((List.range (container.length + 1)).map f).toFinset ⊆
      container.toFinset := by
    intro x hx
    rw [List.mem_toFinset] at hx ⊢
    obtain ⟨j, hj, rfl⟩ := List.mem_map.mp hx
    exact hcon j (List.mem_range.mp hj)
  have hcard := Finset.card_le_card hsub
  rw [List.toFinset_card_of_nodup hnodup] at hcard
  have hlen : ((List.range (container.length + 1)).map f).length
      = container.length + 1 := by simp
  have := List.toFinset_card_le (l := container)
  omega

theorem collide_loop_spec (container : List String) (suffix base : String) :
    ∀ fuel k₀, (∃ j, j < fuel ∧ candidate base (k₀ + j) ++ suffix ∉ container) →
      ∃ j, j < fuel ∧ candidate base (k₀ + j) ++ suffix ∉ container ∧
        (∀ i, i < j → candidate base (k₀ + i) ++ suffix ∈ container) ∧
        collide_loop container suffix base fuel k₀ = candidate base (k₀ + j) := by
  intro fuel
  induction fuel with
  | zero =>
      intro k₀ h
      obtain ⟨j, hj, _⟩ := h
      omega
  | succ n ih =>
      intro k₀ h
      by_cases hc : candidate base k₀ ++ suffix ∈ container
      · obtain ⟨j, hj, hfree⟩ := h
        have hj0 : j ≠ 0 := by
          rintro rfl
          exact hfree (by simpa using hc)
        obtain ⟨j₁, rfl⟩ : ∃ j₁, j = j₁ + 1 := ⟨j - 1, by omega⟩
        have hshift : k₀ + (j₁ + 1) = (k₀ + 1) + j₁ := by omega
        have hex : ∃ j, j < n ∧ candidate base ((k₀ + 1) + j) ++ suffix ∉ container := by
          refine ⟨j₁, by omega, ?_⟩
          rw [← hshift]
          exact hfree
        obtain ⟨j₂, hj₂, hfree₂, hmin₂, heq₂⟩ := ih (k₀ + 1) hex
        have hshift₂ : (k₀ + 1) + j₂ = k₀ + (j₂ + 1) := by omega
        refine ⟨j₂ + 1, by omega, ?_, ?_, ?_⟩
        · rw [← hshift₂]; exact hfree₂
        · intro i hi
          cases i with
          | zero => simpa using hc
          | succ i₁ =>
              have : k₀ + (i₁ + 1) = (k₀ + 1) + i₁ := by omega
              rw [this]
              exact hmin₂ i₁ (by omega)
        · show collide_loop container suffix base (n + 1) k₀ = _
          rw [collide_loop, if_pos hc, heq₂, hshift₂]
      · refine ⟨0, by omega, by simpa using hc, by omega, ?_⟩
        show collide_loop container suffix base (n + 1) k₀ = _
        rw [collide_loop, if_neg hc]
        simp

/-- C3: the computed container name follows the mediation policy exactly:
synthesized `"neo.<Kind>"` base when the logical name is absent; collision
probe `base ++ ".0"` for the multi-array signal kinds and the bare base
name for every other kind; the base name kept unchanged when the probe is
absent, otherwise `"base-k"` for the smallest `k ≥ 1` whose probe is
absent from the namespace. -/
theorem C3_name_mediation (name : Option String) (neoType : String)
    (container : List String) :
    (strTruthy name = false → nix_basename name neoType = "neo." ++ neoType) ∧
    (name_suffix "AnalogSignal" = ".0" ∧
      name_suffix "IrregularlySampledSignal" = ".0" ∧
      (neoType ≠ "AnalogSignal" → neoType ≠ "IrregularlySampledSignal" →
        name_suffix neoType = "")) ∧
    (nix_basename name neoType ++ name_suffix neoType ∉ container →
      mediate_name name neoType container = nix_basename name neoType) ∧
    (nix_basename name neoType ++ name_suffix neoType ∈ container →
      ∃ k, 1 ≤ k ∧
        candidate (nix_basename name neoType) k ++ name_suffix neoType ∉ container ∧
        (∀ j, 1 ≤ j → j < k →
          candidate (nix_basename name neoType) j ++ name_suffix neoType ∈ container) ∧
        mediate_name name neoType container
          = candidate (nix_basename name neoType) k) := by
  refine ⟨?_, ⟨rfl, rfl, ?_⟩, ?_, ?_⟩
  · intro h
    rw [nix_basename, h]
    simp
  · intro h₁ h₂
    rw [name_suffix, if_neg]
    simp [h₁, h₂]
  · intro h
    rw [mediate_name]
    simp only [if_neg h]
  · intro h
    obtain ⟨j, hj, hfree⟩ :=
      exists_free_probe (nix_basename name neoType) (name_suffix neoType) container
    obtain ⟨j', hj', hfree', hmin', heq'⟩ :=
      collide_loop_spec container (name_suffix neoType) (nix_basename name neoType)
        (container.length + 1) 1 ⟨j, hj, hfree⟩
    refine ⟨1 + j', by omega, hfree', ?_, ?_⟩
    · intro i hi₁ hi₂
      have : i = 1 + (i - 1) := by omega
      rw [this]
      exact hmin' (i - 1) (by omega)
    · rw [mediate_name]
      simp only [if_pos h]
      exact heq'

/-- Witness for C3 at a concrete namespace: base `"sig"` with probe
`"sig.0"` present and `"sig-1.0"` also present mediates to `"sig-2"`. -/
theorem C3_name_mediation_witness :
    ∃ k, 1 ≤ k ∧
      candidate "sig" k ++ ".0" ∉ ["sig.0", "sig-1.0"] ∧
      (∀ j, 1 ≤ j → j < k → candidate "sig" j ++ ".0" ∈ ["sig.0", "sig-1.0"]) ∧
      mediate_name (some "sig") "AnalogSignal" ["sig.0", "sig-1.0"]
        = candidate "sig" k :=
  (C3_name_mediation (some "sig") "AnalogSignal" ["sig.0", "sig-1.0"]).2.2.2
    (by decide)

/-! ### Quantities and units

Physical quantities are modelled as a rational magnitude plus a unit
string (`str(q.units.dimensionality)` in the source).  `simplified`
dimensionalities are modelled by a small table covering the time units the
engine normalizes (`often sampling period is in 1/Hz or 1/kHz -
simplifying to s`). -/

structure Quant where
  mag : ℚ
  unit : String
deriving DecidableEq, Repr

/-- Python truthiness of an optional quantity (`if sptr.t_start:`,
`if sptr.left_sweep:`) - absent or zero-magnitude is falsy. -/
def qTruthy : Option Quant → Bool
  | none => false
  | some q => !(q.mag == 0)

/-- Base-unit conversion factors for the units this table knows. -/
def unit_factor : String → ℚ
  | "s" => 1
  | "ms" => 1 / 1000
  | "us" => 1 / 1000000
  | "min" => 60
  | "1/Hz" => 1
  | "1/kHz" => 1 / 1000
  | _ => 1

/-- Reduction of a dimensionality string to its simplified (SI base)
form, as `units.dimensionality.simplified` does for time units. -/
def simplify_unit (u : String) : String :=
  if u = "s" ∨ u = "ms" ∨ u = "us" ∨ u = "min" ∨ u = "1/Hz" ∨ u = "1/kHz" then "s"
  else u

/-- Source `NixIO._get_units`: the dimensionality string of a quantity,
optionally simplified, with `None` for dimensionless values. -/
def get_units (unit : String) (simplify : Bool) : Option String :=
  let u := if simplify then simplify_unit unit else unit
  if u = "dimensionless" then none else some u

/-- Model of `quantity.rescale(unit)`: identical when the unit already
matches, otherwise converted through the factor table. -/
def rescale (q : Quant) (u : String) : Quant :=
  if q.unit = u then q else ⟨q.mag * unit_factor q.unit / unit_factor u, u⟩

/-! ### NIX metadata sections (arena model)

nixpy `Section` objects are shared by reference; a multi-channel signal's
arrays all point at one section object and `read_signal` asserts that
identity.  Sections therefore live in an arena (`SecStore`) and objects
hold arena indices, so index equality is object identity. -/

structure PropEntry where
  pname : String
  values : List NixValue
deriving DecidableEq, Repr

structure NSection where
  sname : String
  stype : String
  props : List PropEntry
deriving DecidableEq, Repr

abbrev SectionId := Nat

abbrev SecStore := List NSection

/-- `create_section`: appends a fresh section to the arena and returns its
identity. -/
def create_section (st : SecStore) (name stype : String) : SecStore × SectionId :=
  (st ++ [⟨name, stype, []⟩], st.length)

def sec_get (st : SecStore) (i : SectionId) : Option NSection := st[i]?

def list_update {α : Type} : List α → Nat → (α → α) → List α
  | [], _, _ => []
  | s :: rest, 0, f => f s :: rest
  | s :: rest, n + 1, f => s :: list_update rest n f

def update_at (st : SecStore) (i : Nat) (f : NSection → NSection) : SecStore :=
  list_update st i f

/-- `section.create_property(name, values)`: appends a typed property. -/
def create_property (st : SecStore) (i : SectionId) (pname : String)
    (vals : List NixValue) : SecStore :=
  update_at st i (fun s => { s with props := s.props ++ [⟨pname, vals⟩] })

/-- Storing one `_to_value` result as a property.  A `None` result is not
stored (the value was dropped with a warning; see `to_value`). -/
def create_property_val (st : SecStore) (i : SectionId) (pname : String) :
    Option ToValueRes → SecStore
  | none => st
  | some (.single v) => create_property st i pname [v]
  | some (.multiple vs) => create_property st i pname vs

/-- Source `NixIO._add_annotations`: one property per annotation entry, in
order. -/
def add_annotations (st : SecStore) (i : SectionId)
    (ann : List (String × PyVal)) : SecStore :=
  ann.foldl (fun acc kv => create_property_val acc i kv.1 (to_value kv.2)) st

/-! ### Neo entities (source record model)

Each entity carries the directly-mapped attributes of the claim plus the
child/reference collections the write rules walk.  Signal payloads are
channel-major (`anasig.transpose()` iterates channels).  `eid` is the
in-memory identity (`id(obj)`) used by the identity map during a write. -/

structure NeoAnalogSignal where
  eid : Nat
  name : Option String
  description : Option String
  file_origin : Option String
  annots : List (String × PyVal)
  channels : List (List ℚ)
  unit : String
  sampling_period : Quant
  t_start : Quant
deriving DecidableEq, Repr

structure NeoIrregularSignal where
  eid : Nat
  name : Option String
  description : Option String
  file_origin : Option String
  annots : List (String × PyVal)
  channels : List (List ℚ)
  unit : String
  times : List ℚ
  times_unit : String
deriving DecidableEq, Repr

structure NeoEpoch where
  name : Option String
  description : Option String
  file_origin : Option String
  annots : List (String × PyVal)
  times : List ℚ
  times_unit : String
  durations : List ℚ
  durations_unit : String
  labels : List String
deriving DecidableEq, Repr

structure NeoEvent where
  name : Option String
  description : Option String
  file_origin : Option String
  annots : List (String × PyVal)
  times : List ℚ
  times_unit : String
  labels : List String
deriving DecidableEq, Repr

structure WFData where
  data3 : List (List (List ℚ))
  unit : String
deriving DecidableEq, Repr

structure NeoSpikeTrain where
  eid : Nat
  name : Option String
  description : Option String
  file_origin : Option String
  annots : List (String × PyVal)
  times : List ℚ
  times_unit : String
  t_start : Quant
  t_stop : Quant
  sampling_period : Quant
  left_sweep : Option Quant
  waveforms : Option WFData
deriving DecidableEq, Repr

structure NeoUnit where
  name : Option String
  description : Option String
  file_origin : Option String
  annots : List (String × PyVal)
  spiketrain_eids : List Nat
deriving DecidableEq, Repr

structure NeoRCG where
  name : Option String
  description : Option String
  file_origin : Option String
  annots : List (String × PyVal)
  channel_indexes : List Int
  channel_names : List String
  coordinates : Option (List (List Quant))
  units : List NeoUnit
  analog_eids : List Nat
  irregular_eids : List Nat
deriving DecidableEq, Repr

structure NeoSegment where
  name : Option String
  description : Option String
  rec_datetime : Option DT
  file_datetime : Option DT
  file_origin : Option String
  annots : List (String × PyVal)
  analogsignals : List NeoAnalogSignal
  irregularlysampledsignals : List NeoIrregularSignal
  epochs : List NeoEpoch
  events : List NeoEvent
  spiketrains : List NeoSpikeTrain
deriving DecidableEq, Repr

structure NeoBlock where
  name : Option String
  description : Option String
  rec_datetime : Option DT
  file_datetime : Option DT
  file_origin : Option String
  annots : List (String × PyVal)
  segments : List NeoSegment
  rcgs : List NeoRCG
deriving DecidableEq, Repr

/-! ### NIX container objects -/

inductive NDim where
  | sampled (sampling_interval : ℚ) (unit : Option String)
      (label : Option String) (offset : ℚ)
  | range (ticks : List ℚ) (unit : Option String) (label : Option String)
  | setd (labels : List String)
deriving DecidableEq, Repr

/-- Label of a dimension when it has a `label` attribute (set dimensions
have `labels`, not `label`, and are skipped by `hasattr`). -/
def NDim.labelOf : NDim → Option String
  | .sampled _ _ l _ => l
  | .range _ _ l => l
  | .setd _ => none

/-- Source `NixIO._get_time_dimension`: the first dimension labelled
"time". -/
def get_time_dimension (dims : List NDim) : Option NDim :=
  dims.find? (fun d => d.labelOf == some "time")

inductive DAData where
  | d1 (xs : List ℚ)
  | d3 (xs : List (List (List ℚ)))
deriving DecidableEq, Repr

def DAData.as1 : DAData → List ℚ
  | .d1 xs => xs
  | .d3 _ => []

def DAData.as3 : DAData → List (List (List ℚ))
  | .d1 _ => []
  | .d3 xs => xs

structure NDataArray where
  name : String
  ntype : String
  definition : Option String
  unit : Option String
  data : DAData
  dims : List NDim
  metadata : Option SectionId
  sourceNames : List String
deriving DecidableEq, Repr

structure NMultiTag where
  name : String
  ntype : String
  definition : Option String
  positionsId : Nat
  extentsId : Option Nat
  featureIds : List Nat
  metadata : Option SectionId
  sourceNames : List String
  referenceIds : List Nat
deriving DecidableEq, Repr

inductive NSource where
  | mk (name ntype : String) (definition : Option String)
      (metadata : Option SectionId) (sources : List NSource)

def NSource.name : NSource → String
  | .mk n _ _ _ _ => n

def NSource.ntype : NSource → String
  | .mk _ t _ _ _ => t

def NSource.definition : NSource → Option String
  | .mk _ _ d _ _ => d

def NSource.metadata : NSource → Option SectionId
  | .mk _ _ _ m _ => m

def NSource.sources : NSource → List NSource
  | .mk _ _ _ _ s => s

structure NGroup where
  name : String
  ntype : String
  definition : Option String
  created_at : Int
  metadata : Option SectionId
  dataArrayIds : List Nat
  multiTagIds : List Nat
deriving Repr

structure NBlock where
  name : String
  ntype : String
  definition : Option String
  created_at : Int
  metadata : Option SectionId
  dataArrays : List NDataArray
  groups : List NGroup
  multiTags : List NMultiTag
  sources : List NSource

/-- The data arrays a group holds (nixpy group containers reference the
block-owned arrays; the arena indices resolve through the block). -/
def group_arrays (blk : NBlock) (grp : NGroup) : List NDataArray :=
  grp.dataArrayIds.filterMap (fun i => blk.dataArrays[i]?)

/-- Source `NixIO._get_contained_signals`: the signal-typed data arrays of
a container. -/
def get_contained_signals (blk : NBlock) (grp : NGroup) : List Nat :=
  grp.dataArrayIds.filter (fun i =>
    match blk.dataArrays[i]? with
    | some da => da.ntype = "neo.analogsignal" ∨ da.ntype = "neo.irregularlysampledsignal"
    | none => False)

/-- Entries of the write-side identity map (`NixIO._object_map`, keyed by
`id(obj)`): a signal maps to its list of data arrays, a spike train to its
multi-tag.  Only entries the engine later consults are registered. -/
inductive MappedObj where
  | das (ids : List Nat)
  | mtag (i : Nat)

abbrev ObjMap := List (Nat × MappedObj)

def om_lookup (om : ObjMap) (eid : Nat) : Option MappedObj :=
  (om.find? (fun kv => kv.1 == eid)).map (·.2)

def update_da (blk : NBlock) (i : Nat) (f : NDataArray → NDataArray) : NBlock :=
  { blk with dataArrays := list_update blk.dataArrays i f }

def update_mtag (blk : NBlock) (i : Nat) (f : NMultiTag → NMultiTag) : NBlock :=
  { blk with multiTags := list_update blk.multiTags i f }

def NSource.addChild (s c : NSource) : NSource :=
  .mk s.name s.ntype s.definition s.metadata (s.sources ++ [c])

/-! ### Attribute encoding (`NixIO._neo_attr_to_nix` and
`NixIO._write_attr_annotations`) -/

structure NixAttr where
  name : String
  ntype : String
  definition : Option String
  created_at : Option DT
  file_datetime : Option DT
  file_origin : Option String
  annots : List (String × PyVal)
deriving DecidableEq, Repr

/-- `str.lower()` for the ASCII kind names this engine passes. -/
def str_lower (s : String) : String := ⟨s.data.map Char.toLower⟩

/-- Source `NixIO._neo_attr_to_nix`: computes the mediated container name,
the `"neo.<kind>"` type tag, the definition, and the optional attribute
entries.  `created_at`/`file_datetime` are only passed for Block/Segment
(the `isinstance` branch); other kinds pass `none`. -/
def neo_attr_to_nix (name : Option String) (neoTypeName : String)
    (description : Option String) (rec_dt file_dt : Option DT)
    (file_origin : Option String) (annots : List (String × PyVal))
    (container : List String) : NixAttr :=
  { name := mediate_name name neoTypeName container
    ntype := "neo." ++ str_lower neoTypeName
    definition := description
    created_at := rec_dt
    file_datetime := file_dt
    file_origin := if strTruthy file_origin then file_origin else none
    annots := annots }

/-- Source `NixIO._get_or_init_metadata`: reuse the object's metadata
section or create a fresh one named after the object with type
`"<type>.metadata"`.  (The recursive attachment of the new section under
the parent's section tree only affects tree placement, which no read path
traverses; it is omitted here.) -/
def get_or_init_metadata (st : SecStore) (name ntype : String)
    (m : Option SectionId) : SecStore × SectionId :=
  match m with
  | some i => (st, i)
  | none => create_section st name (ntype ++ ".metadata")

/-- The `"file_datetime" in attr` block of `_write_attr_annotations`. -/
def wam_stage_fdt (st : SecStore) (objName objType : String)
    (m : Option SectionId) : Option DT → SecStore × Option SectionId
  | some fdt =>
      let q := get_or_init_metadata st objName objType m
      (create_property q.1 q.2 "file_datetime"
        [.int (calculate_timestamp fdt)], some q.2)
  | none => (st, m)

/-- The `"file_origin" in attr` block of `_write_attr_annotations`. -/
def wam_stage_fo (st : SecStore) (objName objType : String)
    (m : Option SectionId) : Option String → SecStore × Option SectionId
  | some fo =>
      let q := get_or_init_metadata st objName objType m
      (create_property q.1 q.2 "file_origin" [.str fo], some q.2)
  | none => (st, m)

/-- The `"annotations" in attr` block of `_write_attr_annotations`. -/
def wam_stage_ann (st : SecStore) (objName objType : String)
    (m : Option SectionId) (annots : List (String × PyVal)) :
    SecStore × Option SectionId :=
  if annots.isEmpty then (st, m)
  else
    let q := get_or_init_metadata st objName objType m
    (add_annotations q.1 q.2 annots, some q.2)

/-- Metadata part of `NixIO._write_attr_annotations`: `file_datetime`,
`file_origin` and the annotation dictionary become properties of the
object's (possibly freshly created) metadata section.  The
`force_created_at` branch is applied by the Block/Segment writers. -/
def write_attr_meta (st : SecStore) (objName objType : String)
    (meta : Option SectionId) (attr : NixAttr) : SecStore × Option SectionId :=
  let p₁ := wam_stage_fdt st objName objType meta attr.file_datetime
  let p₂ := wam_stage_fo p₁.1 objName objType p₁.2 attr.file_origin
  wam_stage_ann p₂.1 objName objType p₂.2 attr.annots

/-! ### Write rules (`NixIO.write_*`)

The writers thread the section arena, the block and the identity map
explicitly.  Parent objects are passed directly instead of re-resolving
their `"/"`-paths (`_get_object_at` is verified separately under C6).
Failure (`Option`) marks the paths where the Python code would raise -
`rescale(None)` on dimensionless time units, container `KeyError` or
`IndexError` lookups, unmapped identity-map references. -/

def fold_opt {σ α : Type} (f : σ → α → Option σ) : σ → List α → Option σ
  | s, [] => some s
  | s, x :: rest => do
      let s₁ ← f s x
      fold_opt f s₁ rest

/-- The per-channel loop of the two signal writers: one data array per
channel, named `"<name>.<idx>"`, all pointing at the one group section. -/
def write_sig_arrays (attrName attrType : String) (defn : Option String)
    (data_units : Option String) (timedim : NDim) (gsec : SectionId) :
    NBlock → NGroup → List (List ℚ) → Nat → NBlock × NGroup × List Nat
  | blk, grp, [], _ => (blk, grp, [])
  | blk, grp, ch :: rest, idx =>
      let da : NDataArray :=
        { name := attrName ++ "." ++ natDecimal idx
          ntype := attrType
          definition := defn
          unit := data_units
          data := .d1 ch
          dims := [timedim, .setd []]
          metadata := some gsec
          sourceNames := [] }
      let i := blk.dataArrays.length
      let blk₁ := { blk with dataArrays := blk.dataArrays ++ [da] }
      let grp₁ := { grp with dataArrayIds := grp.dataArrayIds ++ [i] }
      let r := write_sig_arrays attrName attrType defn data_units timedim gsec
        blk₁ grp₁ rest (idx + 1)
      (r.1, r.2.1, i :: r.2.2)

/-- Source `NixIO.write_analogsignal` (lines 512-567). -/
def write_analogsignal (st : SecStore) (blk : NBlock) (grp : NGroup)
    (om : ObjMap) (sig : NeoAnalogSignal) :
    Option (SecStore × NBlock × NGroup × ObjMap) := do
  let pm := get_or_init_metadata st grp.name grp.ntype grp.metadata
  let st := pm.1
  let grp := { grp with metadata := some pm.2 }
  let attr := neo_attr_to_nix sig.name "AnalogSignal" sig.description none none
    sig.file_origin sig.annots (blk.dataArrays.map (·.name))
  let gs := create_section st attr.name (attr.ntype ++ ".metadata")
  let st := gs.1
  let gsec := gs.2
  let st := match attr.file_origin with
    | some fo => create_property st gsec "file_origin" [.str fo]
    | none => st
  let st := if sig.annots.isEmpty then st else add_annotations st gsec sig.annots
  let data_units := get_units sig.unit false
  let time_units ← get_units sig.sampling_period.unit true
  let offset := (rescale sig.t_start time_units).mag
  let sampling_interval := (rescale sig.sampling_period time_units).mag
  let timedim : NDim := .sampled sampling_interval (some time_units) (some "time") offset
  let r := write_sig_arrays attr.name attr.ntype attr.definition data_units
    timedim gsec blk grp sig.channels 0
  some (st, r.1, r.2.1, om ++ [(sig.eid, .das r.2.2)])

/-- Source `NixIO.write_irregularlysampledsignal` (lines 569-622). -/
def write_irregularlysampledsignal (st : SecStore) (blk : NBlock) (grp : NGroup)
    (om : ObjMap) (sig : NeoIrregularSignal) :
    Option (SecStore × NBlock × NGroup × ObjMap) := do
  let pm := get_or_init_metadata st grp.name grp.ntype grp.metadata
  let st := pm.1
  let grp := { grp with metadata := some pm.2 }
  let attr := neo_attr_to_nix sig.name "IrregularlySampledSignal" sig.description
    none none sig.file_origin sig.annots (blk.dataArrays.map (·.name))
  let gs := create_section st attr.name (attr.ntype ++ ".metadata")
  let st := gs.1
  let gsec := gs.2
  let st := match attr.file_origin with
    | some fo => create_property st gsec "file_origin" [.str fo]
    | none => st
  let st := if sig.annots.isEmpty then st else add_annotations st gsec sig.annots
  let data_units := get_units sig.unit false
  let time_units := get_units sig.times_unit false
  let timedim : NDim := .range sig.times time_units (some "time")
  let r := write_sig_arrays attr.name attr.ntype attr.definition data_units
    timedim gsec blk grp sig.channels 0
  some (st, r.1, r.2.1, om ++ [(sig.eid, .das r.2.2)])

/-- Source `NixIO.write_epoch` (lines 624-673). -/
def write_epoch (st : SecStore) (blk : NBlock) (grp : NGroup) (ep : NeoEpoch) :
    Option (SecStore × NBlock × NGroup) := do
  let attr := neo_attr_to_nix ep.name "Epoch" ep.description none none
    ep.file_origin ep.annots (blk.multiTags.map (·.name))
  let tId := blk.dataArrays.length
  let times_da : NDataArray :=
    { name := attr.name ++ ".times", ntype := attr.ntype ++ ".times"
      definition := none, unit := get_units ep.times_unit false
      data := .d1 ep.times, dims := [], metadata := none, sourceNames := [] }
  let blk := { blk with dataArrays := blk.dataArrays ++ [times_da] }
  let dId := blk.dataArrays.length
  let durations_da : NDataArray :=
    { name := attr.name ++ ".durations", ntype := attr.ntype ++ ".durations"
      definition := none, unit := get_units ep.durations_unit false
      data := .d1 ep.durations, dims := [], metadata := none, sourceNames := [] }
  let blk := { blk with dataArrays := blk.dataArrays ++ [durations_da] }
  -- `label_dim = nix_multi_tag.positions.append_set_dimension()` mutates
  -- the positions array through the tag
  let blk := update_da blk tId (fun da => { da with dims := da.dims ++ [.setd ep.labels] })
  let mtagId := blk.multiTags.length
  let wa := write_attr_meta st attr.name attr.ntype none attr
  let mtag : NMultiTag :=
    { name := attr.name, ntype := attr.ntype, definition := attr.definition
      positionsId := tId, extentsId := some dId, featureIds := []
      metadata := wa.2, sourceNames := []
      referenceIds := get_contained_signals blk grp }
  let blk := { blk with multiTags := blk.multiTags ++ [mtag] }
  let grp := { grp with multiTagIds := grp.multiTagIds ++ [mtagId] }
  some (wa.1, blk, grp)

/-- Source `NixIO.write_event` (lines 675-713). -/
def write_event (st : SecStore) (blk : NBlock) (grp : NGroup) (ev : NeoEvent) :
    Option (SecStore × NBlock × NGroup) := do
  let attr := neo_attr_to_nix ev.name "Event" ev.description none none
    ev.file_origin ev.annots (blk.multiTags.map (·.name))
  let tId := blk.dataArrays.length
  let times_da : NDataArray :=
    { name := attr.name ++ ".times", ntype := attr.ntype ++ ".times"
      definition := none, unit := get_units ev.times_unit false
      data := .d1 ev.times, dims := [], metadata := none, sourceNames := [] }
  let blk := { blk with dataArrays := blk.dataArrays ++ [times_da] }
  let blk := update_da blk tId (fun da => { da with dims := da.dims ++ [.setd ev.labels] })
  let mtagId := blk.multiTags.length
  let wa := write_attr_meta st attr.name attr.ntype none attr
  let mtag : NMultiTag :=
    { name := attr.name, ntype := attr.ntype, definition := attr.definition
      positionsId := tId, extentsId := none, featureIds := []
      metadata := wa.2, sourceNames := []
      referenceIds := get_contained_signals blk grp }
  let blk := { blk with multiTags := blk.multiTags ++ [mtag] }
  let grp := { grp with multiTagIds := grp.multiTagIds ++ [mtagId] }
  some (wa.1, blk, grp)

/-- Source `NixIO.write_spiketrain` (lines 715-784).  The `t_start`
property is created only when `sptr.t_start` is truthy (non-zero), while
`t_stop` is always created (`t_stop is not optional`). -/
def write_spiketrain (st : SecStore) (blk : NBlock) (grp : NGroup)
    (om : ObjMap) (sptr : NeoSpikeTrain) :
    Option (SecStore × NBlock × NGroup × ObjMap) := do
  let attr := neo_attr_to_nix sptr.name "SpikeTrain" sptr.description none none
    sptr.file_origin sptr.annots (blk.multiTags.map (·.name))
  let time_units := get_units sptr.times_unit false
  let tId := blk.dataArrays.length
  let times_da : NDataArray :=
    { name := attr.name ++ ".times", ntype := attr.ntype ++ ".times"
      definition := none, unit := time_units
      data := .d1 sptr.times, dims := [], metadata := none, sourceNames := [] }
  let blk := { blk with dataArrays := blk.dataArrays ++ [times_da] }
  let mtagId := blk.multiTags.length
  let grp := { grp with multiTagIds := grp.multiTagIds ++ [mtagId] }
  let om := om ++ [(sptr.eid, .mtag mtagId)]
  let gm := get_or_init_metadata st attr.name attr.ntype none
  let st := gm.1
  let wa := write_attr_meta st attr.name attr.ntype (some gm.2) attr
  let st := wa.1
  let tu ← time_units   -- `.rescale(time_units)` raises on dimensionless times
  let st := if sptr.t_start.mag ≠ 0 then
      create_property st gm.2 "t_start" [.float (rescale sptr.t_start tu).mag]
    else st
  let st := create_property st gm.2 "t_stop" [.float (rescale sptr.t_stop tu).mag]
  let wfr ← match sptr.waveforms with
    | none => some (st, blk, ([] : List Nat))
    | some wf => do
        let tu₂ ← get_units sptr.sampling_period.unit true
        let sampling_interval := (rescale sptr.sampling_period tu₂).mag
        let ws := create_section st (attr.name ++ ".waveforms")
          ("neo.waveforms" ++ ".metadata")
        let st := ws.1
        let st := match sptr.left_sweep with
          | some ls =>
              if ls.mag ≠ 0 then
                create_property st ws.2 "left_sweep" [.float (rescale ls tu₂).mag]
              else st
          | none => st
        let wId := blk.dataArrays.length
        let wda : NDataArray :=
          { name := attr.name ++ ".waveforms", ntype := "neo.waveforms"
            definition := none, unit := get_units wf.unit false
            data := .d3 wf.data3
            dims := [.setd [], .setd [],
              .sampled sampling_interval (some tu₂) (some "time") 0]
            metadata := some ws.2, sourceNames := [] }
        some (st, { blk with dataArrays := blk.dataArrays ++ [wda] }, [wId])
  let mtag : NMultiTag :=
    { name := attr.name, ntype := attr.ntype, definition := attr.definition
      positionsId := tId, extentsId := none, featureIds := wfr.2.2
      metadata := some gm.2, sourceNames := [], referenceIds := [] }
  some (wfr.1, { wfr.2.1 with multiTags := wfr.2.1.multiTags ++ [mtag] }, grp, om)

/-- The reference loop of `write_unit`: every already-mapped spike train
multi-tag gets the parent RCG source and then the unit source appended to
its `sources` list (an unmapped spike train raises `KeyError`). -/
def add_st_refs (om : ObjMap) (pname uname : String) :
    NBlock → List Nat → Option NBlock
  | blk, [] => some blk
  | blk, eid :: rest => do
      let m ← om_lookup om eid
      match m with
      | .mtag i =>
          add_st_refs om pname uname
            (update_mtag blk i (fun mt =>
              { mt with sourceNames := mt.sourceNames ++ [pname, uname] })) rest
      | .das _ => none   -- a spike train always maps to a multi-tag

/-- Source `NixIO.write_unit` (lines 786-808). -/
def write_unit (st : SecStore) (blk : NBlock) (om : ObjMap)
    (parentSrc : NSource) (ut : NeoUnit) :
    Option (SecStore × NBlock × NSource) := do
  let attr := neo_attr_to_nix ut.name "Unit" ut.description none none
    ut.file_origin ut.annots (parentSrc.sources.map NSource.name)
  let wa := write_attr_meta st attr.name attr.ntype none attr
  let usrc : NSource := .mk attr.name attr.ntype attr.definition wa.2 []
  let blk ← add_st_refs om parentSrc.name attr.name blk ut.spiketrain_eids
  some (wa.1, blk, parentSrc.addChild usrc)

/-- The per-channel loop of `write_recordingchannelgroup`: one child
source per entry of `channel_indexes`, with `index`, optional
`file_origin` and optional coordinate properties. -/
def write_rcg_channels (blkName : String) (attrFileOrigin : Option String)
    (srcDef : Option String) (chanNames : List String)
    (coords : Option (List (List Quant))) :
    SecStore → List Int → Nat → Option (SecStore × List NSource)
  | st, [], _ => some (st, [])
  | st, ch :: rest, idx => do
      let nm ← if chanNames.isEmpty then
          some (blkName ++ ".RecordingChannel" ++ natDecimal idx)
        else chanNames[idx]?
      let cs := create_section st nm ("neo.recordingchannel" ++ ".metadata")
      let st := cs.1
      let st := create_property st cs.2 "index" [.int ch]
      let st := match attrFileOrigin with
        | some fo => create_property st cs.2 "file_origin" [.str fo]
        | none => st
      let st ← match coords with
        | none => some st
        | some cc => do
            let chan_coords ← cc[idx]?
            let c0 ← chan_coords[0]?
            let coord_unit := c0.unit
            let st := create_property st cs.2 "coordinates"
              (chan_coords.map (fun c => .float (rescale c coord_unit).mag))
            some (create_property st cs.2 "coordinates.units" [.str coord_unit])
      let chan : NSource := .mk nm "neo.recordingchannel" srcDef (some cs.2) []
      let r ← write_rcg_channels blkName attrFileOrigin srcDef chanNames coords
        st rest (idx + 1)
      some (r.1, chan :: r.2)

def write_units_fold (om : ObjMap) :
    SecStore → NBlock → NSource → List NeoUnit → Option (SecStore × NBlock × NSource)
  | st, blk, src, [] => some (st, blk, src)
  | st, blk, src, u :: rest => do
      let r ← write_unit st blk om src u
      write_units_fold om r.1 r.2.1 r.2.2 rest

/-- The signal-reference loop of `write_recordingchannelgroup`: the RCG
source is appended to `da.sources` of every data array of every mapped
referenced signal. -/
def add_rcg_signal_refs (om : ObjMap) (srcName : String) :
    NBlock → List Nat → Option NBlock
  | blk, [] => some blk
  | blk, eid :: rest => do
      let m ← om_lookup om eid
      match m with
      | .das ids =>
          add_rcg_signal_refs om srcName
            (ids.foldl (fun b i => update_da b i (fun da =>
              { da with sourceNames := da.sourceNames ++ [srcName] })) blk) rest
      | .mtag _ => none   -- a signal always maps to a list of data arrays

/-- Source `NixIO.write_recordingchannelgroup` (lines 449-510). -/
def write_recordingchannelgroup (st : SecStore) (blk : NBlock) (om : ObjMap)
    (rcg : NeoRCG) : Option (SecStore × NBlock × ObjMap) := do
  let attr := neo_attr_to_nix rcg.name "RecordingChannelGroup" rcg.description
    none none rcg.file_origin rcg.annots (blk.sources.map NSource.name)
  let wa := write_attr_meta st attr.name attr.ntype none attr
  let st := wa.1
  let chans ← write_rcg_channels blk.name attr.file_origin attr.definition
    rcg.channel_names rcg.coordinates st rcg.channel_indexes 0
  let st := chans.1
  let src₀ : NSource := .mk attr.name attr.ntype attr.definition wa.2 chans.2
  let r ← write_units_fold om st blk src₀ rcg.units
  let st := r.1
  let blk := r.2.1
  let src := r.2.2
  let blk ← add_rcg_signal_refs om src.name blk rcg.analog_eids
  let blk ← add_rcg_signal_refs om src.name blk rcg.irregular_eids
  some (st, { blk with sources := blk.sources ++ [src] }, om)

/-- Source `NixIO.write_segment` (lines 420-447). -/
def write_segment (st : SecStore) (blk : NBlock) (om : ObjMap)
    (seg : NeoSegment) : Option (SecStore × NBlock × ObjMap) := do
  let attr := neo_attr_to_nix seg.name "Segment" seg.description
    seg.rec_datetime seg.file_datetime seg.file_origin seg.annots
    (blk.groups.map (·.name))
  -- `force_created_at` when `rec_datetime` is set; otherwise the group
  -- keeps its creation wall-clock time, modelled as 0
  let ca := match attr.created_at with
    | some dt => calculate_timestamp dt
    | none => 0
  let wa := write_attr_meta st attr.name attr.ntype none attr
  let grp : NGroup :=
    { name := attr.name, ntype := attr.ntype, definition := attr.definition
      created_at := ca, metadata := wa.2, dataArrayIds := [], multiTagIds := [] }
  let s₁ ← fold_opt (fun s a => write_analogsignal s.1 s.2.1 s.2.2.1 s.2.2.2 a)
    (wa.1, blk, grp, om) seg.analogsignals
  let s₂ ← fold_opt (fun s a => write_irregularlysampledsignal s.1 s.2.1 s.2.2.1 s.2.2.2 a)
    s₁ seg.irregularlysampledsignals
  let s₃ ← fold_opt (fun s ep => (write_epoch s.1 s.2.1 s.2.2.1 ep).map
      (fun r => (r.1, r.2.1, r.2.2, s.2.2.2)))
    s₂ seg.epochs
  let s₄ ← fold_opt (fun s ev => (write_event s.1 s.2.1 s.2.2.1 ev).map
      (fun r => (r.1, r.2.1, r.2.2, s.2.2.2)))
    s₃ seg.events
  let s₅ ← fold_opt (fun s sp => write_spiketrain s.1 s.2.1 s.2.2.1 s.2.2.2 sp)
    s₄ seg.spiketrains
  some (s₅.1, { s₅.2.1 with groups := s₅.2.1.groups ++ [s₅.2.2.1] }, s₅.2.2.2)

/-- Source `NixIO.write_block` (lines 390-407): always creates a new NIX
block under the mediated name, then writes segments and recording channel
groups. -/
def write_block (st : SecStore) (blocks : List NBlock) (om : ObjMap)
    (b : NeoBlock) : Option (SecStore × List NBlock × ObjMap) := do
  let attr := neo_attr_to_nix b.name "Block" b.description b.rec_datetime
    b.file_datetime b.file_origin b.annots (blocks.map (·.name))
  let ca := match attr.created_at with
    | some dt => calculate_timestamp dt
    | none => 0
  let wa := write_attr_meta st attr.name attr.ntype none attr
  let blk : NBlock :=
    { name := attr.name, ntype := attr.ntype, definition := attr.definition
      created_at := ca, metadata := wa.2
      dataArrays := [], groups := [], multiTags := [], sources := [] }
  let s₁ ← fold_opt (fun s sg => write_segment s.1 s.2.1 s.2.2 sg)
    (wa.1, blk, om) b.segments
  let s₂ ← fold_opt (fun s r => write_recordingchannelgroup s.1 s.2.1 s.2.2 r)
    s₁ b.rcgs
  some (s₂.1, blocks ++ [s₂.2.1], s₂.2.2)

/-! ### Read rules (`NixIO.read_*` and the `_*_to_neo` converters)

Read converters return structures holding exactly the fields the Neo
constructors receive.  `Except ReadErr` marks the paths where the Python
code raises (`KeyError`, `IndexError`, `AttributeError`, the metadata
consistency `assert` of `read_signal`). -/

inductive ReadErr where
  | notFound
  | keyError
  | indexError
  | attributeError
  | metadataMismatch
deriving DecidableEq, Repr

def nix_value_to_py : NixValue → PyScalar
  | .int n => .int n
  | .float q => .float q
  | .str s => .str s

def nix_value_q : NixValue → Option ℚ
  | .int n => some (n : ℚ)
  | .float q => some q
  | .str _ => none

/-- Decoding of one metadata property in `_nix_attr_to_neo`: exactly one
stored value decodes to a scalar, any other count to a list. -/
def decode_prop_values : List NixValue → PyVal
  | [v] => .scalar (nix_value_to_py v)
  | vs => .seq (vs.map nix_value_to_py)

/-- The property part of `_nix_attr_to_neo`: all metadata properties of
the object, in order, as decoded Python values. -/
def read_props (st : SecStore) (meta : Option SectionId) : List (String × PyVal) :=
  match meta.bind (sec_get st) with
  | some sec => sec.props.map (fun p => (p.pname, decode_prop_values p.values))
  | none => []

def find_prop (props : List (String × PyVal)) (k : String) : Option PyVal :=
  (props.find? (fun kv => kv.1 == k)).map (·.2)

def prop_str : Option PyVal → Option String
  | some (.scalar (.str s)) => some s
  | _ => none

def prop_int : Option PyVal → Option Int
  | some (.scalar (.int n)) => some n
  | _ => none

def prop_float : Option PyVal → Option ℚ
  | some (.scalar (.float q)) => some q
  | some (.scalar (.int n)) => some (n : ℚ)
  | _ => none

def prop_floats : Option PyVal → List ℚ
  | some (.scalar s) => (match s with
      | .float q => [q]
      | .int n => [(n : ℚ)]
      | _ => [])
  | some (.seq items) => items.filterMap (fun s => match s with
      | .float q => some q
      | .int n => some ((n : ℚ))
      | _ => none)
  | _ => []

/-- Keyword arguments that the Neo constructors consume as named
parameters; every other entry of the attribute dictionary built by
`_nix_attr_to_neo` lands in the entity's annotation dictionary.  A
metadata property carrying one of these names would collide with the
explicitly passed keyword (or overwrite the name/description entry), so
the round-trip theorems require annotation keys outside this list. -/
def reserved_keys (kind : String) : List String :=
  ["name", "description", "file_origin", "rec_datetime"] ++
  (if kind = "block" ∨ kind = "segment" then ["file_datetime", "index"]
   else if kind = "signal" then
     ["t_start", "sampling_rate", "sampling_period", "times", "units", "dtype"]
   else if kind = "epoch" then ["times", "durations", "labels", "units"]
   else if kind = "event" then ["times", "labels", "units"]
   else if kind = "spiketrain" then
     ["t_start", "t_stop", "times", "units", "sampling_rate", "left_sweep",
      "waveforms"]
   else if kind = "rcg" then
     ["channel_names", "channel_indexes", "coordinates"]
   else [])

def split_annots (props : List (String × PyVal)) (kind : String) :
    List (String × PyVal) :=
  props.filter (fun kv => !((reserved_keys kind).contains kv.1))

structure RBlock where
  name : String
  description : Option String
  rec_datetime : DT
  file_datetime : Option DT
  file_origin : Option String
  annots : List (String × PyVal)
deriving DecidableEq, Repr

structure RSegment where
  name : String
  description : Option String
  rec_datetime : DT
  file_datetime : Option DT
  file_origin : Option String
  annots : List (String × PyVal)
deriving DecidableEq, Repr

/-- Source `NixIO._block_to_neo` composed with `_nix_attr_to_neo`:
`rec_datetime` always comes back from `created_at`, `file_datetime` from
the property converted through `datetime.fromtimestamp`. -/
def block_to_neo (st : SecStore) (blk : NBlock) : RBlock :=
  let props := read_props st blk.metadata
  { name := blk.name
    description := blk.definition
    rec_datetime := fromtimestamp blk.created_at
    file_datetime := (prop_int (find_prop props "file_datetime")).map fromtimestamp
    file_origin := prop_str (find_prop props "file_origin")
    annots := split_annots props "block" }

/-- Source `NixIO._group_to_neo` composed with `_nix_attr_to_neo`. -/
def group_to_neo (st : SecStore) (grp : NGroup) : RSegment :=
  let props := read_props st grp.metadata
  { name := grp.name
    description := grp.definition
    rec_datetime := fromtimestamp grp.created_at
    file_datetime := (prop_int (find_prop props "file_datetime")).map fromtimestamp
    file_origin := prop_str (find_prop props "file_origin")
    annots := split_annots props "segment" }

structure RAnalog where
  name : String
  description : Option String
  file_origin : Option String
  annots : List (String × PyVal)
  channels : List (List ℚ)
  unit : String
  sampling_period : Quant
  t_start : Quant
deriving DecidableEq, Repr

structure RIrregular where
  name : String
  description : Option String
  file_origin : Option String
  annots : List (String × PyVal)
  channels : List (List ℚ)
  unit : String
  times : List ℚ
  times_unit : String
deriving DecidableEq, Repr

inductive RSignal where
  | asig (s : RAnalog)
  | isig (s : RIrregular)
  | noneRes
deriving DecidableEq, Repr

/-- Stable sort by array name modelling Python `sorted(key=lambda d:
d.name)`. -/
def insert_by_name (da : NDataArray) : List NDataArray → List NDataArray
  | [] => [da]
  | x :: xs => if da.name ≤ x.name then da :: x :: xs else x :: insert_by_name da xs

def sort_by_name : List NDataArray → List NDataArray
  | [] => []
  | x :: xs => insert_by_name x (sort_by_name xs)

def NDim.isSampled : NDim → Bool
  | .sampled .. => true
  | _ => false

def NDim.isRange : NDim → Bool
  | .range .. => true
  | _ => false

/-- Source `NixIO._signal_da_to_neo` (lines 245-292), eager (`lazy=False`)
path: arrays sorted by name, attributes from the first array, the name
taken from the shared metadata section, payload stacked channel-wise. -/
def signal_da_to_neo (st : SecStore) (group : List NDataArray) :
    Except ReadErr RSignal := do
  let sorted := sort_by_name group
  let da0 ← match sorted[0]? with
    | some d => Except.ok d
    | none => Except.error ReadErr.indexError
  let props := read_props st da0.metadata
  let mname ← match da0.metadata.bind (sec_get st) with
    | some sec => Except.ok sec.sname
    | none => Except.error ReadErr.attributeError
  let unit := da0.unit.getD "dimensionless"
  let channels := sorted.map (fun da => da.data.as1)
  let timedim := get_time_dimension da0.dims
  if da0.ntype = "neo.analogsignal" ∨ (timedim.map NDim.isSampled).getD false then
    match timedim with
    | some (.sampled interval tunit _ offset) =>
        Except.ok (.asig
          { name := mname
            description := da0.definition
            file_origin := prop_str (find_prop props "file_origin")
            annots := split_annots props "signal"
            channels := channels
            unit := unit
            sampling_period := ⟨interval, tunit.getD "dimensionless"⟩
            t_start := ⟨offset, tunit.getD "dimensionless"⟩ })
    | _ => Except.error ReadErr.attributeError
  else if da0.ntype = "neo.irregularlysampledsignal" ∨
      (timedim.map NDim.isRange).getD false then
    match timedim with
    | some (.range ticks tunit _) =>
        Except.ok (.isig
          { name := mname
            description := da0.definition
            file_origin := prop_str (find_prop props "file_origin")
            annots := split_annots props "signal"
            channels := channels
            unit := unit
            times := ticks
            times_unit := tunit.getD "dimensionless" })
    | _ => Except.error ReadErr.attributeError
  else Except.ok .noneRes

/-- The gathering loop of `read_signal`: arrays named
`"<base>.0", "<base>.1", ...` collected until the first missing index.
The `itertools.count()` loop can visit at most one index past the number
of arrays present, hence the explicit fuel. -/
def collect_signal_arrays (arrays : List NDataArray) (base : String) :
    Nat → Nat → List NDataArray
  | 0, _ => []
  | fuel + 1, idx =>
      match arrays.find? (fun da => da.name == base ++ "." ++ natDecimal idx) with
      | some da => da :: collect_signal_arrays arrays base fuel (idx + 1)
      | none => []

/-- Source `NixIO.read_signal` (lines 126-147), eager path: gather the
group's arrays by indexed name, assert that every array's metadata
attachment is the identical section, then convert. -/
def read_signal (st : SecStore) (blk : NBlock) (grp : NGroup) (base : String) :
    Except ReadErr RSignal := do
  let container := group_arrays blk grp
  let collected := collect_signal_arrays container base (container.length + 1) 0
  let da0 ← match collected[0]? with
    | some d => Except.ok d
    | none => Except.error ReadErr.indexError
  if collected.all (fun da => da.metadata == da0.metadata) then
    signal_da_to_neo st collected
  else Except.error ReadErr.metadataMismatch

structure REpoch where
  name : String
  description : Option String
  file_origin : Option String
  annots : List (String × PyVal)
  times : List ℚ
  times_unit : String
  durations : List ℚ
  durations_unit : String
  labels : List String
deriving DecidableEq, Repr

structure REvent where
  name : String
  description : Option String
  file_origin : Option String
  annots : List (String × PyVal)
  times : List ℚ
  times_unit : String
  labels : List String
deriving DecidableEq, Repr

structure RWave where
  data3 : List (List (List ℚ))
  unit : String
  sampling_period : Quant
  left_sweep : ℚ
deriving DecidableEq, Repr

structure RSpikeTrain where
  name : String
  description : Option String
  file_origin : Option String
  annots : List (String × PyVal)
  times : List ℚ
  times_unit : String
  t_start : Option ℚ
  t_stop : Option ℚ
  waveforms : Option RWave
deriving DecidableEq, Repr

inductive REest where
  | ep (e : REpoch)
  | ev (e : REvent)
  | sp (s : RSpikeTrain)
  | noneRes
deriving DecidableEq, Repr

/-- Source `NixIO._mtag_eest_to_neo` (lines 294-336), eager path. -/
def mtag_eest_to_neo (st : SecStore) (blk : NBlock) (mtag : NMultiTag) :
    Except ReadErr REest := do
  let props := read_props st mtag.metadata
  let pos ← match blk.dataArrays[mtag.positionsId]? with
    | some da => Except.ok da
    | none => Except.error ReadErr.notFound
  let time_unit := pos.unit.getD "dimensionless"
  let times := pos.data.as1
  if mtag.ntype = "neo.epoch" then do
    let ext ← match mtag.extentsId.bind (fun i => blk.dataArrays[i]?) with
      | some da => Except.ok da
      | none => Except.error ReadErr.attributeError
    let labels ← match pos.dims[0]? with
      | some (NDim.setd ls) => Except.ok ls
      | some _ => Except.error ReadErr.attributeError
      | none => Except.error ReadErr.indexError
    Except.ok (REest.ep
      { name := mtag.name, description := mtag.definition
        file_origin := prop_str (find_prop props "file_origin")
        annots := split_annots props "epoch"
        times := times, times_unit := time_unit
        durations := ext.data.as1
        durations_unit := ext.unit.getD "dimensionless"
        labels := labels })
  else if mtag.ntype = "neo.event" then do
    let labels ← match pos.dims[0]? with
      | some (NDim.setd ls) => Except.ok ls
      | some _ => Except.error ReadErr.attributeError
      | none => Except.error ReadErr.indexError
    Except.ok (REest.ev
      { name := mtag.name, description := mtag.definition
        file_origin := prop_str (find_prop props "file_origin")
        annots := split_annots props "event"
        times := times, times_unit := time_unit
        labels := labels })
  else if mtag.ntype = "neo.spiketrain" then do
    let wf ← match mtag.featureIds[0]? with
      | none => Except.ok none
      | some wid => do
          let wfda ← match blk.dataArrays[wid]? with
            | some da => Except.ok da
            | none => Except.error ReadErr.notFound
          let wft ← match get_time_dimension wfda.dims with
            | some (.sampled interval tunit _ _) =>
                Except.ok (Quant.mk interval (tunit.getD "dimensionless"))
            | _ => Except.error ReadErr.attributeError
          let meta ← match wfda.metadata.bind (sec_get st) with
            | some sec => Except.ok sec
            | none => Except.error ReadErr.attributeError
          -- `wfda.metadata["left_sweep"]` raises KeyError when absent
          let ls ← match meta.props.find? (fun p => p.pname == "left_sweep") with
            | some p => (match p.values.head?.bind nix_value_q with
                | some q => Except.ok q
                | none => Except.error ReadErr.keyError)
            | none => Except.error ReadErr.keyError
          Except.ok (some
            { data3 := wfda.data.as3, unit := wfda.unit.getD "dimensionless"
              sampling_period := wft, left_sweep := ls })
    Except.ok (.sp
      { name := mtag.name, description := mtag.definition
        file_origin := prop_str (find_prop props "file_origin")
        annots := split_annots props "spiketrain"
        times := times, times_unit := time_unit
        t_start := prop_float (find_prop props "t_start")
        t_stop := prop_float (find_prop props "t_stop")
        waveforms := wf })
  else Except.ok .noneRes

structure RUnit where
  name : String
  description : Option String
  file_origin : Option String
  annots : List (String × PyVal)
deriving DecidableEq, Repr

structure RRCG where
  name : String
  description : Option String
  file_origin : Option String
  annots : List (String × PyVal)
  channel_names : List String
  channel_indexes : List Int
  coordinates : Option (List (List ℚ) × String)
  runits : List RUnit
deriving DecidableEq, Repr

/-- Source `NixIO._source_unit_to_neo`. -/
def source_unit_to_neo (st : SecStore) (src : NSource) : RUnit :=
  let props := read_props st src.metadata
  { name := src.name
    description := src.definition
    file_origin := prop_str (find_prop props "file_origin")
    annots := split_annots props "unit" }

/-- Source `NixIO._source_rcg_to_neo` (lines 192-229): channel data from
the `neo.recordingchannel` child sources (`rec_channels[0]` raises
`IndexError` when there is no channel), units from the `neo.unit` child
sources. -/
def source_rcg_to_neo (st : SecStore) (src : NSource) :
    Except ReadErr RRCG := do
  let props := read_props st src.metadata
  let rec_channels := src.sources.filter (fun c => c.ntype == "neo.recordingchannel")
  let chprops := rec_channels.map (fun c => (c.name, read_props st c.metadata))
  let names := chprops.map (·.1)
  let indexes := chprops.map (fun c => (prop_int (find_prop c.2 "index")).getD 0)
  let c0 ← match chprops[0]? with
    | some c => Except.ok c
    | none => Except.error ReadErr.indexError
  let coords ← if (find_prop c0.2 "coordinates").isSome then do
      let cu ← match prop_str (find_prop c0.2 "coordinates.units") with
        | some u => Except.ok u
        | none => Except.error ReadErr.keyError
      Except.ok (some (chprops.map (fun c => prop_floats (find_prop c.2 "coordinates")), cu))
    else Except.ok none
  let nix_units := src.sources.filter (fun c => c.ntype == "neo.unit")
  Except.ok
    { name := src.name
      description := src.definition
      file_origin := prop_str (find_prop props "file_origin")
      annots := split_annots props "rcg"
      channel_names := names
      channel_indexes := indexes
      coordinates := coords
      runits := nix_units.map (source_unit_to_neo st) }

/-- Source `NixIO._get_referers` specialised to multi-tags: the tags whose
source list names the given source. -/
def get_referers_mtag (nix_name : String) (objs : List NMultiTag) :
    List NMultiTag :=
  objs.filter (fun mt => mt.sourceNames.contains nix_name)

/-- Source `NixIO._get_referers` specialised to data arrays. -/
def get_referers_da (nix_name : String) (objs : List NDataArray) :
    List NDataArray :=
  objs.filter (fun da => da.sourceNames.contains nix_name)

/-! ### Path resolution (`NixIO._get_object_at`, lines 833-852)

Paths are modelled as their `"/"`-separated component lists (the leading
empty component of the Python `split` is dropped): the path string
`"/b/segments/s"` is `["b", "segments", "s"]`.  Resolution recurses on
the parent components and indexes the parent's collection selected by the
fixed `_container_map` table; the single-component root path indexes the
file's block list directly. -/

def container_map : String → Option String
  | "segments" => some "groups"
  | "analogsignals" => some "data_arrays"
  | "irregularlysampledsignals" => some "data_arrays"
  | "events" => some "multi_tags"
  | "epochs" => some "multi_tags"
  | "spiketrains" => some "multi_tags"
  | "recordingchannelgroups" => some "sources"
  | "units" => some "sources"
  | _ => none

inductive ResolvedObj where
  | rBlock (b : NBlock)
  | rGroup (b : NBlock) (g : NGroup)
  | rDA (d : NDataArray)
  | rMTag (b : NBlock) (m : NMultiTag)
  | rSource (s : NSource)

/-- Indexing `getattr(parent_obj, container)[name]`: a `KeyError` from the
`_container_map` lookup or from the named lookup in the collection is a
not-found failure; `getattr` on an object without that collection raises
`AttributeError`. -/
def child_lookup (parent : ResolvedObj) (label name : String) :
    Except ReadErr ResolvedObj := do
  let coll ← match container_map label with
    | some c => Except.ok c
    | none => Except.error ReadErr.keyError
  match parent with
  | .rBlock b =>
      if coll = "groups" then
        match b.groups.find? (fun g => g.name == name) with
        | some g => Except.ok (.rGroup b g)
        | none => Except.error ReadErr.notFound
      else if coll = "data_arrays" then
        match b.dataArrays.find? (fun d => d.name == name) with
        | some d => Except.ok (.rDA d)
        | none => Except.error ReadErr.notFound
      else if coll = "multi_tags" then
        match b.multiTags.find? (fun m => m.name == name) with
        | some m => Except.ok (.rMTag b m)
        | none => Except.error ReadErr.notFound
      else if coll = "sources" then
        match b.sources.find? (fun s => s.name == name) with
        | some s => Except.ok (.rSource s)
        | none => Except.error ReadErr.notFound
      else Except.error ReadErr.attributeError
  | .rGroup b g =>
      if coll = "data_arrays" then
        match (group_arrays b g).find? (fun d => d.name == name) with
        | some d => Except.ok (.rDA d)
        | none => Except.error ReadErr.notFound
      else if coll = "multi_tags" then
        match (g.multiTagIds.filterMap (fun i => b.multiTags[i]?)).find?
            (fun m => m.name == name) with
        | some m => Except.ok (.rMTag b m)
        | none => Except.error ReadErr.notFound
      else Except.error ReadErr.attributeError
  | .rSource s =>
      if coll = "sources" then
        match s.sources.find? (fun c => c.name == name) with
        | some c => Except.ok (.rSource c)
        | none => Except.error ReadErr.notFound
      else Except.error ReadErr.attributeError
  | _ => Except.error ReadErr.attributeError

/-- `_get_object_at` on reversed component lists: the two-component base
case of the source (`len(parts) == 2`, leading empty part plus the block
name) is the singleton case here. -/
def get_object_at_rev (blocks : List NBlock) :
    List String → Except ReadErr ResolvedObj
  | [name] =>
      (match blocks.find? (fun b => b.name == name) with
       | some b => Except.ok (.rBlock b)
       | none => Except.error ReadErr.notFound)
  | name :: label :: rest => do
      let parent ← get_object_at_rev blocks rest
      child_lookup parent label name
  | [] => Except.error ReadErr.notFound

/-- Source `NixIO._get_object_at` on a path given as component list. -/
def get_object_at (blocks : List NBlock) (path : List String) :
    Except ReadErr ResolvedObj :=
  get_object_at_rev blocks path.reverse

end Neonix

namespace Neonix

/-! ### Store bookkeeping lemmas -/

def sec_props_at (st : SecStore) (i : Nat) : List PropEntry :=
  ((sec_get st i).map NSection.props).getD []

def has_prop (st : SecStore) (i : Nat) (k : String) : Bool :=
  (sec_props_at st i).any (fun p => p.pname == k)

theorem list_update_length {α : Type} (l : List α) (i : Nat) (f : α → α) :
    (list_update l i f).length = l.length := by
  induction l generalizing i with
  | nil => rfl
  | cons x xs ih =>
      cases i with
      | zero => rfl
      | succ n => simpa [list_update] using ih n

theorem list_update_get_eq {α : Type} (l : List α) (i : Nat) (f : α → α) :
    (list_update l i f)[i]? = (l[i]?).map f := by
  induction l generalizing i with
  | nil => cases i <;> rfl
  | cons x xs ih =>
      cases i with
      | zero => simp [list_update]
      | succ n => simpa [list_update] using ih n

theorem list_update_get_ne {α : Type} (l : List α) (i j : Nat) (f : α → α)
    (h : i ≠ j) : (list_update l i f)[j]? = l[j]? := by
  induction l generalizing i j with
  | nil => cases j <;> rfl
  | cons x xs ih =>
      cases i with
      | zero => cases j with
          | zero => exact absurd rfl h
          | succ m => simp [list_update]
      | succ n =>
          cases j with
          | zero => simp [list_update]
          | succ m => simpa [list_update] using ih n m (by omega)

theorem create_section_length (st : SecStore) (n t : String) :
    (create_section st n t).1.length = st.length + 1 := by
  simp [create_section]

theorem create_section_id (st : SecStore) (n t : String) :
    (create_section st n t).2 = st.length := rfl

theorem sec_get_create_lt (st : SecStore) (n t : String) (i : Nat)
    (h : i < st.length) : sec_get (create_section st n t).1 i = sec_get st i := by
  simp [create_section, sec_get, List.getElem?_append, h]

theorem sec_get_create_self (st : SecStore) (n t : String) :
    sec_get (create_section st n t).1 st.length = some ⟨n, t, []⟩ := by
  simp only [create_section, sec_get]
  exact List.getElem?_concat_length st ⟨n, t, []⟩

theorem create_property_length (st : SecStore) (i : Nat) (k : String)
    (vs : List NixValue) : (create_property st i k vs).length = st.length :=
  list_update_length st i _

theorem sec_get_create_property_ne (st : SecStore) (i j : Nat) (k : String)
    (vs : List NixValue) (h : i ≠ j) :
    sec_get (create_property st i k vs) j = sec_get st j :=
  list_update_get_ne st i j _ h

theorem sec_props_create_property (st : SecStore) (i : Nat) (k : String)
    (vs : List NixValue) (h : i < st.length) :
    sec_props_at (create_property st i k vs) i = sec_props_at st i ++ [⟨k, vs⟩] := by
  simp only [sec_props_at, sec_get, create_property, update_at]
  rw [list_update_get_eq]
  cases hx : st[i]? with
  | none =>
      exfalso
      rw [List.getElem?_eq_none_iff] at hx
      omega
  | some s => simp

theorem sec_props_create_property_ne (st : SecStore) (i j : Nat) (k : String)
    (vs : List NixValue) (h : i ≠ j) :
    sec_props_at (create_property st i k vs) j = sec_props_at st j := by
  simp only [sec_props_at, sec_get_create_property_ne st i j k vs h]

theorem create_property_val_length (st : SecStore) (i : Nat) (k : String)
    (v : Option ToValueRes) : (create_property_val st i k v).length = st.length := by
  cases v with
  | none => rfl
  | some r => cases r <;> exact create_property_length ..

theorem sec_props_create_property_val_ne (st : SecStore) (i j : Nat) (k : String)
    (v : Option ToValueRes) (h : i ≠ j) :
    sec_props_at (create_property_val st i k v) j = sec_props_at st j := by
  cases v with
  | none => rfl
  | some r => cases r <;> exact sec_props_create_property_ne _ i j _ _ h

/-- Value restriction under which an annotation entry is stored as one
plain scalar property (a supported int/float/text value). -/
def ann_scalar : PyVal → Prop
  | .scalar (.int _) => True
  | .scalar (.float _) => True
  | .scalar (.str _) => True
  | _ => False

instance : DecidablePred ann_scalar := by
  intro v
  unfold ann_scalar
  cases v with
  | scalar s => cases s <;> simp <;> infer_instance
  | seq _ => simp; infer_instance
  | seqOfSeq _ => simp; infer_instance

def ann_value : PyVal → NixValue
  | .scalar (.int n) => .int n
  | .scalar (.float q) => .float q
  | .scalar (.str s) => .str s
  | _ => .int 0

theorem to_value_ann_scalar (v : PyVal) (h : ann_scalar v) :
    to_value v = some (.single (ann_value v)) := by
  cases v with
  | scalar s => cases s <;> simp_all [ann_scalar, to_value, ann_value]
  | seq l => exact absurd h (by simp [ann_scalar])
  | seqOfSeq l => exact absurd h (by simp [ann_scalar])

/-- One stored scalar annotation decodes back to the original value. -/
theorem decode_ann_value (v : PyVal) (h : ann_scalar v) :
    decode_prop_values [ann_value v] = v := by
  cases v with
  | scalar s => cases s <;> simp_all [ann_scalar, ann_value, decode_prop_values,
      nix_value_to_py]
  | seq l => exact absurd h (by simp [ann_scalar])
  | seqOfSeq l => exact absurd h (by simp [ann_scalar])

theorem add_annotations_scalars (ann : List (String × PyVal)) :
    ∀ st i, i < st.length → (∀ kv ∈ ann, ann_scalar kv.2) →
      (add_annotations st i ann).length = st.length ∧
      (∀ j, i ≠ j → sec_props_at (add_annotations st i ann) j = sec_props_at st j) ∧
      sec_props_at (add_annotations st i ann) i
        = sec_props_at st i ++ ann.map (fun kv => ⟨kv.1, [ann_value kv.2]⟩) := by
  induction ann with
  | nil => intro st i h _; simp [add_annotations]
  | cons kv rest ih =>
      intro st i h hs
      have hkv : ann_scalar kv.2 := hs kv (List.mem_cons_self kv rest)
      have hstep : add_annotations st i (kv :: rest)
          = add_annotations (create_property st i kv.1 [ann_value kv.2]) i rest := by
        simp [add_annotations, to_value_ann_scalar kv.2 hkv, create_property_val]
      have hlen : (create_property st i kv.1 [ann_value kv.2]).length = st.length :=
        create_property_length ..
      obtain ⟨ih₁, ih₂, ih₃⟩ := ih (create_property st i kv.1 [ann_value kv.2]) i
        (by rw [hlen]; exact h) (fun x hx => hs x (List.mem_cons_of_mem kv hx))
      refine ⟨by rw [hstep, ih₁, hlen], ?_, ?_⟩
      · intro j hj
        rw [hstep, ih₂ j hj, sec_props_create_property_ne st i j _ _ hj]
      · rw [hstep, ih₃, sec_props_create_property st i _ _ h]
        simp

def fdt_props : Option DT → List PropEntry
  | some fdt => [⟨"file_datetime", [.int (calculate_timestamp fdt)]⟩]
  | none => []

def fo_props : Option String → List PropEntry
  | some fo => [⟨"file_origin", [.str fo]⟩]
  | none => []

def ann_props (ann : List (String × PyVal)) : List PropEntry :=
  ann.map (fun kv => ⟨kv.1, [ann_value kv.2]⟩)

/-- The property list `_write_attr_annotations` adds to the object's
metadata section when every annotation value is a supported scalar. -/
def attr_meta_props (attr : NixAttr) : List PropEntry :=
  fdt_props attr.file_datetime ++ fo_props attr.file_origin ++ ann_props attr.annots

theorem sec_get_create_property_self (st : SecStore) (i : Nat) (k : String)
    (vs : List NixValue) :
    sec_get (create_property st i k vs) i
      = (sec_get st i).map (fun s => { s with props := s.props ++ [⟨k, vs⟩] }) :=
  list_update_get_eq st i _

theorem sec_get_append_ne (st : SecStore) (s : NSection) (j : Nat)
    (hj : j ≠ st.length) : sec_get (st ++ [s]) j = sec_get st j := by
  simp only [sec_get]
  by_cases hlt : j < st.length
  · simp [List.getElem?_append, hlt]
  · have h1 : (st ++ [s])[j]? = none := by
      rw [List.getElem?_eq_none_iff]
      simp only [List.length_append, List.length_cons, List.length_nil]
      omega
    have h2 : st[j]? = none := by
      rw [List.getElem?_eq_none_iff]
      omega
    rw [h1, h2]

theorem sec_get_append_self (st : SecStore) (s : NSection) :
    sec_get (st ++ [s]) st.length = some s :=
  List.getElem?_concat_length st s

theorem add_annotations_scalars_get (ann : List (String × PyVal)) :
    ∀ st i, (∀ kv ∈ ann, ann_scalar kv.2) →
      (add_annotations st i ann).length = st.length ∧
      (∀ j, j ≠ i → sec_get (add_annotations st i ann) j = sec_get st j) ∧
      sec_get (add_annotations st i ann) i
        = (sec_get st i).map (fun s => { s with props := s.props ++ ann_props ann }) := by
  induction ann with
  | nil =>
      intro st i _
      refine ⟨rfl, fun _ _ => rfl, ?_⟩
      show sec_get st i = _
      cases sec_get st i <;> simp [ann_props]
  | cons kv rest ih =>
      intro st i hs
      have hkv : ann_scalar kv.2 := hs kv (List.mem_cons_self kv rest)
      have hstep : add_annotations st i (kv :: rest)
          = add_annotations (create_property st i kv.1 [ann_value kv.2]) i rest := by
        simp [add_annotations, to_value_ann_scalar kv.2 hkv, create_property_val]
      obtain ⟨ih₁, ih₂, ih₃⟩ := ih (create_property st i kv.1 [ann_value kv.2]) i
        (fun x hx => hs x (List.mem_cons_of_mem kv hx))
      refine ⟨?_, ?_, ?_⟩
      · rw [hstep, ih₁, create_property_length]
      · intro j hj
        rw [hstep, ih₂ j hj, sec_get_create_property_ne st i j _ _ (Ne.symm hj)]
      · rw [hstep, ih₃, sec_get_create_property_self]
        cases sec_get st i <;> simp [ann_props]

theorem add_annotations_names_get (ann : List (String × PyVal)) :
    ∀ st i,
      (add_annotations st i ann).length = st.length ∧
      (∀ j, j ≠ i → sec_get (add_annotations st i ann) j = sec_get st j) ∧
      ∃ extra, sec_get (add_annotations st i ann) i
          = (sec_get st i).map (fun s => { s with props := s.props ++ extra }) ∧
        ∀ p ∈ extra, p.pname ∈ ann.map (·.1) := by
  induction ann with
  | nil =>
      intro st i
      refine ⟨rfl, fun _ _ => rfl, [], ?_, by simp⟩
      show sec_get st i = _
      cases sec_get st i <;> simp
  | cons kv rest ih =>
      intro st i
      have hstep : add_annotations st i (kv :: rest)
          = add_annotations (create_property_val st i kv.1 (to_value kv.2)) i rest := by
        simp [add_annotations]
      obtain ⟨ih₁, ih₂, extra, hex, hnames⟩ :=
        ih (create_property_val st i kv.1 (to_value kv.2)) i
      refine ⟨by rw [hstep, ih₁, create_property_val_length], ?_, ?_⟩
      · intro j hj
        rw [hstep, ih₂ j hj]
        cases hv : to_value kv.2 with
        | none => rfl
        | some r =>
            cases r <;> exact sec_get_create_property_ne st i j _ _ (Ne.symm hj)
      · cases hv : to_value kv.2 with
        | none =>
            refine ⟨extra, ?_, fun p hp => List.mem_cons_of_mem _ (hnames p hp)⟩
            rw [hstep, hex, hv]
            rfl
        | some r =>
            have hvals : ∃ vs, create_property_val st i kv.1 (to_value kv.2)
                = create_property st i kv.1 vs := by
              rw [hv]
              cases r with
              | single v => exact ⟨[v], rfl⟩
              | multiple vs => exact ⟨vs, rfl⟩
            obtain ⟨vs, hvs⟩ := hvals
            refine ⟨⟨kv.1, vs⟩ :: extra, ?_, ?_⟩
            · rw [hstep, hex, hvs, sec_get_create_property_self]
              cases sec_get st i <;> simp
            · intro p hp
              rcases List.mem_cons.mp hp with hp | hp
              · rw [hp]; simp
              · exact List.mem_cons_of_mem _ (hnames p hp)

theorem wam_stage_fdt_some (st : SecStore) (n t : String) (fdt : Option DT)
    (i : SectionId) :
    ∃ st', wam_stage_fdt st n t (some i) fdt = (st', some i) ∧
      st'.length = st.length ∧
      (∀ j, j ≠ i → sec_get st' j = sec_get st j) ∧
      sec_get st' i = (sec_get st i).map
        (fun s => { s with props := s.props ++ fdt_props fdt }) := by
  cases fdt with
  | none =>
      refine ⟨st, rfl, rfl, fun _ _ => rfl, ?_⟩
      show sec_get st i = _
      cases sec_get st i <;> simp [fdt_props]
  | some d =>
      refine ⟨create_property st i "file_datetime" [.int (calculate_timestamp d)],
        rfl, create_property_length st i _ _, ?_, ?_⟩
      · intro j hj
        exact sec_get_create_property_ne st i j _ _ (Ne.symm hj)
      · rw [sec_get_create_property_self]
        rfl

theorem wam_stage_fo_some (st : SecStore) (n t : String) (fo : Option String)
    (i : SectionId) :
    ∃ st', wam_stage_fo st n t (some i) fo = (st', some i) ∧
      st'.length = st.length ∧
      (∀ j, j ≠ i → sec_get st' j = sec_get st j) ∧
      sec_get st' i = (sec_get st i).map
        (fun s => { s with props := s.props ++ fo_props fo }) := by
  cases fo with
  | none =>
      refine ⟨st, rfl, rfl, fun _ _ => rfl, ?_⟩
      show sec_get st i = _
      cases sec_get st i <;> simp [fo_props]
  | some f =>
      refine ⟨create_property st i "file_origin" [.str f],
        rfl, create_property_length st i _ _, ?_, ?_⟩
      · intro j hj
        exact sec_get_create_property_ne st i j _ _ (Ne.symm hj)
      · rw [sec_get_create_property_self]
        rfl

theorem wam_stage_ann_some_exact (st : SecStore) (n t : String)
    (ann : List (String × PyVal)) (i : SectionId)
    (hs : ∀ kv ∈ ann, ann_scalar kv.2) :
    ∃ st', wam_stage_ann st n t (some i) ann = (st', some i) ∧
      st'.length = st.length ∧
      (∀ j, j ≠ i → sec_get st' j = sec_get st j) ∧
      sec_get st' i = (sec_get st i).map
        (fun s => { s with props := s.props ++ ann_props ann }) := by
  by_cases he : ann.isEmpty
  · refine ⟨st, by simp [wam_stage_ann, he], rfl, fun _ _ => rfl, ?_⟩
    rw [List.isEmpty_iff.mp he]
    show sec_get st i = _
    cases sec_get st i <;> simp [ann_props]
  · obtain ⟨a₁, a₂, a₃⟩ := add_annotations_scalars_get ann st i hs
    exact ⟨_, by simp [wam_stage_ann, he, get_or_init_metadata], a₁, a₂, a₃⟩

theorem wam_stage_ann_some_names (st : SecStore) (n t : String)
    (ann : List (String × PyVal)) (i : SectionId) :
    ∃ st' extra, wam_stage_ann st n t (some i) ann = (st', some i) ∧
      st'.length = st.length ∧
      (∀ j, j ≠ i → sec_get st' j = sec_get st j) ∧
      sec_get st' i = (sec_get st i).map
        (fun s => { s with props := s.props ++ extra }) ∧
      ∀ p ∈ extra, p.pname ∈ ann.map (·.1) := by
  by_cases he : ann.isEmpty
  · refine ⟨st, [], by simp [wam_stage_ann, he], rfl, fun _ _ => rfl, ?_, by simp⟩
    show sec_get st i = _
    cases sec_get st i <;> simp
  · obtain ⟨a₁, a₂, extra, hex, hnames⟩ := add_annotations_names_get ann st i
    exact ⟨_, extra, by simp [wam_stage_ann, he, get_or_init_metadata],
      a₁, a₂, hex, hnames⟩

theorem write_attr_meta_eq_stages (st : SecStore) (n t : String)
    (m : Option SectionId) (attr : NixAttr) :
    write_attr_meta st n t m attr =
      wam_stage_ann
        (wam_stage_fo (wam_stage_fdt st n t m attr.file_datetime).1 n t
          (wam_stage_fdt st n t m attr.file_datetime).2 attr.file_origin).1 n t
        (wam_stage_fo (wam_stage_fdt st n t m attr.file_datetime).1 n t
          (wam_stage_fdt st n t m attr.file_datetime).2 attr.file_origin).2
        attr.annots := rfl

theorem write_attr_meta_some_exact (st : SecStore) (n t : String)
    (attr : NixAttr) (i : SectionId)
    (hs : ∀ kv ∈ attr.annots, ann_scalar kv.2) :
    ∃ st', write_attr_meta st n t (some i) attr = (st', some i) ∧
      st'.length = st.length ∧
      (∀ j, j ≠ i → sec_get st' j = sec_get st j) ∧
      sec_get st' i = (sec_get st i).map
        (fun s => { s with props := s.props ++ attr_meta_props attr }) := by
  obtain ⟨s₁, e₁, l₁, o₁, g₁⟩ := wam_stage_fdt_some st n t attr.file_datetime i
  obtain ⟨s₂, e₂, l₂, o₂, g₂⟩ := wam_stage_fo_some s₁ n t attr.file_origin i
  obtain ⟨s₃, e₃, l₃, o₃, g₃⟩ := wam_stage_ann_some_exact s₂ n t attr.annots i hs
  refine ⟨s₃, ?_, by omega, ?_, ?_⟩
  · rw [write_attr_meta_eq_stages, e₁]
    dsimp only
    rw [e₂]
    dsimp only
    exact e₃
  · intro j hj
    rw [o₃ j hj, o₂ j hj, o₁ j hj]
  · rw [g₃, g₂, g₁]
    cases sec_get st i <;> simp [attr_meta_props]

theorem write_attr_meta_some_names (st : SecStore) (n t : String)
    (attr : NixAttr) (i : SectionId) :
    ∃ st' extra, write_attr_meta st n t (some i) attr = (st', some i) ∧
      st'.length = st.length ∧
      (∀ j, j ≠ i → sec_get st' j = sec_get st j) ∧
      sec_get st' i = (sec_get st i).map
        (fun s => { s with props := s.props ++ extra }) ∧
      ∀ p ∈ extra, p.pname = "file_datetime" ∨ p.pname = "file_origin" ∨
        p.pname ∈ attr.annots.map (·.1) := by
  obtain ⟨s₁, e₁, l₁, o₁, g₁⟩ := wam_stage_fdt_some st n t attr.file_datetime i
  obtain ⟨s₂, e₂, l₂, o₂, g₂⟩ := wam_stage_fo_some s₁ n t attr.file_origin i
  obtain ⟨s₃, extra, e₃, l₃, o₃, g₃, hn₃⟩ := wam_stage_ann_some_names s₂ n t attr.annots i
  refine ⟨s₃, fdt_props attr.file_datetime ++ fo_props attr.file_origin ++ extra,
    ?_, by omega, ?_, ?_, ?_⟩
  · rw [write_attr_meta_eq_stages, e₁]
    dsimp only
    rw [e₂]
    dsimp only
    exact e₃
  · intro j hj
    rw [o₃ j hj, o₂ j hj, o₁ j hj]
  · rw [g₃, g₂, g₁]
    cases sec_get st i <;> simp
  · intro p hp
    simp only [List.append_assoc, List.mem_append] at hp
    rcases hp with hp | hp | hp
    · cases hfd : attr.file_datetime with
      | none => rw [hfd] at hp; simp [fdt_props] at hp
      | some d =>
          rw [hfd] at hp
          simp only [fdt_props, List.mem_singleton] at hp
          left
          rw [hp]
    · cases hfo : attr.file_origin with
      | none => rw [hfo] at hp; simp [fo_props] at hp
      | some f =>
          rw [hfo] at hp
          simp only [fo_props, List.mem_singleton] at hp
          right; left
          rw [hp]
    · right; right
      exact hn₃ p hp

theorem write_attr_meta_none_empty (st : SecStore) (n t : String)
    (attr : NixAttr) (h₁ : attr.file_datetime = none)
    (h₂ : attr.file_origin = none) (h₃ : attr.annots = []) :
    write_attr_meta st n t none attr = (st, none) := by
  rw [write_attr_meta_eq_stages, h₁, h₂]
  dsimp only [wam_stage_fdt, wam_stage_fo]
  rw [h₃]
  rfl

theorem write_attr_meta_none_exact (st : SecStore) (n t : String)
    (attr : NixAttr)
    (hne : attr.file_datetime ≠ none ∨ attr.file_origin ≠ none ∨ attr.annots ≠ [])
    (hs : ∀ kv ∈ attr.annots, ann_scalar kv.2) :
    ∃ st', write_attr_meta st n t none attr = (st', some st.length) ∧
      st'.length = st.length + 1 ∧
      (∀ j, j ≠ st.length → sec_get st' j = sec_get st j) ∧
      sec_get st' st.length
        = some ⟨n, t ++ ".metadata", attr_meta_props attr⟩ := by
  cases hfd : attr.file_datetime with
  | some d =>
      have e₁ : wam_stage_fdt st n t none attr.file_datetime
          = (create_property (st ++ [⟨n, t ++ ".metadata", []⟩]) st.length
              "file_datetime" [.int (calculate_timestamp d)], some st.length) := by
        rw [hfd]
        rfl
      obtain ⟨s₂, e₂, l₂, o₂, g₂⟩ := wam_stage_fo_some
        (create_property (st ++ [⟨n, t ++ ".metadata", []⟩]) st.length
          "file_datetime" [.int (calculate_timestamp d)]) n t attr.file_origin st.length
      obtain ⟨s₃, e₃, l₃, o₃, g₃⟩ := wam_stage_ann_some_exact s₂ n t attr.annots st.length hs
      refine ⟨s₃, ?_, ?_, ?_, ?_⟩
      · rw [write_attr_meta_eq_stages, e₁]
        dsimp only
        rw [e₂]
        dsimp only
        exact e₃
      · rw [l₃, l₂, create_property_length]
        simp
      · intro j hj
        rw [o₃ j hj, o₂ j hj, sec_get_create_property_ne _ _ j _ _ (Ne.symm hj),
          sec_get_append_ne st _ j hj]
      · rw [g₃, g₂, sec_get_create_property_self, sec_get_append_self]
        simp [attr_meta_props, hfd, fdt_props]
  | none =>
      cases hfo : attr.file_origin with
      | some f =>
          have e₂ : wam_stage_fo st n t none attr.file_origin
              = (create_property (st ++ [⟨n, t ++ ".metadata", []⟩]) st.length
                  "file_origin" [.str f], some st.length) := by
            rw [hfo]
            rfl
          obtain ⟨s₃, e₃, l₃, o₃, g₃⟩ := wam_stage_ann_some_exact
            (create_property (st ++ [⟨n, t ++ ".metadata", []⟩]) st.length
              "file_origin" [.str f]) n t attr.annots st.length hs
          refine ⟨s₃, ?_, ?_, ?_, ?_⟩
          · rw [write_attr_meta_eq_stages, hfd]
            dsimp only [wam_stage_fdt]
            rw [e₂]
            dsimp only
            exact e₃
          · rw [l₃, create_property_length]
            simp
          · intro j hj
            rw [o₃ j hj, sec_get_create_property_ne _ _ j _ _ (Ne.symm hj),
              sec_get_append_ne st _ j hj]
          · rw [g₃, sec_get_create_property_self, sec_get_append_self]
            simp [attr_meta_props, hfd, hfo, fdt_props, fo_props]
      | none =>
          have hann : attr.annots ≠ [] := by
            rcases hne with h | h | h
            · exact absurd hfd h
            · exact absurd hfo h
            · exact h
          have he : attr.annots.isEmpty = false := by
            cases hl : attr.annots with
            | nil => exact absurd hl hann
            | cons x xs => rfl
          have e₃ : wam_stage_ann st n t none attr.annots
              = (add_annotations (st ++ [⟨n, t ++ ".metadata", []⟩]) st.length
                  attr.annots, some st.length) := by
            unfold wam_stage_ann
            rw [he]
            rfl
          obtain ⟨a₁, a₂, a₃⟩ := add_annotations_scalars_get attr.annots
            (st ++ [⟨n, t ++ ".metadata", []⟩]) st.length hs
          refine ⟨add_annotations (st ++ [⟨n, t ++ ".metadata", []⟩]) st.length
            attr.annots, ?_, ?_, ?_, ?_⟩
          · rw [write_attr_meta_eq_stages, hfd]
            dsimp only [wam_stage_fdt]
            rw [hfo]
            dsimp only [wam_stage_fo]
            exact e₃
          · rw [a₁]
            simp
          · intro j hj
            rw [a₂ j hj, sec_get_append_ne st _ j hj]
          · rw [a₃, sec_get_append_self]
            simp [attr_meta_props, hfd, hfo, fdt_props, fo_props]

end Neonix

namespace Neo2nix

/-!
Shallow embedding of the second engine, `neo2nix/nixio.py`: the
`file_transaction` decorator, `NixHelp` and the `_write_*` methods with
their create-or-fetch and deletion-reconciliation logic.  Metadata values
reuse the `Neonix` value model.
-/

abbrev MetaDict := List (String × Neonix.PyVal)

/-- Python truthiness of a metadata value (`if value:` in
`NixHelp.write_metadata`). -/
def pyTruthy : Neonix.PyVal → Bool
  | .scalar (.int n) => !(n == 0)
  | .scalar (.float q) => !(q == 0)
  | .scalar (.str s) => !(s == "")
  | .scalar (.bytes s) => !(s == "")
  | .scalar (.dt _) => true
  | .scalar (.quantity m _) => !(m == 0)
  | .scalar (.npScalar q) => !(q == 0)
  | .seq l => !l.isEmpty
  | .seqOfSeq l => !l.isEmpty

/-- Wrapping performed by `write_metadata`: a non-list value becomes a
one-element tuple, then every element goes through `nix.Value`. -/
def value_items : Neonix.PyVal → List Neonix.PyScalar
  | .scalar s => [s]
  | .seq l => l
  | .seqOfSeq _ => []

structure NProp where
  pname : String
  values : List Neonix.NixValue
deriving DecidableEq, Repr

/-- Create-or-update of one section property (`try props[name] ... except
KeyError: create_property`, then `p.values = values` when different). -/
def upsert_prop (ps : List NProp) (pname : String)
    (vals : List Neonix.NixValue) : List NProp :=
  if ps.any (fun p => p.pname == pname) then
    ps.map (fun p => if p.pname == pname then { p with values := vals } else p)
  else ps ++ [⟨pname, vals⟩]

/-- Source `NixHelp.write_metadata`: store every truthy dictionary entry
as a typed property, creating or updating it. -/
def write_metadata (ps : List NProp) (d : MetaDict) : List NProp :=
  d.foldl (fun acc kv =>
    if pyTruthy kv.2 then
      upsert_prop acc kv.1 ((value_items kv.2).map Neonix.item_to_nix_value)
    else acc) ps

/-- Metadata sections of this engine form a tree under the file root. -/
inductive N2Section where
  | mk (sname stype : String) (props : List NProp) (children : List N2Section)

def N2Section.sname : N2Section → String
  | .mk n _ _ _ => n

def N2Section.stype : N2Section → String
  | .mk _ t _ _ => t

def N2Section.props : N2Section → List NProp
  | .mk _ _ p _ => p

def N2Section.children : N2Section → List N2Section
  | .mk _ _ _ c => c

def upsert_child (cs : List N2Section) (c : N2Section) : List N2Section :=
  if cs.any (fun s => s.sname == c.sname) then
    cs.map (fun s => if s.sname == c.sname then c else s)
  else cs ++ [c]

/-- Source `NixHelp.get_or_create_section` composed with an update of the
target section: walks (or creates) `root -> "<group>s" -> <name>` and
applies `f` to the target section in place. -/
def get_or_create_then (root : N2Section) (group_name name : String)
    (f : N2Section → N2Section) : N2Section :=
  let gname := group_name ++ "s"
  let gsec := match root.children.find? (fun s => s.sname == gname) with
    | some s => s
    | none => .mk gname group_name [] []
  let target := match gsec.children.find? (fun s => s.sname == name) with
    | some s => s
    | none => .mk name group_name [] []
  let gsec₁ : N2Section :=
    .mk gsec.sname gsec.stype gsec.props (upsert_child gsec.children (f target))
  .mk root.sname root.stype root.props (upsert_child root.children gsec₁)

structure N2Tag where
  name : String
  ttype : String
  referenceNames : List String
deriving DecidableEq, Repr

structure N2DataArray where
  name : String
  datype : String
  data : List ℚ
  unit : String
  dim_interval : Option ℚ
  dim_unit : String
deriving DecidableEq, Repr

structure N2Block where
  name : String
  btype : String
  metaName : Option String   -- name of the file-level section attached as metadata
  tags : List N2Tag
  dataArrays : List N2DataArray
deriving DecidableEq, Repr

structure N2File where
  sections : List N2Section
  blocks : List N2Block

/-- Neo entities as this engine consumes them: the attribute tuple
(`_default_meta_attr_names` plus the per-kind `_meta_attrs`) and the
annotation dictionary.  `None` attributes are skipped by the
`getattr(...) is not None` guard. -/
structure NeoAnalog2 where
  name : String
  annots : MetaDict
  description : Option Neonix.PyVal
  file_origin : Option Neonix.PyVal
  channel_index : Option Neonix.PyVal
  data : List ℚ
  unit : String
  sampling_rate : Neonix.Quant
  t_start : Neonix.Quant
deriving Repr

structure NeoSegment2 where
  name : String
  annots : MetaDict
  description : Option Neonix.PyVal
  file_origin : Option Neonix.PyVal
  file_datetime : Option Neonix.PyVal
  rec_datetime : Option Neonix.PyVal
  index : Option Neonix.PyVal
  analogsignals : List NeoAnalog2
deriving Repr

structure NeoBlock2 where
  name : String
  annots : MetaDict
  description : Option Neonix.PyVal
  file_origin : Option Neonix.PyVal
  file_datetime : Option Neonix.PyVal
  rec_datetime : Option Neonix.PyVal
  index : Option Neonix.PyVal
  segments : List NeoSegment2
deriving Repr

/-- `metadata = dict(annotations)`, then the non-`None` attributes in
`meta_attrs` order. -/
def assemble_meta (annots : MetaDict)
    (attrs : List (String × Option Neonix.PyVal)) : MetaDict :=
  annots ++ attrs.filterMap (fun kv => kv.2.map (fun v => (kv.1, v)))

def block_meta (b : NeoBlock2) : MetaDict :=
  assemble_meta b.annots
    [("description", b.description), ("file_origin", b.file_origin),
     ("file_datetime", b.file_datetime), ("rec_datetime", b.rec_datetime),
     ("index", b.index)]

def segment_meta (s : NeoSegment2) : MetaDict :=
  assemble_meta s.annots
    [("description", s.description), ("file_origin", s.file_origin),
     ("file_datetime", s.file_datetime), ("rec_datetime", s.rec_datetime),
     ("index", s.index)]

def analog_meta (a : NeoAnalog2) : MetaDict :=
  assemble_meta a.annots
    [("description", a.description), ("file_origin", a.file_origin),
     ("channel_index", a.channel_index)] ++
  [("t_start", .scalar (.float a.t_start.mag)),
   ("t_start__unit", .scalar (.str a.t_start.unit))]

/-- Source `NixHelp.get_obj_nix_name`: `"<name> @@ <parent_id>"`. -/
def get_obj_nix_name (name parent_id : String) : String :=
  name ++ " @@ " ++ parent_id

/-- Source `NixHelp.get_block`: lookup by name, `NameError` if absent. -/
def get_block (f : N2File) (block_id : String) : Option N2Block :=
  f.blocks.find? (fun b => b.name == block_id)

def replace_block (f : N2File) (b : N2Block) : N2File :=
  { f with blocks := f.blocks.map (fun x => if x.name == b.name then b else x) }

/-- Update of the file-level section a block's metadata points at. -/
def update_root_section (f : N2File) (sname : String)
    (g : N2Section → N2Section) : N2File :=
  { f with sections := f.sections.map (fun s =>
      if s.sname == sname then g s else s) }

/-- The create-or-fetch plus in-place updates of the data array in
`_write_analogsignal` (unit, sampled dimension, dimension unit). -/
def asig_array_update (blk : N2Block) (obj_name : String)
    (sig : NeoAnalog2) : N2DataArray :=
  let arr : N2DataArray := match blk.dataArrays.find? (fun a => a.name == obj_name) with
    | some a => a
    | none =>
        { name := obj_name, datype := "neo_analogsignal", data := sig.data
          unit := "", dim_interval := none, dim_unit := "" }
  let arr := { arr with unit := sig.unit }
  let arr := if arr.dim_interval.isNone then
      { arr with dim_interval := some sig.sampling_rate.mag }
    else arr
  { arr with dim_unit := sig.sampling_rate.unit }

/-- Writing the updated array back into the block's array collection. -/
def blk_array_upsert (blk : N2Block) (obj_name : String)
    (arr : N2DataArray) : N2Block :=
  if blk.dataArrays.any (fun a => a.name == obj_name) then
    { blk with dataArrays := blk.dataArrays.map (fun a =>
        if a.name == obj_name then arr else a) }
  else { blk with dataArrays := blk.dataArrays ++ [arr] }

/-- Source `NixIO._write_analogsignal` (neo2nix, lines 355-396):
create-or-fetch the data array under the mediated `"name @@ tag"` name,
set unit and sampled dimension, then write the metadata (with the special
`t_start` serialization) into the block's section tree. -/
def write_analogsignal2 (f : N2File) (block_id tag_id : String)
    (sig : NeoAnalog2) : Option N2File := do
  let blk ← get_block f block_id
  let obj_name := get_obj_nix_name sig.name tag_id
  let arr := asig_array_update blk obj_name sig
  let blk := blk_array_upsert blk obj_name arr
  let f := replace_block f blk
  let mname ← blk.metaName
  some (update_root_section f mname (fun root =>
    get_or_create_then root "analogsignal" obj_name (fun sec =>
      .mk sec.sname sec.stype (write_metadata sec.props (analog_meta sig))
        sec.children)))

/-- The create-or-fetch of the `neo_segment` tag in `_write_segment`. -/
def blk_tag_fetch (blk : N2Block) (nm : String) : N2Tag :=
  match blk.tags.find? (fun t => t.name == nm) with
  | some t => t
  | none => { name := nm, ttype := "neo_segment", referenceNames := [] }

/-- Appending the freshly created tag to the block when it was absent. -/
def blk_tag_ensure (blk : N2Block) (nm : String) (tag : N2Tag) : N2Block :=
  if blk.tags.any (fun t => t.name == nm) then blk
  else { blk with tags := blk.tags ++ [tag] }

def fold_write_asig (block_id tag_id : String) :
    N2File → List NeoAnalog2 → Option N2File
  | f, [] => some f
  | f, a :: rest => do
      let f₁ ← write_analogsignal2 f block_id tag_id a
      fold_write_asig block_id tag_id f₁ rest

def append_refs (blk : N2Block) :
    List String → List String → Option (List String)
  | refs, [] => some refs
  | refs, n :: rest => do
      let _ ← blk.dataArrays.find? (fun a => a.name == n)
      append_refs blk (refs ++ [n]) rest

/-- The `if recursive` block of `_write_segment` (neo2nix): write all
current signals, drop references whose names are gone, append references
for new names. -/
def write_segment2_rec (f : N2File) (block_id : String) (seg : NeoSegment2)
    (tag : N2Tag) : Option N2File := do
  let convert := fun (a : NeoAnalog2) => get_obj_nix_name a.name tag.name
  let blk₁ ← get_block f block_id
  let existing := (blk₁.dataArrays.filter
    (fun a => a.datype == "neo_analogsignal" &&
      tag.referenceNames.contains a.name)).map (·.name)
  let current := seg.analogsignals.map convert
  let to_remove := existing.filter (fun n => !(current.contains n))
  let to_append := current.filter (fun n => !(existing.contains n))
  let f ← fold_write_asig block_id tag.name f seg.analogsignals
  let blk₂ ← get_block f block_id
  let refs₀ := tag.referenceNames.filter (fun n => !(to_remove.contains n))
  let refs ← append_refs blk₂ refs₀ to_append
  let blk₂ := { blk₂ with tags := blk₂.tags.map (fun t =>
      if t.name == seg.name then { t with referenceNames := refs } else t) }
  some (replace_block f blk₂)

/-- Source `NixIO._write_segment` (neo2nix, lines 311-353):
create-or-fetch the `neo_segment` tag, write its metadata, then reconcile
the signal references. -/
def write_segment2 (f : N2File) (block_id : String) (seg : NeoSegment2)
    (recursive : Bool) : Option N2File := do
  let blk ← get_block f block_id
  let tag := blk_tag_fetch blk seg.name
  let blk := blk_tag_ensure blk seg.name tag
  let f := replace_block f blk
  let mname ← blk.metaName
  let f := update_root_section f mname (fun root =>
    get_or_create_then root "segment" seg.name (fun sec =>
      .mk sec.sname sec.stype (write_metadata sec.props (segment_meta seg))
        sec.children))
  if recursive then write_segment2_rec f block_id seg tag
  else some f

def fold_write_seg (block_id : String) (recursive : Bool) :
    N2File → List NeoSegment2 → Option N2File
  | f, [] => some f
  | f, s :: rest => do
      let f₁ ← write_segment2 f block_id s recursive
      fold_write_seg block_id recursive f₁ rest

/-- The `if recursive` block of `_write_block` (neo2nix): write the
current segments, then delete every previously existing `neo_segment` tag
whose name is no longer among the current segment names. -/
def write_block2_rec (f : N2File) (b : NeoBlock2) : Option N2File := do
  let blk₁ ← get_block f b.name
  let existing := (blk₁.tags.filter (fun t => t.ttype == "neo_segment")).map (·.name)
  let segNames := b.segments.map (·.name)
  let to_remove := existing.filter (fun n => !(segNames.contains n))
  let f ← fold_write_seg b.name true f b.segments
  let blk₂ ← get_block f b.name
  let keptTags := blk₂.tags.filter (fun t => !(to_remove.contains t.name))
  some (replace_block f { blk₂ with tags := keptTags })

/-- Source `NixIO._write_block` (neo2nix, lines 271-309): create-or-fetch
the block by name, attach/refresh the metadata section, then reconcile
the segments. -/
def write_block2 (f : N2File) (b : NeoBlock2) (recursive : Bool) :
    Option N2File := do
  let blk : N2Block := match f.blocks.find? (fun x => x.name == b.name) with
    | some x => x
    | none =>
        { name := b.name, btype := "neo_block", metaName := none
          tags := [], dataArrays := [] }
  let existedBefore := f.blocks.any (fun x => x.name == b.name)
  -- `nix_block.metadata = nix_file.sections[block.name]` or a fresh section
  let f := if f.sections.any (fun s => s.sname == b.name) then f
    else { f with sections := f.sections ++ [.mk b.name "block" [] []] }
  let blk := { blk with metaName := some b.name }
  let f := if existedBefore then replace_block f blk
    else { f with blocks := f.blocks ++ [blk] }
  let f := update_root_section f b.name (fun root =>
    .mk root.sname root.stype (write_metadata root.props (block_meta b))
      root.children)
  if recursive then write_block2_rec f b
  else some f

/-! ### The `file_transaction` decorator (neo2nix, lines 12-27) -/

structure IOState where
  fOpen : Bool
deriving DecidableEq, Repr

/-- Source `file_transaction`: open the file, run the wrapped method,
close, return.  There is no `try/finally`: when the wrapped method raises,
the exception propagates and `instance.f.close()` is never executed. -/
def file_transaction {α : Type} (method : IOState → IOState × Except String α)
    (s : IOState) : IOState × Except String α :=
  let s₁ : IOState := { s with fOpen := true }
  match method s₁ with
  | (s₂, .ok r) => ({ s₂ with fOpen := false }, .ok r)
  | (s₂, .error e) => (s₂, .error e)

end Neo2nix

namespace Neonix

/-! ### Claim C8 -/

/-- C8: the specification says a flat sequence of plain scalars is stored
as an ordered sequence of single converted values, and only nested
sequences are dropped with a warning.  The code instead tests
`isinstance(v, Iterable)` (the whole sequence, not the item) inside the
loop, so EVERY sequence - flat or nested, and the empty one through the
trailing `if not len(vv)` - is dropped as `None`; the intended
element-wise conversion is unreachable dead code.  The second conjunct
evaluates the code at the failing input `[1, 2]`, the third states what
the specification demanded there. -/
theorem C8_flat_sequences_dropped :
    (∀ items : List PyScalar, to_value (.seq items) = none) ∧
    to_value (.seq [.int 1, .int 2]) = none ∧
    to_value_spec_flat [.int 1, .int 2]
      = some (.multiple [.int 1, .int 2]) := by
  refine ⟨?_, rfl, rfl⟩
  intro items
  simp [to_value]

/-! ### Claim C10 -/

theorem get_units_simplify_ne (u : String) (h : u ≠ "dimensionless") :
    get_units u true = some (simplify_unit u) := by
  have hs : simplify_unit u ≠ "dimensionless" := by
    unfold simplify_unit
    split
    · decide
    · exact h
  simp [get_units, hs]

theorem sec_get_ite_create_property_ne (c : Prop) [Decidable c]
    (X : SecStore) (i j : Nat) (k : String) (vs : List NixValue) (h : i ≠ j) :
    sec_get (if c then create_property X i k vs else X) j = sec_get X j := by
  split
  · exact sec_get_create_property_ne X i j k vs h
  · rfl

/-- C10: `write_spiketrain` guards the `t_start` metadata property with
the truthiness of `sptr.t_start`, so a spike train starting exactly at
time zero is stored without a `t_start` property, while the `t_stop`
property is written unconditionally.  The resulting multi-tag metadata
section (created at arena index `st.length`) carries `t_stop` always and
`t_start` exactly when the magnitude is non-zero. -/
theorem C10_t_start_truthiness (st : SecStore) (blk : NBlock) (grp : NGroup)
    (om : ObjMap) (sptr : NeoSpikeTrain) (tu : String)
    (htu : get_units sptr.times_unit false = some tu)
    (hwf : sptr.waveforms = none ∨ sptr.sampling_period.unit ≠ "dimensionless")
    (hann : ∀ kv ∈ sptr.annots, kv.1 ≠ "t_start") :
    ∃ res, write_spiketrain st blk grp om sptr = some res ∧
      has_prop res.1 st.length "t_stop" = true ∧
      has_prop res.1 st.length "t_start" = !(sptr.t_start.mag == 0) := by
  set a := neo_attr_to_nix sptr.name "SpikeTrain" sptr.description none none
    sptr.file_origin sptr.annots (blk.multiTags.map (fun x => x.name)) with ha
  obtain ⟨st3, extra, ewa, lwa, owa, gwa, hnames⟩ := write_attr_meta_some_names
    (st ++ [⟨a.name, a.ntype ++ ".metadata", []⟩]) a.name a.ntype a st.length
  have hbase : sec_get (st ++ [(⟨a.name, a.ntype ++ ".metadata", []⟩ : NSection)])
      st.length = some ⟨a.name, a.ntype ++ ".metadata", []⟩ :=
    sec_get_append_self st _
  rw [hbase] at gwa
  simp only [Option.map_some', List.nil_append] at gwa
  have hannx : a.annots = sptr.annots := rfl
  have hex : ∀ p ∈ extra, p.pname ≠ "t_start" := by
    intro p hp
    rcases hnames p hp with h | h | h
    · rw [h]; decide
    · rw [h]; decide
    · rw [hannx] at h
      obtain ⟨kv, hkv, hpk⟩ := List.mem_map.mp h
      rw [← hpk]
      exact hann kv hkv
  have hexany : extra.any (fun p => p.pname == "t_start") = false := by
    rw [List.any_eq_false]
    intro p hp
    simpa using hex p hp
  have hlen3 : st3.length = st.length + 1 := by
    rw [lwa]
    simp
  have h5len : (create_property (if sptr.t_start.mag ≠ 0 then
      create_property st3 st.length "t_start" [.float (rescale sptr.t_start tu).mag]
      else st3) st.length "t_stop"
      [.float (rescale sptr.t_stop tu).mag]).length = st.length + 1 := by
    rw [create_property_length]
    split
    · rw [create_property_length, hlen3]
    · exact hlen3
  have h5get : sec_get (create_property (if sptr.t_start.mag ≠ 0 then
      create_property st3 st.length "t_start" [.float (rescale sptr.t_start tu).mag]
      else st3) st.length "t_stop"
      [.float (rescale sptr.t_stop tu).mag]) st.length
      = some ⟨a.name, a.ntype ++ ".metadata", extra ++
          (if sptr.t_start.mag ≠ 0 then
            [⟨"t_start", [.float (rescale sptr.t_start tu).mag]⟩] else []) ++
          [⟨"t_stop", [.float (rescale sptr.t_stop tu).mag]⟩]⟩ := by
    rw [sec_get_create_property_self]
    by_cases hts : sptr.t_start.mag ≠ 0
    · rw [if_pos hts, if_pos hts, sec_get_create_property_self, gwa]
      simp
    · rw [if_neg hts, if_neg hts, gwa]
      simp
  have hmain : ∀ X : SecStore, sec_get X st.length
      = some ⟨a.name, a.ntype ++ ".metadata", extra ++
          (if sptr.t_start.mag ≠ 0 then
            [⟨"t_start", [.float (rescale sptr.t_start tu).mag]⟩] else []) ++
          [⟨"t_stop", [.float (rescale sptr.t_stop tu).mag]⟩]⟩ →
      has_prop X st.length "t_stop" = true ∧
      has_prop X st.length "t_start" = !(sptr.t_start.mag == 0) := by
    intro X hX
    constructor
    · simp only [has_prop, sec_props_at, hX]
      simp
    · simp only [has_prop, sec_props_at, hX]
      by_cases hts : sptr.t_start.mag = 0
      · simp [hts, hexany]
      · simp [hts, hexany]
  cases hwfc : sptr.waveforms with
  | none =>
      simp only [write_spiketrain, htu, hwfc, get_or_init_metadata,
        create_section, Option.bind_some]
      refine ⟨_, rfl, ?_⟩
      refine hmain _ ?_
      simp only [ewa]
      exact h5get
  | some wf =>
      have hdu : sptr.sampling_period.unit ≠ "dimensionless" := by
        rcases hwf with h | h
        · rw [hwfc] at h
          cases h
        · exact h
      cases hls : sptr.left_sweep with
      | none =>
          simp only [write_spiketrain, htu, hwfc, hls,
            get_units_simplify_ne _ hdu, get_or_init_metadata, create_section,
            Option.bind_some]
          refine ⟨_, rfl, ?_⟩
          refine hmain _ ?_
          simp only [ewa]
          rw [sec_get_append_ne _ _ _ (by rw [h5len]; omega)]
          exact h5get
      | some ls =>
          simp only [write_spiketrain, htu, hwfc, hls,
            get_units_simplify_ne _ hdu, get_or_init_metadata, create_section,
            Option.bind_some]
          refine ⟨_, rfl, ?_⟩
          refine hmain _ ?_
          simp only [ewa]
          rw [sec_get_ite_create_property_ne _ _ _ _ _ _ (by rw [h5len]; omega)]
          rw [sec_get_append_ne _ _ _ (by rw [h5len]; omega)]
          exact h5get

end Neonix

namespace Neonix

def wBlk : NBlock :=
  { name := "b", ntype := "neo.block", definition := none, created_at := 0
    metadata := none, dataArrays := [], groups := [], multiTags := [], sources := [] }

def wGrp : NGroup :=
  { name := "s", ntype := "neo.segment", definition := none, created_at := 0
    metadata := none, dataArrayIds := [], multiTagIds := [] }

def wSptr0 : NeoSpikeTrain :=
  { eid := 1, name := some "st1", description := none, file_origin := none
    annots := [], times := [1], times_unit := "s", t_start := ⟨0, "s"⟩
    t_stop := ⟨2, "s"⟩, sampling_period := ⟨1, "s"⟩, left_sweep := none
    waveforms := none }

/-- Witness for C10: a spike train whose `t_start` is exactly zero is
written with a `t_stop` property but no `t_start` property. -/
theorem C10_t_start_truthiness_witness :
    ∃ res, write_spiketrain [] wBlk wGrp [] wSptr0 = some res ∧
      has_prop res.1 (List.length ([] : SecStore)) "t_stop" = true ∧
      has_prop res.1 (List.length ([] : SecStore)) "t_start"
        = !(wSptr0.t_start.mag == 0) :=
  C10_t_start_truthiness [] wBlk wGrp [] wSptr0 "s" (by decide) (Or.inl rfl)
    (by decide)

end Neonix

namespace Neo2nix

/-! ### Claim C9 -/

/-- C9: the specification requires the file handle to be released on
every exit path of a `file_transaction`-wrapped operation.  The decorator
has no `try/finally`: on the normal path the handle is closed, but when
the wrapped method raises, the exception propagates past the
`instance.f.close()` call and the handle stays open. -/
theorem C9_file_transaction_leaks_on_error :
    (∀ (r : Nat) (s : IOState),
        file_transaction (fun s₁ => (s₁, Except.ok r)) s
          = (⟨false⟩, Except.ok r)) ∧
    (∀ (e : String) (s : IOState),
        file_transaction (α := Nat) (fun s₁ => (s₁, Except.error e)) s
          = (⟨true⟩, Except.error e)) := by
  exact ⟨fun r s => rfl, fun e s => rfl⟩

end Neo2nix

namespace Neonix

/-! ### Claim C6 -/

/-- C6: path resolution returns the object reached by recursively
resolving the parent path and indexing the parent's collection selected
by the fixed kind-label table; the single-component root path resolves
directly against the file's block collection with no parent lookup;
resolution fails with a not-found error when any path segment names an
absent object (an unknown kind label raises the `_container_map`
`KeyError`).  Malformed even-length paths, on which the Python recursion
would not terminate, are outside the path grammar and excluded by the
`parent ≠ []` hypothesis. -/
theorem C6_path_resolution (blocks : List NBlock) :
    (∀ name b, blocks.find? (fun x => x.name == name) = some b →
        get_object_at blocks [name] = .ok (.rBlock b)) ∧
    (∀ name, blocks.find? (fun x => x.name == name) = none →
        get_object_at blocks [name] = .error .notFound) ∧
    (∀ parent label name, parent ≠ [] →
        get_object_at blocks (parent ++ [label, name])
          = (get_object_at blocks parent).bind
              (fun p => child_lookup p label name)) ∧
    (container_map "segments" = some "groups" ∧
      container_map "analogsignals" = some "data_arrays" ∧
      container_map "irregularlysampledsignals" = some "data_arrays" ∧
      container_map "events" = some "multi_tags" ∧
      container_map "epochs" = some "multi_tags" ∧
      container_map "spiketrains" = some "multi_tags" ∧
      container_map "recordingchannelgroups" = some "sources" ∧
      container_map "units" = some "sources") ∧
    (∀ p label name, container_map label = none →
        child_lookup p label name = .error .keyError) ∧
    (∀ (b : NBlock) name, b.groups.find? (fun g => g.name == name) = none →
        child_lookup (.rBlock b) "segments" name = .error .notFound) ∧
    (∀ (b : NBlock) (g : NGroup) name,
        (group_arrays b g).find? (fun d => d.name == name) = none →
        child_lookup (.rGroup b g) "analogsignals" name = .error .notFound) := by
  refine ⟨?_, ?_, ?_, ⟨rfl, rfl, rfl, rfl, rfl, rfl, rfl, rfl⟩, ?_, ?_, ?_⟩
  · intro name b h
    simp [get_object_at, get_object_at_rev, h]
  · intro name h
    simp [get_object_at, get_object_at_rev, h]
  · intro parent label name _
    show get_object_at_rev blocks (parent ++ [label, name]).reverse = _
    rw [List.reverse_append]
    rfl
  · intro p label name h
    simp only [child_lookup, h]
    rfl
  · intro b name h
    have hdef : child_lookup (.rBlock b) "segments" name
        = (match b.groups.find? (fun g => g.name == name) with
           | some g => Except.ok (.rGroup b g)
           | none => Except.error .notFound) := rfl
    rw [hdef, h]
  · intro b g name h
    have hdef : child_lookup (.rGroup b g) "analogsignals" name
        = (match (group_arrays b g).find? (fun d => d.name == name) with
           | some d => Except.ok (.rDA d)
           | none => Except.error .notFound) := rfl
    rw [hdef, h]

/-- Witness for C6 at a concrete store and path. -/
theorem C6_path_resolution_witness :
    get_object_at [wBlk] (["b"] ++ ["segments", "s"])
      = (get_object_at [wBlk] ["b"]).bind
          (fun p => child_lookup p "segments" "s") :=
  (C6_path_resolution [wBlk]).2.2.1 ["b"] "segments" "s" (by decide)

end Neonix


namespace Neo2nix

/-! ### Reconciliation lemmas for claim C4 -/

theorem get_block_name (f : N2File) (bid : String) (blk : N2Block)
    (h : get_block f bid = some blk) : blk.name = bid := by
  have := List.find?_some h
  simpa using this

theorem get_block_update_root (f : N2File) (s : String)
    (g : N2Section → N2Section) (bid : String) :
    get_block (update_root_section f s g) bid = get_block f bid := rfl

theorem get_block_replace (f : N2File) (bid : String) (b' : N2Block)
    (hb : b'.name = bid) (h : (get_block f bid).isSome) :
    get_block (replace_block f b') bid = some b' := by
  rcases f with ⟨secs, blocks⟩
  simp only [get_block, replace_block] at *
  induction blocks with
  | nil => simp at h
  | cons x xs ih =>
      by_cases hx : x.name = bid
      · have hbeq : (x.name == b'.name) = true := by
          rw [hb, hx]
          exact beq_self_eq_true bid
        simp only [List.map_cons, hbeq, if_pos]
        rw [List.find?_cons_of_pos]
        simp [hb]
      · have hbeq : (x.name == b'.name) = false := by
          rw [hb]
          exact beq_eq_false_iff_ne.mpr hx
        have hxb : (x.name == bid) = false := beq_eq_false_iff_ne.mpr hx
        simp only [List.map_cons, hbeq, Bool.false_eq_true, if_false]
        rw [List.find?_cons_of_neg _ (by simp [hxb])]
        apply ih
        rw [List.find?_cons_of_neg _ (by simp [hxb])] at h
        exact h

end Neo2nix

namespace Neo2nix

theorem asig_array_update_name (blk : N2Block) (obj : String)
    (sig : NeoAnalog2) : (asig_array_update blk obj sig).name = obj := by
  unfold asig_array_update
  cases hfind : blk.dataArrays.find? (fun a => a.name == obj) with
  | none =>
      dsimp only
      split <;> rfl
  | some a₀ =>
      dsimp only
      have ha : a₀.name = obj := by simpa using List.find?_some hfind
      split <;> simpa using ha

theorem blk_array_upsert_spec (blk : N2Block) (obj : String)
    (arr : N2DataArray) (ha : arr.name = obj) :
    (blk_array_upsert blk obj arr).tags = blk.tags ∧
    (blk_array_upsert blk obj arr).metaName = blk.metaName ∧
    (blk_array_upsert blk obj arr).name = blk.name ∧
    (∀ n, blk.dataArrays.any (fun x => x.name == n) = true →
      (blk_array_upsert blk obj arr).dataArrays.any (fun x => x.name == n) = true) ∧
    (blk_array_upsert blk obj arr).dataArrays.any (fun x => x.name == obj) = true := by
  unfold blk_array_upsert
  by_cases hpres : blk.dataArrays.any (fun x => x.name == obj) = true
  · rw [if_pos hpres]
    refine ⟨rfl, rfl, rfl, ?_, ?_⟩
    · intro n hn
      obtain ⟨x, hmem, hx⟩ := List.any_eq_true.mp hn
      apply List.any_eq_true.mpr
      refine ⟨if x.name == obj then arr else x, List.mem_map_of_mem _ hmem, ?_⟩
      by_cases hxo : x.name == obj
      · simp only [hxo, if_pos]
        have hxo' : x.name = obj := by simpa using hxo
        rw [ha, ← hxo']
        exact hx
      · simp only [hxo]
        simpa using hx
    · obtain ⟨x, hmem, hx⟩ := List.any_eq_true.mp hpres
      apply List.any_eq_true.mpr
      refine ⟨if x.name == obj then arr else x, List.mem_map_of_mem _ hmem, ?_⟩
      simp only [hx, if_pos]
      simp [ha]
  · rw [if_neg hpres]
    refine ⟨rfl, rfl, rfl, ?_, ?_⟩
    · intro n hn
      simp only [List.any_append]
      rw [hn]
      rfl
    · simp only [List.any_append]
      have : ([arr].any (fun x => x.name == obj)) = true := by simp [ha]
      rw [this]
      simp

/-- Effect of `_write_analogsignal` (neo2nix) on the containing block:
tags untouched, data-array names preserved, the mediated array name
present afterwards. -/
theorem replace_block_names (f : N2File) (b : N2Block) :
    (replace_block f b).blocks.map (fun x => x.name) =
      f.blocks.map (fun x => x.name) := by
  rcases f with ⟨secs, blocks⟩
  simp only [replace_block]
  induction blocks with
  | nil => rfl
  | cons x xs ih =>
      simp only [List.map_cons, ih]
      congr 1
      by_cases hc : x.name = b.name
      · rw [if_pos (by rw [hc]; exact beq_self_eq_true _)]
        exact hc.symm
      · rw [if_neg (fun habs => hc (by simpa using habs))]

theorem write_analogsignal2_spec (f : N2File) (bid tid : String)
    (sig : NeoAnalog2) (blk : N2Block) (m : String)
    (h : get_block f bid = some blk) (hm : blk.metaName = some m) :
    ∃ f' blk', write_analogsignal2 f bid tid sig = some f' ∧
      get_block f' bid = some blk' ∧
      blk'.tags = blk.tags ∧ blk'.metaName = blk.metaName ∧
      blk'.name = blk.name ∧
      (∀ n, blk.dataArrays.any (fun x => x.name == n) = true →
        blk'.dataArrays.any (fun x => x.name == n) = true) ∧
      blk'.dataArrays.any (fun x => x.name == get_obj_nix_name sig.name tid) = true ∧
      f'.blocks.map (fun x => x.name) = f.blocks.map (fun x => x.name) := by
  have hname := get_block_name f bid blk h
  obtain ⟨ht, hmn, hbn, hpr, hob⟩ := blk_array_upsert_spec blk
    (get_obj_nix_name sig.name tid)
    (asig_array_update blk (get_obj_nix_name sig.name tid) sig)
    (asig_array_update_name ..)
  refine ⟨update_root_section (replace_block f (blk_array_upsert blk
      (get_obj_nix_name sig.name tid)
      (asig_array_update blk (get_obj_nix_name sig.name tid) sig))) m
      (fun root => get_or_create_then root "analogsignal"
        (get_obj_nix_name sig.name tid)
        (fun sec => N2Section.mk sec.sname sec.stype
          (write_metadata sec.props (analog_meta sig)) sec.children)),
    blk_array_upsert blk (get_obj_nix_name sig.name tid)
      (asig_array_update blk (get_obj_nix_name sig.name tid) sig),
    ?_, ?_, ht, hmn, hbn, hpr, hob, replace_block_names f _⟩
  · unfold write_analogsignal2
    rw [h]
    have hx : (blk_array_upsert blk (get_obj_nix_name sig.name tid)
        (asig_array_update blk (get_obj_nix_name sig.name tid) sig)).metaName
        = some m := by rw [hmn, hm]
    show Option.bind (blk_array_upsert blk (get_obj_nix_name sig.name tid)
        (asig_array_update blk (get_obj_nix_name sig.name tid) sig)).metaName _ = _
    rw [hx]
    rfl
  · rw [get_block_update_root]
    apply get_block_replace
    · rw [hbn, hname]
    · rw [h]
      rfl

end Neo2nix
namespace Neo2nix

theorem fold_write_asig_spec (bid tid : String) :
    ∀ (sigs : List NeoAnalog2) (f : N2File) (blk : N2Block) (m : String),
      get_block f bid = some blk → blk.metaName = some m →
      ∃ f' blk', fold_write_asig bid tid f sigs = some f' ∧
        get_block f' bid = some blk' ∧
        blk'.tags = blk.tags ∧ blk'.metaName = blk.metaName ∧
        blk'.name = blk.name ∧
        (∀ n, blk.dataArrays.any (fun x => x.name == n) = true →
          blk'.dataArrays.any (fun x => x.name == n) = true) ∧
        (∀ a ∈ sigs, blk'.dataArrays.any
          (fun x => x.name == get_obj_nix_name a.name tid) = true) ∧
        f'.blocks.map (fun x => x.name) = f.blocks.map (fun x => x.name) := by
  intro sigs
  induction sigs with
  | nil =>
      intro f blk m h _
      exact ⟨f, blk, rfl, h, rfl, rfl, rfl, fun _ hn => hn, by simp, rfl⟩
  | cons a rest ih =>
      intro f blk m h hm
      obtain ⟨f₁, blk₁, e₁, g₁, t₁, m₁, n₁, p₁, o₁, q₁⟩ :=
        write_analogsignal2_spec f bid tid a blk m h hm
      obtain ⟨f₂, blk₂, e₂, g₂, t₂, m₂, n₂, p₂, o₂, q₂⟩ :=
        ih f₁ blk₁ m g₁ (by rw [m₁, hm])
      refine ⟨f₂, blk₂, ?_, g₂, by rw [t₂, t₁], by rw [m₂, m₁],
        by rw [n₂, n₁], ?_, ?_, by rw [q₂, q₁]⟩
      · show fold_write_asig bid tid f (a :: rest) = some f₂
        simp only [fold_write_asig, e₁, Option.some_bind]
        exact e₂
      · intro n hn
        exact p₂ n (p₁ n hn)
      · intro x hx
        rcases List.mem_cons.mp hx with hx | hx
        · subst hx
          exact p₂ _ o₁
        · exact o₂ x hx

theorem append_refs_spec (blk : N2Block) :
    ∀ (ns : List String) (refs : List String),
      (∀ n ∈ ns, blk.dataArrays.any (fun x => x.name == n) = true) →
      ∃ r, append_refs blk refs ns = some r := by
  intro ns
  induction ns with
  | nil => intro refs _; exact ⟨refs, rfl⟩
  | cons n rest ih =>
      intro refs hall
      have hn := hall n (List.mem_cons_self n rest)
      obtain ⟨x, hmem, hx⟩ := List.any_eq_true.mp hn
      have hfind : ∃ y, blk.dataArrays.find? (fun a => a.name == n) = some y := by
        cases hf : blk.dataArrays.find? (fun a => a.name == n) with
        | none =>
            have := List.find?_eq_none.mp hf x hmem
            simp [hx] at this
        | some y => exact ⟨y, rfl⟩
      obtain ⟨y, hy⟩ := hfind
      obtain ⟨r, hr⟩ := ih (refs ++ [n]) (fun z hz => hall z (List.mem_cons_of_mem n hz))
      refine ⟨r, ?_⟩
      simp only [append_refs, hy, Option.some_bind]
      exact hr

theorem blk_tag_fetch_spec (blk : N2Block) (nm : String) :
    (blk_tag_fetch blk nm).name = nm ∧
      (blk.tags.any (fun t => t.name == nm) = false →
        (blk_tag_fetch blk nm).ttype = "neo_segment") := by
  unfold blk_tag_fetch
  cases hf : blk.tags.find? (fun t => t.name == nm) with
  | none => exact ⟨rfl, fun _ => rfl⟩
  | some t =>
      constructor
      · simpa using List.find?_some hf
      · intro habs
        exfalso
        have hmem' := List.mem_of_find?_eq_some hf
        have := List.any_eq_true.mpr ⟨t, hmem', List.find?_some hf⟩
        rw [habs] at this
        exact Bool.false_ne_true this

theorem blk_tag_ensure_pairs (blk : N2Block) (nm : String) (tag : N2Tag)
    (hn : tag.name = nm)
    (ht : blk.tags.any (fun t => t.name == nm) = false →
      tag.ttype = "neo_segment") :
    (blk_tag_ensure blk nm tag).tags.map (fun t => (t.name, t.ttype)) =
      blk.tags.map (fun t => (t.name, t.ttype)) ++
        (if blk.tags.any (fun t => t.name == nm) then []
         else [(nm, "neo_segment")]) ∧
    (blk_tag_ensure blk nm tag).metaName = blk.metaName ∧
    (blk_tag_ensure blk nm tag).name = blk.name ∧
    (blk_tag_ensure blk nm tag).dataArrays = blk.dataArrays := by
  unfold blk_tag_ensure
  by_cases hpres : blk.tags.any (fun t => t.name == nm) = true
  · rw [if_pos hpres]
    simp [hpres]
  · have hpres' : blk.tags.any (fun t => t.name == nm) = false :=
      Bool.eq_false_iff.mpr hpres
    rw [if_neg hpres]
    refine ⟨?_, rfl, rfl, rfl⟩
    simp only [List.map_append, List.map_cons, List.map_nil, hpres',
      Bool.false_eq_true, if_false]
    rw [hn, ht hpres']

end Neo2nix
namespace Neo2nix

theorem tags_update_pairs (l : List N2Tag) (s : String) (r : List String) :
    (l.map (fun t => if t.name == s then { t with referenceNames := r }
      else t)).map (fun t => (t.name, t.ttype)) =
      l.map (fun t => (t.name, t.ttype)) := by
  induction l with
  | nil => rfl
  | cons t rest ih =>
      simp only [List.map_cons, ih]
      congr 1
      split <;> rfl

theorem write_segment2_rec_spec (f : N2File) (bid : String)
    (seg : NeoSegment2) (tag : N2Tag) (blk : N2Block) (m : String)
    (h : get_block f bid = some blk) (hm : blk.metaName = some m) :
    ∃ f' blk', write_segment2_rec f bid seg tag = some f' ∧
      get_block f' bid = some blk' ∧
      blk'.tags.map (fun t => (t.name, t.ttype)) =
        blk.tags.map (fun t => (t.name, t.ttype)) ∧
      blk'.metaName = blk.metaName ∧ blk'.name = blk.name ∧
      f'.blocks.map (fun x => x.name) = f.blocks.map (fun x => x.name) := by
  obtain ⟨f₂, blk₂, e₂, g₂, t₂, m₂, n₂, p₂, o₂, q₂⟩ :=
    fold_write_asig_spec bid tag.name seg.analogsignals f blk m h hm
  have hall : ∀ n ∈ (seg.analogsignals.map
      (fun a => get_obj_nix_name a.name tag.name)).filter
      (fun n => !(((blk.dataArrays.filter (fun a =>
        a.datype == "neo_analogsignal" &&
          tag.referenceNames.contains a.name)).map
        (fun a => a.name)).contains n)),
      blk₂.dataArrays.any (fun x => x.name == n) = true := by
    intro n hn
    obtain ⟨a, ha, rfl⟩ := List.mem_map.mp (List.mem_of_mem_filter hn)
    exact o₂ a ha
  obtain ⟨r, hr⟩ := append_refs_spec blk₂ _ (tag.referenceNames.filter
    (fun n => !((((blk.dataArrays.filter (fun a =>
      a.datype == "neo_analogsignal" &&
        tag.referenceNames.contains a.name)).map (fun a => a.name)).filter
      (fun n => !((seg.analogsignals.map
        (fun a => get_obj_nix_name a.name tag.name)).contains n))).contains n)))
    hall
  refine ⟨replace_block f₂ { blk₂ with tags := blk₂.tags.map (fun t =>
      if t.name == seg.name then { t with referenceNames := r } else t) },
    { blk₂ with tags := blk₂.tags.map (fun t =>
      if t.name == seg.name then { t with referenceNames := r } else t) },
    ?_, ?_, ?_, m₂, n₂, (replace_block_names f₂ _).trans q₂⟩
  · unfold write_segment2_rec
    rw [h]
    simp only [Option.bind_eq_bind, Option.some_bind]
    rw [e₂]
    simp only [Option.bind_eq_bind, Option.some_bind]
    rw [g₂]
    simp only [Option.bind_eq_bind, Option.some_bind]
    rw [hr]
    simp only [Option.bind_eq_bind, Option.some_bind]
  · apply get_block_replace
    · show blk₂.name = bid
      rw [n₂]
      exact get_block_name f bid blk h
    · rw [g₂]
      rfl
  · show (blk₂.tags.map _).map _ = _
    rw [tags_update_pairs, t₂]

theorem write_segment2_spec (f : N2File) (bid : String) (seg : NeoSegment2)
    (blk : N2Block) (m : String)
    (h : get_block f bid = some blk) (hm : blk.metaName = some m) :
    ∃ f' blk', write_segment2 f bid seg true = some f' ∧
      get_block f' bid = some blk' ∧
      blk'.tags.map (fun t => (t.name, t.ttype)) =
        blk.tags.map (fun t => (t.name, t.ttype)) ++
          (if blk.tags.any (fun t => t.name == seg.name) then []
           else [(seg.name, "neo_segment")]) ∧
      blk'.metaName = blk.metaName ∧ blk'.name = blk.name ∧
      f'.blocks.map (fun x => x.name) = f.blocks.map (fun x => x.name) := by
  obtain ⟨hfn, hft⟩ := blk_tag_fetch_spec blk seg.name
  obtain ⟨hpairs, hmeta, hname, _⟩ :=
    blk_tag_ensure_pairs blk seg.name (blk_tag_fetch blk seg.name) hfn hft
  have hE : get_block (update_root_section (replace_block f
      (blk_tag_ensure blk seg.name (blk_tag_fetch blk seg.name))) m
      (fun root => get_or_create_then root "segment" seg.name (fun sec =>
        N2Section.mk sec.sname sec.stype
          (write_metadata sec.props (segment_meta seg)) sec.children))) bid
      = some (blk_tag_ensure blk seg.name (blk_tag_fetch blk seg.name)) := by
    rw [get_block_update_root]
    exact get_block_replace f bid _
      (by rw [hname]; exact get_block_name f bid blk h) (by rw [h]; rfl)
  have hEm : (blk_tag_ensure blk seg.name
      (blk_tag_fetch blk seg.name)).metaName = some m := by
    rw [hmeta, hm]
  obtain ⟨f', blk', e', g', t', m', n', q'⟩ :=
    write_segment2_rec_spec _ bid seg (blk_tag_fetch blk seg.name)
      (blk_tag_ensure blk seg.name (blk_tag_fetch blk seg.name)) m hE hEm
  refine ⟨f', blk', ?_, g', by rw [t', hpairs], by rw [m', hmeta],
    by rw [n', hname], q'.trans (replace_block_names f _)⟩
  unfold write_segment2
  rw [h]
  simp only [Option.bind_eq_bind, Option.some_bind]
  rw [hEm]
  simp only [Option.bind_eq_bind, Option.some_bind]
  rw [if_pos trivial]
  exact e'

end Neo2nix
namespace Neo2nix

/-- The (name, type) pairs of a block's tag list after the create-or-fetch
pass of `_write_segment` has run once per segment name. -/
def add_seg_tags (pairs : List (String × String)) :
    List String → List (String × String)
  | [] => pairs
  | n :: rest =>
      add_seg_tags (pairs ++ (if pairs.any (fun p => p.1 == n) then []
        else [(n, "neo_segment")])) rest

theorem pairs_any_name (l : List N2Tag) (n : String) :
    ((l.map (fun t => (t.name, t.ttype))).any (fun p => p.1 == n)) =
      l.any (fun t => t.name == n) := by
  induction l with
  | nil => rfl
  | cons t rest ih => simp only [List.map_cons, List.any_cons, ih]

theorem fold_write_seg_spec (bid : String) :
    ∀ (segs : List NeoSegment2) (f : N2File) (blk : N2Block) (m : String),
      get_block f bid = some blk → blk.metaName = some m →
      ∃ f' blk', fold_write_seg bid true f segs = some f' ∧
        get_block f' bid = some blk' ∧
        blk'.tags.map (fun t => (t.name, t.ttype)) =
          add_seg_tags (blk.tags.map (fun t => (t.name, t.ttype)))
            (segs.map (fun s => s.name)) ∧
        blk'.metaName = blk.metaName ∧ blk'.name = blk.name ∧
        f'.blocks.map (fun x => x.name) = f.blocks.map (fun x => x.name) := by
  intro segs
  induction segs with
  | nil =>
      intro f blk m h _
      exact ⟨f, blk, rfl, h, rfl, rfl, rfl, rfl⟩
  | cons s rest ih =>
      intro f blk m h hm
      obtain ⟨f₁, blk₁, e₁, g₁, t₁, m₁, n₁, q₁⟩ := write_segment2_spec f bid s blk m h hm
      obtain ⟨f₂, blk₂, e₂, g₂, t₂, m₂, n₂, q₂⟩ := ih f₁ blk₁ m g₁ (by rw [m₁, hm])
      refine ⟨f₂, blk₂, ?_, g₂, ?_, by rw [m₂, m₁], by rw [n₂, n₁], by rw [q₂, q₁]⟩
      · simp only [fold_write_seg, e₁, Option.bind_eq_bind, Option.some_bind]
        exact e₂
      · rw [t₂, t₁]
        simp only [List.map_cons, add_seg_tags]
        congr 2
        rw [pairs_any_name]

end Neo2nix
namespace Neo2nix

theorem contains_mem_str (l : List String) (a : String) :
    l.contains a = true ↔ a ∈ l := List.elem_iff

theorem add_seg_tags_eq (S : List String) :
    ∀ (P : List (String × String)), S.Nodup →
      add_seg_tags P S = P ++ (S.filter (fun n =>
        !(P.any (fun p => p.1 == n)))).map (fun n => (n, "neo_segment")) := by
  induction S with
  | nil => intro P _; simp [add_seg_tags]
  | cons n rest ih =>
      intro P hnd
      have hn : n ∉ rest := (List.nodup_cons.mp hnd).1
      have hrest := (List.nodup_cons.mp hnd).2
      by_cases hc : P.any (fun p => p.1 == n) = true
      · have hstep : add_seg_tags P (n :: rest) = add_seg_tags P rest := by
          simp only [add_seg_tags, hc, if_true, List.append_nil]
        rw [hstep, ih P hrest]
        congr 1
        simp only [List.filter_cons, hc, Bool.not_true, Bool.false_eq_true,
          if_false]
      · have hc' : P.any (fun p => p.1 == n) = false := Bool.eq_false_iff.mpr hc
        have hstep : add_seg_tags P (n :: rest) =
            add_seg_tags (P ++ [(n, "neo_segment")]) rest := by
          simp only [add_seg_tags, hc', Bool.false_eq_true, if_false]
        rw [hstep, ih (P ++ [(n, "neo_segment")]) hrest]
        have hfc : rest.filter (fun x =>
            !((P ++ [(n, "neo_segment")]).any (fun p => p.1 == x))) =
            rest.filter (fun x => !(P.any (fun p => p.1 == x))) := by
          apply List.filter_congr
          intro x hx
          have hxn : (n == x) = false :=
            beq_eq_false_iff_ne.mpr (fun he => hn (he ▸ hx))
          simp [List.any_append, hxn]
        rw [hfc]
        simp only [List.filter_cons, hc', Bool.not_false, if_pos trivial,
          List.map_cons, List.append_assoc, List.singleton_append]

theorem filter_name_pairs (l : List N2Tag) (q : String → Bool) :
    (l.filter (fun t => q t.name)).map (fun t => (t.name, t.ttype)) =
      (l.map (fun t => (t.name, t.ttype))).filter (fun p => q p.1) := by
  induction l with
  | nil => rfl
  | cons t rest ih =>
      simp only [List.filter_cons, List.map_cons]
      cases hq : q t.name
      · simp only [Bool.false_eq_true, if_false, ih]
      · simp only [if_pos trivial, List.map_cons, ih]

theorem filter_ttype_pairs (l : List N2Tag) (q : String → Bool) :
    (l.filter (fun t => q t.ttype)).map (fun t => (t.name, t.ttype)) =
      (l.map (fun t => (t.name, t.ttype))).filter (fun p => q p.2) := by
  induction l with
  | nil => rfl
  | cons t rest ih =>
      simp only [List.filter_cons, List.map_cons]
      cases hq : q t.ttype
      · simp only [Bool.false_eq_true, if_false, ih]
      · simp only [if_pos trivial, List.map_cons, ih]

theorem length_filter_partition (l : List String) (p : String → Bool) :
    (l.filter p).length + (l.filter (fun x => !(p x))).length = l.length := by
  induction l with
  | nil => rfl
  | cons a rest ih =>
      simp only [List.filter_cons, List.length_cons]
      cases hp : p a
      · simp only [Bool.false_eq_true, if_false, Bool.not_false,
          if_pos trivial, List.length_cons]
        omega
      · simp only [if_pos trivial, Bool.not_true, Bool.false_eq_true,
          if_false, List.length_cons]
        omega

theorem length_filter_mem_comm (N S : List String)
    (hN : N.Nodup) (hS : S.Nodup) :
    (N.filter (fun x => S.contains x)).length =
      (S.filter (fun x => N.contains x)).length := by
  have h1 : (N.filter (fun x => S.contains x)).Nodup := hN.filter _
  have h2 : (S.filter (fun x => N.contains x)).Nodup := hS.filter _
  rw [← List.toFinset_card_of_nodup h1, ← List.toFinset_card_of_nodup h2]
  have e1 : (N.filter (fun x => S.contains x)).toFinset =
      N.toFinset ∩ S.toFinset := by
    ext a
    simp only [List.mem_toFinset, List.mem_filter, Finset.mem_inter,
      contains_mem_str]
  have e2 : (S.filter (fun x => N.contains x)).toFinset =
      S.toFinset ∩ N.toFinset := by
    ext a
    simp only [List.mem_toFinset, List.mem_filter, Finset.mem_inter,
      contains_mem_str]
  rw [e1, e2, Finset.inter_comm]

end Neo2nix
namespace Neo2nix

theorem write_block2_rec_spec (f : N2File) (b : NeoBlock2) (blk : N2Block)
    (m : String)
    (h : get_block f b.name = some blk) (hm : blk.metaName = some m) :
    ∃ f' blk', write_block2_rec f b = some f' ∧
      get_block f' b.name = some blk' ∧
      blk'.tags.map (fun t => (t.name, t.ttype)) =
        (add_seg_tags (blk.tags.map (fun t => (t.name, t.ttype)))
          (b.segments.map (fun s => s.name))).filter (fun p =>
          !((((blk.tags.filter (fun t => t.ttype == "neo_segment")).map
            (fun t => t.name)).filter (fun n =>
            !((b.segments.map (fun s => s.name)).contains n))).contains p.1)) ∧
      blk'.metaName = blk.metaName ∧ blk'.name = blk.name ∧
      f'.blocks.map (fun x => x.name) = f.blocks.map (fun x => x.name) := by
  obtain ⟨f₂, blk₂, e₂, g₂, t₂, m₂, n₂, q₂⟩ :=
    fold_write_seg_spec b.name b.segments f blk m h hm
  refine ⟨replace_block f₂ { blk₂ with tags := blk₂.tags.filter (fun t =>
      !((((blk.tags.filter (fun x => x.ttype == "neo_segment")).map
        (fun x => x.name)).filter (fun n =>
        !((b.segments.map (fun s => s.name)).contains n))).contains t.name)) },
    { blk₂ with tags := blk₂.tags.filter (fun t =>
      !((((blk.tags.filter (fun x => x.ttype == "neo_segment")).map
        (fun x => x.name)).filter (fun n =>
        !((b.segments.map (fun s => s.name)).contains n))).contains t.name)) },
    ?_, ?_, ?_, m₂, n₂, (replace_block_names f₂ _).trans q₂⟩
  · unfold write_block2_rec
    rw [h]
    simp only [Option.bind_eq_bind, Option.some_bind]
    rw [e₂]
    simp only [Option.bind_eq_bind, Option.some_bind]
    rw [g₂]
    simp only [Option.bind_eq_bind, Option.some_bind]
  · apply get_block_replace
    · show blk₂.name = b.name
      rw [n₂]
      exact get_block_name f b.name blk h
    · rw [g₂]
      rfl
  · exact (filter_name_pairs blk₂.tags (fun n =>
      !((((blk.tags.filter (fun x => x.ttype == "neo_segment")).map
        (fun x => x.name)).filter (fun nn =>
        !((b.segments.map (fun s => s.name)).contains nn))).contains n))).trans
      (by rw [t₂])

end Neo2nix
namespace Neo2nix

theorem write_block2_spec (f : N2File) (b : NeoBlock2) (blk : N2Block)
    (h : get_block f b.name = some blk) :
    ∃ f' blk', write_block2 f b true = some f' ∧
      get_block f' b.name = some blk' ∧
      blk'.tags.map (fun t => (t.name, t.ttype)) =
        (add_seg_tags (blk.tags.map (fun t => (t.name, t.ttype)))
          (b.segments.map (fun s => s.name))).filter (fun p =>
          !((((blk.tags.filter (fun t => t.ttype == "neo_segment")).map
            (fun t => t.name)).filter (fun n =>
            !((b.segments.map (fun s => s.name)).contains n))).contains p.1)) ∧
      blk'.name = blk.name ∧
      f'.blocks.map (fun x => x.name) = f.blocks.map (fun x => x.name) := by
  have h' : f.blocks.find? (fun x => x.name == b.name) = some blk := h
  have hpred : (blk.name == b.name) = true := by simpa using List.find?_some h'
  have hany : f.blocks.any (fun x => x.name == b.name) = true :=
    List.any_eq_true.mpr ⟨blk, List.mem_of_find?_eq_some h', hpred⟩
  have hg1 : get_block (if f.sections.any (fun s => s.sname == b.name) then f
      else { f with sections := f.sections ++ [N2Section.mk b.name "block" [] []] })
      b.name = get_block f b.name := by
    split
    · rfl
    · rfl
  have hg3 : get_block (update_root_section (replace_block
      (if f.sections.any (fun s => s.sname == b.name) then f
        else { f with sections := f.sections ++ [N2Section.mk b.name "block" [] []] })
      { blk with metaName := some b.name }) b.name (fun root =>
        N2Section.mk root.sname root.stype
          (write_metadata root.props (block_meta b)) root.children)) b.name
      = some { blk with metaName := some b.name } := by
    rw [get_block_update_root]
    apply get_block_replace
    · show blk.name = b.name
      exact get_block_name f b.name blk h
    · rw [hg1, h]
      rfl
  obtain ⟨f', blk', e', g', t', m', n', q'⟩ :=
    write_block2_rec_spec _ b { blk with metaName := some b.name } b.name hg3 rfl
  have hbn1 : (if f.sections.any (fun s => s.sname == b.name) then f
      else { f with sections :=
        f.sections ++ [N2Section.mk b.name "block" [] []] }).blocks.map
      (fun x => x.name) = f.blocks.map (fun x => x.name) := by
    split
    · rfl
    · rfl
  refine ⟨f', blk', ?_, g', t', n',
    q'.trans ((replace_block_names _ _).trans hbn1)⟩
  unfold write_block2
  rw [h']
  dsimp only
  rw [hany]
  rw [if_pos (rfl : (true : Bool) = true)]
  exact e'

end Neo2nix
namespace Neo2nix

theorem str_beq_comm (a b : String) : (a == b) = (b == a) := by
  rw [Bool.eq_iff_iff]
  simp only [beq_iff_eq]
  exact eq_comm

theorem contains_eq_any (L : List String) (n : String) :
    L.contains n = L.any (fun x => x == n) := by
  induction L with
  | nil => rfl
  | cons b bs ih =>
      rw [List.contains_cons, List.any_cons, ih, str_beq_comm n b]

theorem any_name_contains (tags : List N2Tag) (n : String) :
    tags.any (fun t => t.name == n) =
      (tags.map (fun t => t.name)).contains n := by
  rw [contains_eq_any]
  induction tags with
  | nil => rfl
  | cons t rest ih => simp only [List.any_cons, List.map_cons, ih]

theorem filter_fst_length (P : List (String × String)) (q : String → Bool) :
    (P.filter (fun p => q p.1)).length = ((P.map Prod.fst).filter q).length := by
  induction P with
  | nil => rfl
  | cons p rest ih =>
      simp only [List.filter_cons, List.map_cons]
      cases hq : q p.1
      · simp only [Bool.false_eq_true, if_false, ih]
      · simp only [if_pos trivial, List.length_cons, ih]

theorem kept_pairs_count (tags : List N2Tag) (S : List String)
    (hall : ∀ t ∈ tags, t.ttype = "neo_segment")
    (hN : (tags.map (fun t => t.name)).Nodup) (hS : S.Nodup) :
    (((add_seg_tags (tags.map (fun t => (t.name, t.ttype))) S).filter (fun p =>
      !((((tags.filter (fun t => t.ttype == "neo_segment")).map
        (fun t => t.name)).filter (fun n =>
        !(S.contains n))).contains p.1))).filter
      (fun p => p.2 == "neo_segment")).length = S.length := by
  have hflt : tags.filter (fun t => t.ttype == "neo_segment") = tags :=
    List.filter_eq_self.mpr (fun t ht => by
      rw [hall t ht]; exact beq_self_eq_true _)
  rw [hflt]
  rw [add_seg_tags_eq S (tags.map (fun t => (t.name, t.ttype))) hS]
  rw [List.filter_append]
  have hE : (((S.filter (fun n =>
      !((tags.map (fun t => (t.name, t.ttype))).any
        (fun p => p.1 == n)))).map (fun n => (n, "neo_segment"))).filter
      (fun p => !(((tags.map (fun t => t.name)).filter (fun n =>
        !(S.contains n))).contains p.1))) =
      ((S.filter (fun n =>
      !((tags.map (fun t => (t.name, t.ttype))).any
        (fun p => p.1 == n)))).map (fun n => (n, "neo_segment"))) := by
    apply List.filter_eq_self.mpr
    intro p hp
    obtain ⟨n, hnmem, rfl⟩ := List.mem_map.mp hp
    dsimp only
    have hnS : n ∈ S := List.mem_of_mem_filter hnmem
    have hnR : ((tags.map (fun t => t.name)).filter (fun x =>
        !(S.contains x))).contains n = false := by
      cases hc : ((tags.map (fun t => t.name)).filter (fun x =>
          !(S.contains x))).contains n
      · rfl
      · exfalso
        have hmem := (contains_mem_str _ n).mp hc
        have h2 := (List.mem_filter.mp hmem).2
        rw [(contains_mem_str S n).mpr hnS] at h2
        simp at h2
    rw [hnR]
    rfl
  rw [hE]
  rw [List.filter_append]
  have hPt : (((tags.map (fun t => (t.name, t.ttype))).filter (fun p =>
      !(((tags.map (fun t => t.name)).filter (fun n =>
        !(S.contains n))).contains p.1))).filter
      (fun p => p.2 == "neo_segment")) =
      ((tags.map (fun t => (t.name, t.ttype))).filter (fun p =>
      !(((tags.map (fun t => t.name)).filter (fun n =>
        !(S.contains n))).contains p.1))) := by
    apply List.filter_eq_self.mpr
    intro p hp
    have hpP := List.mem_of_mem_filter hp
    obtain ⟨t, ht, rfl⟩ := List.mem_map.mp hpP
    dsimp only
    rw [hall t ht]
    exact beq_self_eq_true _
  rw [hPt]
  have hEt : (((S.filter (fun n =>
      !((tags.map (fun t => (t.name, t.ttype))).any
        (fun p => p.1 == n)))).map (fun n => (n, "neo_segment"))).filter
      (fun p => p.2 == "neo_segment")) =
      ((S.filter (fun n =>
      !((tags.map (fun t => (t.name, t.ttype))).any
        (fun p => p.1 == n)))).map (fun n => (n, "neo_segment"))) := by
    apply List.filter_eq_self.mpr
    intro p hp
    obtain ⟨n, _, rfl⟩ := List.mem_map.mp hp
    exact beq_self_eq_true _
  rw [hEt]
  rw [List.length_append, List.length_map]
  have h6 : (((tags.map (fun t => (t.name, t.ttype))).filter (fun p =>
      !(((tags.map (fun t => t.name)).filter (fun n =>
        !(S.contains n))).contains p.1))).length) =
      (((tags.map (fun t => t.name)).filter (fun n =>
        !(((tags.map (fun t => t.name)).filter (fun x =>
          !(S.contains x))).contains n))).length) := by
    have base := filter_fst_length (tags.map (fun t => (t.name, t.ttype)))
      (fun n => !(((tags.map (fun t => t.name)).filter (fun x =>
        !(S.contains x))).contains n))
    rw [List.map_map] at base
    exact base
  rw [h6]
  have hc1 : ((tags.map (fun t => t.name)).filter (fun n =>
      !(((tags.map (fun t => t.name)).filter (fun x =>
        !(S.contains x))).contains n))) =
      ((tags.map (fun t => t.name)).filter (fun n => S.contains n)) := by
    apply List.filter_congr
    intro n hn
    cases hc : S.contains n
    · have hmem : n ∈ (tags.map (fun t => t.name)).filter (fun x =>
          !(S.contains x)) := List.mem_filter.mpr ⟨hn, by rw [hc]; rfl⟩
      rw [(contains_mem_str _ n).mpr hmem]
      rfl
    · have hnR : n ∉ (tags.map (fun t => t.name)).filter (fun x =>
          !(S.contains x)) := by
        intro hmem
        have h2 := (List.mem_filter.mp hmem).2
        rw [hc] at h2
        simp at h2
      have hcc : ((tags.map (fun t => t.name)).filter (fun x =>
          !(S.contains x))).contains n = false := by
        cases hcc : ((tags.map (fun t => t.name)).filter (fun x =>
            !(S.contains x))).contains n
        · rfl
        · exact absurd ((contains_mem_str _ n).mp hcc) hnR
      rw [hcc]
      rfl
  rw [hc1]
  rw [length_filter_mem_comm (tags.map (fun t => t.name)) S hN hS]
  have hcongr2 : (S.filter (fun n =>
      !((tags.map (fun t => (t.name, t.ttype))).any (fun p => p.1 == n)))) =
      (S.filter (fun n => !((tags.map (fun t => t.name)).contains n))) := by
    apply List.filter_congr
    intro n _
    rw [pairs_any_name tags n, any_name_contains tags n]
  rw [hcongr2]
  have key := length_filter_partition S
    (fun n => (tags.map (fun t => t.name)).contains n)
  simpa using key

end Neo2nix
namespace Neo2nix

/-- C4: when a Block is re-written and its Segment list shrank from N to
N-1 between the two write calls, afterwards exactly N-1 `neo_segment`
tags exist under that block, and every surviving tag's name is among the
current segment names (the stale one was deleted).  Hypotheses: the block
exists in the file (it was written before), its tags are the
`neo_segment` tags of the previous write (pairwise distinct names, as
created by the create-or-fetch pass), and the current segment names are
pairwise distinct. -/
theorem C4_deletion_reconciliation (f : N2File) (b : NeoBlock2)
    (blk : N2Block) (N : Nat)
    (h : get_block f b.name = some blk)
    (hall : ∀ t ∈ blk.tags, t.ttype = "neo_segment")
    (hnd : (blk.tags.map (fun t => t.name)).Nodup)
    (hS : (b.segments.map (fun s => s.name)).Nodup)
    (hbefore : blk.tags.length = N)
    (hafter : b.segments.length = N - 1) :
    ∃ f' blk', write_block2 f b true = some f' ∧
      get_block f' b.name = some blk' ∧
      (blk'.tags.filter (fun t => t.ttype == "neo_segment")).length = N - 1 ∧
      ∀ t ∈ blk'.tags, t.name ∈ b.segments.map (fun s => s.name) := by
  obtain ⟨f', blk', e', g', t', n', _⟩ := write_block2_spec f b blk h
  refine ⟨f', blk', e', g', ?_, ?_⟩
  · have hcnt := kept_pairs_count blk.tags (b.segments.map (fun s => s.name))
      hall hnd hS
    have hlen : (blk'.tags.filter (fun t => t.ttype == "neo_segment")).length =
        ((blk'.tags.map (fun t => (t.name, t.ttype))).filter
          (fun p => p.2 == "neo_segment")).length := by
      have e := filter_ttype_pairs blk'.tags (fun s => s == "neo_segment")
      have e2 := congrArg List.length e
      rw [List.length_map] at e2
      exact e2
    rw [t'] at hlen
    rw [hlen, hcnt, List.length_map]
    exact hafter
  · intro t ht
    have hpair : (t.name, t.ttype) ∈
        blk'.tags.map (fun t => (t.name, t.ttype)) :=
      List.mem_map_of_mem _ ht
    rw [t'] at hpair
    obtain ⟨hmemA, hpred⟩ := List.mem_filter.mp hpair
    rw [add_seg_tags_eq _ _ hS] at hmemA
    rcases List.mem_append.mp hmemA with hin | hin
    · have hnameN : t.name ∈ blk.tags.map (fun x => x.name) := by
        obtain ⟨u, hu, he⟩ := List.mem_map.mp hin
        have hun : u.name = t.name := congrArg Prod.fst he
        rw [← hun]
        exact List.mem_map_of_mem _ hu
      by_contra hnotS
      have hflt2 : blk.tags.filter (fun x => x.ttype == "neo_segment") =
          blk.tags :=
        List.filter_eq_self.mpr (fun u hu => by
          rw [hall u hu]; exact beq_self_eq_true _)
      have hfltmem : t.name ∈ (blk.tags.filter (fun x =>
          x.ttype == "neo_segment")).map (fun x => x.name) := by
        rw [hflt2]
        exact hnameN
      have hmemR : t.name ∈ ((blk.tags.filter (fun x =>
          x.ttype == "neo_segment")).map (fun x => x.name)).filter (fun n =>
          !((b.segments.map (fun s => s.name)).contains n)) := by
        apply List.mem_filter.mpr
        refine ⟨hfltmem, ?_⟩
        have hcf : (b.segments.map (fun s => s.name)).contains t.name
            = false := by
          cases hcc : (b.segments.map (fun s => s.name)).contains t.name
          · rfl
          · exact absurd ((contains_mem_str _ _).mp hcc) hnotS
        rw [hcf]
        rfl
      have hcontR := (contains_mem_str _ _).mpr hmemR
      have hpred' : (!((((blk.tags.filter (fun x =>
          x.ttype == "neo_segment")).map (fun x => x.name)).filter (fun n =>
          !((b.segments.map (fun s => s.name)).contains n))).contains t.name))
          = true := hpred
      rw [hcontR] at hpred'
      simp at hpred'
    · obtain ⟨n, hnmem, he⟩ := List.mem_map.mp hin
      have hnt : n = t.name := congrArg Prod.fst he
      rw [← hnt]
      exact List.mem_of_mem_filter hnmem

def c4Blk : N2Block :=
  { name := "b", btype := "neo_block", metaName := some "b"
    tags := [{ name := "s1", ttype := "neo_segment", referenceNames := [] },
             { name := "s2", ttype := "neo_segment", referenceNames := [] }]
    dataArrays := [] }

def c4File : N2File :=
  { sections := [N2Section.mk "b" "block" [] []], blocks := [c4Blk] }

def c4Seg : NeoSegment2 :=
  { name := "s1", annots := [], description := none, file_origin := none
    file_datetime := none, rec_datetime := none, index := none
    analogsignals := [] }

def c4B : NeoBlock2 :=
  { name := "b", annots := [], description := none, file_origin := none
    file_datetime := none, rec_datetime := none, index := none
    segments := [c4Seg] }

theorem C4_deletion_reconciliation_witness :
    (get_block c4File c4B.name = some c4Blk) ∧
    (∀ t ∈ c4Blk.tags, t.ttype = "neo_segment") ∧
    ((c4Blk.tags.map (fun t => t.name)).Nodup) ∧
    ((c4B.segments.map (fun s => s.name)).Nodup) ∧
    (c4Blk.tags.length = 2) ∧
    (c4B.segments.length = 2 - 1) ∧
    (∃ f' blk', write_block2 c4File c4B true = some f' ∧
      get_block f' c4B.name = some blk' ∧
      (blk'.tags.filter (fun t => t.ttype == "neo_segment")).length = 2 - 1 ∧
      ∀ t ∈ blk'.tags, t.name ∈ c4B.segments.map (fun s => s.name)) :=
  ⟨by decide, by decide, by decide, by decide, by decide, by decide,
    C4_deletion_reconciliation c4File c4B c4Blk 2 (by decide) (by decide)
      (by decide) (by decide) (by decide) (by decide)⟩

end Neo2nix
namespace Neo2nix

def c5NeoBlk : Neonix.NeoBlock :=
  { name := some "b", description := none, rec_datetime := none
    file_datetime := none, file_origin := none, annots := []
    segments := [], rcgs := [] }

def c5ExistingBlk : Neonix.NBlock :=
  { name := "b", ntype := "neo.block", definition := none, created_at := 0
    metadata := none, dataArrays := [], groups := [], multiTags := []
    sources := [] }

/-- Refutation of the original C5 reuse clause for the neonix engine:
writing a Block whose logical name `"b"` already names a container in the
sibling namespace does NOT reuse that container - a second container is
appended (its mediated name gets a `-1` suffix), leaving two containers
where the claim requires one. -/
theorem C5_neonix_no_reuse :
    c5NeoBlk.name = some "b" ∧ c5ExistingBlk.name = "b" ∧
    ∃ r, Neonix.write_block [] [c5ExistingBlk] [] c5NeoBlk = some r ∧
      r.2.1.length = 2 :=
  ⟨rfl, rfl, ⟨_, rfl, rfl⟩⟩

def c5Blk2 : N2Block :=
  { name := "b", btype := "neo_block", metaName := some "b"
    tags := [], dataArrays := [] }

def c5File2 : N2File :=
  { sections := [N2Section.mk "b" "block" [] []], blocks := [c5Blk2] }

def c5B2 : NeoBlock2 :=
  { name := "b", annots := [], description := none, file_origin := none
    file_datetime := none, rec_datetime := none, index := none
    segments := [] }

/-- C5 (amended): (1) a name mediated into a sibling namespace whose kind
carries no collision suffix is never a name already present there, so the
container names stay pairwise distinct; (2) the neonix engine never
reuses: `write_block` always appends exactly one new container, even when
the logical name already names an existing container; (3) the neo2nix
engine does reuse: re-writing a block whose name already names an
existing container leaves the list of container names unchanged - no
second container is created. -/
theorem C5_name_uniqueness_and_reuse :
    (∀ (name : Option String) (neoType : String) (container : List String),
      Neonix.name_suffix neoType = "" →
      Neonix.mediate_name name neoType container ∉ container) ∧
    (∀ (st : Neonix.SecStore) (blocks : List Neonix.NBlock)
        (om : Neonix.ObjMap) (b : Neonix.NeoBlock)
        (r : Neonix.SecStore × List Neonix.NBlock × Neonix.ObjMap),
      Neonix.write_block st blocks om b = some r →
      r.2.1.length = blocks.length + 1) ∧
    (∀ (f : N2File) (b : NeoBlock2) (blk : N2Block),
      get_block f b.name = some blk →
      ∃ f' blk', write_block2 f b true = some f' ∧
        get_block f' b.name = some blk' ∧
        f'.blocks.map (fun x => x.name) = f.blocks.map (fun x => x.name)) := by
  refine ⟨?_, ?_, ?_⟩
  · intro name neoType container hsuf
    by_cases hc : Neonix.nix_basename name neoType ++
        Neonix.name_suffix neoType ∈ container
    · have heq : Neonix.mediate_name name neoType container =
          Neonix.collide_loop container (Neonix.name_suffix neoType)
            (Neonix.nix_basename name neoType) (container.length + 1) 1 := by
        unfold Neonix.mediate_name
        rw [if_pos hc]
      rw [heq]
      obtain ⟨j, hj, hfree⟩ := Neonix.exists_free_probe
        (Neonix.nix_basename name neoType) (Neonix.name_suffix neoType) container
      obtain ⟨j', hj', hfree', hmin', heq'⟩ := Neonix.collide_loop_spec container
        (Neonix.name_suffix neoType) (Neonix.nix_basename name neoType)
        (container.length + 1) 1 ⟨j, hj, hfree⟩
      rw [heq']
      rw [hsuf, String.append_empty] at hfree'
      exact hfree'
    · have heq : Neonix.mediate_name name neoType container =
          Neonix.nix_basename name neoType := by
        unfold Neonix.mediate_name
        rw [if_neg hc]
      rw [heq]
      intro habs
      apply hc
      rw [hsuf, String.append_empty]
      exact habs
  · intro st blocks om b r h
    unfold Neonix.write_block at h
    dsimp only at h
    simp only [Option.bind_eq_bind] at h
    rw [Option.bind_eq_some] at h
    obtain ⟨s₁, h₁, h⟩ := h
    rw [Option.bind_eq_some] at h
    obtain ⟨s₂, h₂, h⟩ := h
    have hr := Option.some.inj h
    rw [← hr]
    simp [List.length_append]
  · intro f b blk h
    obtain ⟨f', blk', e', g', t', n', q'⟩ := write_block2_spec f b blk h
    exact ⟨f', blk', e', g', q'⟩

theorem C5_name_uniqueness_and_reuse_witness :
    (Neonix.name_suffix "Block" = "" ∧
      Neonix.mediate_name (some "x") "Block" ["x", "y"] ∉ ["x", "y"]) ∧
    (∃ r, Neonix.write_block [] [] [] c5NeoBlk = some r ∧
      r.2.1.length = 0 + 1) ∧
    (get_block c5File2 c5B2.name = some c5Blk2 ∧
      ∃ f' blk', write_block2 c5File2 c5B2 true = some f' ∧
        get_block f' c5B2.name = some blk' ∧
        f'.blocks.map (fun x => x.name) =
          c5File2.blocks.map (fun x => x.name)) :=
  ⟨⟨by decide, C5_name_uniqueness_and_reuse.1 (some "x") "Block" ["x", "y"]
      (by decide)⟩,
   ⟨_, rfl, C5_name_uniqueness_and_reuse.2.1 [] [] [] c5NeoBlk _ rfl⟩,
   ⟨by decide, C5_name_uniqueness_and_reuse.2.2 c5File2 c5B2 c5Blk2 (by decide)⟩⟩

end Neo2nix
namespace Neonix

/-- A multi-tag slot of the block holding a tag of the given type whose
source list names `nm`. -/
def mt_state (blk : NBlock) (i : Nat) (nm nty : String) : Prop :=
  ∃ mt, blk.multiTags[i]? = some mt ∧ nm ∈ mt.sourceNames ∧ mt.ntype = nty

theorem add_st_refs_mono (om : ObjMap) (pname uname : String) :
    ∀ (eids : List Nat) (blk blk' : NBlock),
      add_st_refs om pname uname blk eids = some blk' →
      ∀ i nm nty, mt_state blk i nm nty → mt_state blk' i nm nty := by
  intro eids
  induction eids with
  | nil =>
      intro blk blk' h i nm nty hs
      have he := Option.some.inj h
      rw [← he]
      exact hs
  | cons e rest ih =>
      intro blk blk' h i nm nty hs
      simp only [add_st_refs, Option.bind_eq_bind] at h
      rw [Option.bind_eq_some] at h
      obtain ⟨m, hm, h⟩ := h
      cases m with
      | das ids => simp at h
      | mtag j =>
          apply ih _ _ h
          obtain ⟨mt, hget, hmem, hty⟩ := hs
          by_cases hij : j = i
          · subst hij
            refine ⟨{ mt with sourceNames :=
              mt.sourceNames ++ [pname, uname] }, ?_, ?_, hty⟩
            · show (list_update blk.multiTags j _)[j]? = _
              rw [list_update_get_eq, hget]
              rfl
            · exact List.mem_append_left _ hmem
          · refine ⟨mt, ?_, hmem, hty⟩
            show (list_update blk.multiTags j _)[i]? = _
            rw [list_update_get_ne _ _ _ _ hij]
            exact hget

theorem add_st_refs_estab (om : ObjMap) (pname uname : String) :
    ∀ (eids : List Nat) (blk blk' : NBlock),
      add_st_refs om pname uname blk eids = some blk' →
      (∀ eid ∈ eids, ∃ i mt, om_lookup om eid = some (.mtag i) ∧
        blk.multiTags[i]? = some mt ∧ mt.ntype = "neo.spiketrain") →
      ∀ eid ∈ eids, ∃ i, om_lookup om eid = some (.mtag i) ∧
        mt_state blk' i pname "neo.spiketrain" ∧
        mt_state blk' i uname "neo.spiketrain" := by
  intro eids
  induction eids with
  | nil =>
      intro blk blk' _ _ eid he
      exact absurd he (List.not_mem_nil eid)
  | cons e rest ih =>
      intro blk blk' h hmap eid he
      simp only [add_st_refs, Option.bind_eq_bind] at h
      rw [Option.bind_eq_some] at h
      obtain ⟨m, hm, h⟩ := h
      cases m with
      | das ids => simp at h
      | mtag j =>
          rcases List.mem_cons.mp he with rfl | hrest
          · obtain ⟨i, mt, hl, hg, hty⟩ := hmap eid (List.mem_cons_self eid rest)
            have hx : MappedObj.mtag i = MappedObj.mtag j :=
              Option.some.inj (hl.symm.trans hm)
            have hii : i = j := by injection hx
            subst hii
            have hupd : mt_state (update_mtag blk i (fun mt =>
                { mt with sourceNames := mt.sourceNames ++ [pname, uname] }))
                i pname "neo.spiketrain" ∧
                mt_state (update_mtag blk i (fun mt =>
                { mt with sourceNames := mt.sourceNames ++ [pname, uname] }))
                i uname "neo.spiketrain" := by
              constructor
              · refine ⟨{ mt with sourceNames :=
                  mt.sourceNames ++ [pname, uname] }, ?_, ?_, hty⟩
                · show (list_update blk.multiTags i _)[i]? = _
                  rw [list_update_get_eq, hg]
                  rfl
                · refine List.mem_append_right _ ?_
                  simp
              · refine ⟨{ mt with sourceNames :=
                  mt.sourceNames ++ [pname, uname] }, ?_, ?_, hty⟩
                · show (list_update blk.multiTags i _)[i]? = _
                  rw [list_update_get_eq, hg]
                  rfl
                · refine List.mem_append_right _ ?_
                  simp
            exact ⟨i, hl, add_st_refs_mono om pname uname rest _ _ h i pname _
              hupd.1, add_st_refs_mono om pname uname rest _ _ h i uname _
              hupd.2⟩
          · apply ih _ _ h ?_ eid hrest
            intro e' he'
            obtain ⟨i, mt, hl, hg, hty⟩ := hmap e' (List.mem_cons_of_mem e he')
            by_cases hij : j = i
            · subst hij
              refine ⟨j, { mt with sourceNames :=
                mt.sourceNames ++ [pname, uname] }, hl, ?_, hty⟩
              show (list_update blk.multiTags j _)[j]? = _
              rw [list_update_get_eq, hg]
              rfl
            · refine ⟨i, mt, hl, ?_, hty⟩
              show (list_update blk.multiTags j _)[i]? = _
              rw [list_update_get_ne _ _ _ _ hij]
              exact hg

end Neonix
namespace Neonix

/-- C7: after `write_unit`, for every spike train of the unit that was
already mapped to a multi-tag, that multi-tag's source list names both the
owning channel group's source and the unit's (mediated) source name, and
the path-independent referer scan over the block's `neo.spiketrain`
multi-tags recovers that multi-tag for both names. -/
theorem C7_reference_symmetry (st : SecStore) (blk : NBlock) (om : ObjMap)
    (parentSrc : NSource) (ut : NeoUnit)
    (st' : SecStore) (blk' : NBlock) (rsrc : NSource)
    (h : write_unit st blk om parentSrc ut = some (st', blk', rsrc))
    (hmapped : ∀ eid ∈ ut.spiketrain_eids, ∃ i mt,
      om_lookup om eid = some (.mtag i) ∧ blk.multiTags[i]? = some mt ∧
      mt.ntype = "neo.spiketrain") :
    ∀ eid ∈ ut.spiketrain_eids, ∃ i mt,
      om_lookup om eid = some (.mtag i) ∧
      blk'.multiTags[i]? = some mt ∧
      parentSrc.name ∈ mt.sourceNames ∧
      (neo_attr_to_nix ut.name "Unit" ut.description none none
        ut.file_origin ut.annots
        (parentSrc.sources.map NSource.name)).name ∈ mt.sourceNames ∧
      mt ∈ get_referers_mtag (neo_attr_to_nix ut.name "Unit" ut.description
        none none ut.file_origin ut.annots
        (parentSrc.sources.map NSource.name)).name
        (blk'.multiTags.filter (fun m => m.ntype == "neo.spiketrain")) ∧
      mt ∈ get_referers_mtag parentSrc.name
        (blk'.multiTags.filter (fun m => m.ntype == "neo.spiketrain")) := by
  unfold write_unit at h
  dsimp only at h
  simp only [Option.bind_eq_bind] at h
  rw [Option.bind_eq_some] at h
  obtain ⟨blkR, hadd, h⟩ := h
  have hblk : blk' = blkR := by
    have hx := Option.some.inj h
    exact (congrArg (fun p => p.2.1) hx).symm
  subst hblk
  intro eid he
  obtain ⟨i, hl, hsp, hsu⟩ := add_st_refs_estab om parentSrc.name
    (neo_attr_to_nix ut.name "Unit" ut.description none none
      ut.file_origin ut.annots (parentSrc.sources.map NSource.name)).name
    ut.spiketrain_eids blk blk' hadd hmapped eid he
  obtain ⟨mt, hget, hmemu, hty⟩ := hsu
  obtain ⟨mt₂, hget₂, hmemp, _⟩ := hsp
  have hmm : mt₂ = mt := by
    rw [hget] at hget₂
    exact (Option.some.inj hget₂).symm
  rw [hmm] at hmemp
  have hmemblk : mt ∈ blk'.multiTags := List.getElem?_mem hget
  have hmemflt : mt ∈ blk'.multiTags.filter
      (fun m => m.ntype == "neo.spiketrain") := by
    apply List.mem_filter.mpr
    refine ⟨hmemblk, ?_⟩
    rw [hty]
    exact beq_self_eq_true _
  refine ⟨i, mt, hl, hget, hmemp, hmemu, ?_, ?_⟩
  · apply List.mem_filter.mpr
    exact ⟨hmemflt, (Neo2nix.contains_mem_str _ _).mpr hmemu⟩
  · apply List.mem_filter.mpr
    exact ⟨hmemflt, (Neo2nix.contains_mem_str _ _).mpr hmemp⟩

def c7Mt : NMultiTag :=
  { name := "st1", ntype := "neo.spiketrain", definition := none
    positionsId := 0, extentsId := none, featureIds := [], metadata := none
    sourceNames := [], referenceIds := [] }

def c7Blk : NBlock :=
  { name := "blk", ntype := "neo.block", definition := none, created_at := 0
    metadata := none, dataArrays := [], groups := [], multiTags := [c7Mt]
    sources := [] }

def c7Om : ObjMap := [(5, .mtag 0)]

def c7Src : NSource := .mk "rcg" "neo.recordingchannelgroup" none none []

def c7Ut : NeoUnit :=
  { name := some "u", description := none, file_origin := none
    annots := [], spiketrain_eids := [5] }

theorem C7_reference_symmetry_witness :
    ∃ r, write_unit [] c7Blk c7Om c7Src c7Ut = some r ∧
      (∀ eid ∈ c7Ut.spiketrain_eids, ∃ i mt,
        om_lookup c7Om eid = some (.mtag i) ∧
        c7Blk.multiTags[i]? = some mt ∧ mt.ntype = "neo.spiketrain") ∧
      (∀ eid ∈ c7Ut.spiketrain_eids, ∃ i mt,
        om_lookup c7Om eid = some (.mtag i) ∧
        r.2.1.multiTags[i]? = some mt ∧
        c7Src.name ∈ mt.sourceNames ∧
        (neo_attr_to_nix c7Ut.name "Unit" c7Ut.description none none
          c7Ut.file_origin c7Ut.annots
          (c7Src.sources.map NSource.name)).name ∈ mt.sourceNames ∧
        mt ∈ get_referers_mtag (neo_attr_to_nix c7Ut.name "Unit"
          c7Ut.description none none c7Ut.file_origin c7Ut.annots
          (c7Src.sources.map NSource.name)).name
          (r.2.1.multiTags.filter (fun m => m.ntype == "neo.spiketrain")) ∧
        mt ∈ get_referers_mtag c7Src.name
          (r.2.1.multiTags.filter (fun m => m.ntype == "neo.spiketrain"))) :=
  ⟨_, rfl,
   fun eid he => ⟨0, c7Mt, by
      rcases List.mem_singleton.mp he with rfl
      rfl, by
      rcases List.mem_singleton.mp he with rfl
      rfl, rfl⟩,
   C7_reference_symmetry [] c7Blk c7Om c7Src c7Ut _ _ _ rfl
     (fun eid he => ⟨0, c7Mt, by
        rcases List.mem_singleton.mp he with rfl
        rfl, by
        rcases List.mem_singleton.mp he with rfl
        rfl, rfl⟩)⟩

end Neonix
namespace Neonix

/-- The data arrays the per-channel loop of the signal writers produces,
in creation order: one array per channel, named `"<name>.<idx>"`, all
pointing at the one group section. -/
def sig_das (attrName attrType : String) (defn : Option String)
    (data_units : Option String) (timedim : NDim) (gsec : SectionId) :
    Nat → List (List ℚ) → List NDataArray
  | _, [] => []
  | idx, ch :: rest =>
      { name := attrName ++ "." ++ natDecimal idx
        ntype := attrType
        definition := defn
        unit := data_units
        data := .d1 ch
        dims := [timedim, .setd []]
        metadata := some gsec
        sourceNames := [] } :: sig_das attrName attrType defn data_units
          timedim gsec (idx + 1) rest

theorem write_sig_arrays_eq (nm ty : String) (defn du : Option String)
    (timedim : NDim) (gsec : SectionId) :
    ∀ (chans : List (List ℚ)) (blk : NBlock) (grp : NGroup) (idx : Nat),
      write_sig_arrays nm ty defn du timedim gsec blk grp chans idx =
        ({ blk with dataArrays :=
              blk.dataArrays ++ sig_das nm ty defn du timedim gsec idx chans },
         { grp with dataArrayIds :=
              grp.dataArrayIds ++
                List.range' blk.dataArrays.length chans.length },
         List.range' blk.dataArrays.length chans.length) := by
  intro chans
  induction chans with
  | nil =>
      intro blk grp idx
      simp [write_sig_arrays, sig_das]
  | cons ch rest ih =>
      intro blk grp idx
      rw [write_sig_arrays, ih]
      simp only [sig_das]
      refine congrArg₂ Prod.mk ?_ (congrArg₂ Prod.mk ?_ ?_)
      · simp [List.append_assoc, List.length_append]
      · simp only [List.length_append, List.length_cons, List.length_nil]
        rw [List.range'_succ blk.dataArrays.length rest.length 1]
        simp [List.append_assoc]
      · simp only [List.length_append, List.length_cons, List.length_nil]
        rw [List.range'_succ blk.dataArrays.length rest.length 1]

theorem sig_das_length (nm ty : String) (defn du : Option String)
    (timedim : NDim) (gsec : SectionId) :
    ∀ (chans : List (List ℚ)) (idx : Nat),
      (sig_das nm ty defn du timedim gsec idx chans).length = chans.length := by
  intro chans
  induction chans with
  | nil => intro idx; rfl
  | cons ch rest ih =>
      intro idx
      simp only [sig_das, List.length_cons, ih]

theorem sig_das_map_data (nm ty : String) (defn du : Option String)
    (timedim : NDim) (gsec : SectionId) :
    ∀ (chans : List (List ℚ)) (idx : Nat),
      (sig_das nm ty defn du timedim gsec idx chans).map
        (fun da => da.data.as1) = chans := by
  intro chans
  induction chans with
  | nil => intro idx; rfl
  | cons ch rest ih =>
      intro idx
      simp only [sig_das, List.map_cons, ih]
      rfl

theorem sig_das_mem (nm ty : String) (defn du : Option String)
    (timedim : NDim) (gsec : SectionId) :
    ∀ (chans : List (List ℚ)) (idx : Nat),
      ∀ da ∈ sig_das nm ty defn du timedim gsec idx chans,
        da.metadata = some gsec ∧ da.ntype = ty ∧ da.unit = du ∧
        da.definition = defn ∧ da.dims = [timedim, .setd []] := by
  intro chans
  induction chans with
  | nil => intro idx da hda; exact absurd hda (List.not_mem_nil da)
  | cons ch rest ih =>
      intro idx da hda
      rcases List.mem_cons.mp hda with rfl | hda
      · exact ⟨rfl, rfl, rfl, rfl, rfl⟩
      · exact ih (idx + 1) da hda

theorem sig_das_get_name (nm ty : String) (defn du : Option String)
    (timedim : NDim) (gsec : SectionId) :
    ∀ (chans : List (List ℚ)) (idx i : Nat) (da : NDataArray),
      (sig_das nm ty defn du timedim gsec idx chans)[i]? = some da →
      da.name = nm ++ "." ++ natDecimal (idx + i) := by
  intro chans
  induction chans with
  | nil => intro idx i da h; simp [sig_das] at h
  | cons ch rest ih =>
      intro idx i da h
      cases i with
      | zero =>
          simp only [sig_das, List.getElem?_cons_zero] at h
          have hh := Option.some.inj h
          rw [← hh]
          rfl
      | succ j =>
          simp only [sig_das, List.getElem?_cons_succ] at h
          have := ih (idx + 1) j da h
          rw [this]
          congr 2
          omega

theorem append_right_inj_str (a b c : String) (h : a ++ b = a ++ c) :
    b = c := by
  apply String.ext
  have hd := congrArg String.data h
  simp only [String.data_append] at hd
  exact List.append_cancel_left hd

theorem sig_name_inj (nm : String) (i j : Nat)
    (h : nm ++ "." ++ natDecimal i = nm ++ "." ++ natDecimal j) : i = j := by
  apply natDecimal_injective
  rw [String.append_assoc, String.append_assoc] at h
  exact append_right_inj_str _ _ _ (append_right_inj_str _ _ _ h)

theorem filterMap_getElem_drop {α : Type} (L : List α) :
    ∀ (n s : Nat), s + n = L.length →
      (List.range' s n).filterMap (fun i => L[i]?) = L.drop s := by
  intro n
  induction n with
  | zero =>
      intro s hs
      rw [List.drop_eq_nil_of_le (by omega)]
      rfl
  | succ m ih =>
      intro s hs
      rw [List.range'_succ s m 1]
      have hlt : s < L.length := by omega
      rw [List.filterMap_cons]
      rw [List.getElem?_eq_getElem hlt]
      rw [ih (s + 1) (by omega)]
      rw [List.drop_eq_getElem_cons hlt]

end Neonix
namespace Neonix

theorem sig_das_find (nm ty : String) (defn du : Option String)
    (timedim : NDim) (gsec : SectionId) :
    ∀ (chans : List (List ℚ)) (idx j : Nat),
      (idx ≤ j → j < idx + chans.length →
        (sig_das nm ty defn du timedim gsec idx chans).find?
          (fun da => da.name == nm ++ "." ++ natDecimal j) =
        (sig_das nm ty defn du timedim gsec idx chans)[j - idx]?) ∧
      ((j < idx ∨ idx + chans.length ≤ j) →
        (sig_das nm ty defn du timedim gsec idx chans).find?
          (fun da => da.name == nm ++ "." ++ natDecimal j) = none) := by
  intro chans
  induction chans with
  | nil =>
      intro idx j
      constructor
      · intro h1 h2
        simp only [List.length_nil] at h2
        omega
      · intro _
        rfl
  | cons ch rest ih =>
      intro idx j
      constructor
      · intro h1 h2
        by_cases hj : j = idx
        · subst hj
          have hp : ((fun da => da.name == nm ++ "." ++ natDecimal j)
              (⟨nm ++ "." ++ natDecimal j, ty, defn, du, .d1 ch,
                [timedim, .setd []], some gsec, []⟩ : NDataArray)) = true :=
            beq_self_eq_true _
          show List.find? _ (_ :: _) = _
          rw [@List.find?_cons_of_pos _ (fun da : NDataArray => da.name ==
            nm ++ "." ++ natDecimal j) _ _ hp]
          simp [sig_das]
        · have hne : ((nm ++ "." ++ natDecimal idx) ==
              (nm ++ "." ++ natDecimal j)) = false := by
            apply beq_eq_false_iff_ne.mpr
            intro habs
            exact hj (sig_name_inj nm idx j habs).symm
          have hpa : ((fun da => da.name == nm ++ "." ++ natDecimal j)
              (⟨nm ++ "." ++ natDecimal idx, ty, defn, du, .d1 ch,
                [timedim, .setd []], some gsec, []⟩ : NDataArray)) = false := hne
          have hnpa : ¬ ((fun da => da.name == nm ++ "." ++ natDecimal j)
              (⟨nm ++ "." ++ natDecimal idx, ty, defn, du, .d1 ch,
                [timedim, .setd []], some gsec, []⟩ : NDataArray) = true) := by
            rw [hpa]
            exact Bool.false_ne_true
          show List.find? _ (_ :: _) = _
          rw [@List.find?_cons_of_neg _ (fun da : NDataArray => da.name ==
            nm ++ "." ++ natDecimal j) _ _ hnpa]
          have hrec := (ih (idx + 1) j).1 (by omega) (by
            simp only [List.length_cons] at h2
            omega)
          rw [hrec]
          have hsub : j - idx = (j - (idx + 1)) + 1 := by omega
          rw [hsub]
          simp only [sig_das, List.getElem?_cons_succ]
      · intro hout
        have hj : ¬ j = idx := by
          simp only [List.length_cons] at hout
          omega
        have hne : ((nm ++ "." ++ natDecimal idx) ==
            (nm ++ "." ++ natDecimal j)) = false := by
          apply beq_eq_false_iff_ne.mpr
          intro habs
          exact hj (sig_name_inj nm idx j habs).symm
        have hpa : ((fun da => da.name == nm ++ "." ++ natDecimal j)
            (⟨nm ++ "." ++ natDecimal idx, ty, defn, du, .d1 ch,
              [timedim, .setd []], some gsec, []⟩ : NDataArray)) = false := hne
        have hnpa : ¬ ((fun da => da.name == nm ++ "." ++ natDecimal j)
            (⟨nm ++ "." ++ natDecimal idx, ty, defn, du, .d1 ch,
              [timedim, .setd []], some gsec, []⟩ : NDataArray) = true) := by
          rw [hpa]
          exact Bool.false_ne_true
        show List.find? _ (_ :: _) = _
        rw [@List.find?_cons_of_neg _ (fun da : NDataArray => da.name ==
          nm ++ "." ++ natDecimal j) _ _ hnpa]
        apply (ih (idx + 1) j).2
        simp only [List.length_cons] at hout
        omega

theorem collect_sig_das (nm ty : String) (defn du : Option String)
    (timedim : NDim) (gsec : SectionId) (chans : List (List ℚ)) :
    ∀ (fuel j : Nat), chans.length ≤ fuel + j →
      collect_signal_arrays (sig_das nm ty defn du timedim gsec 0 chans)
        nm fuel j = (sig_das nm ty defn du timedim gsec 0 chans).drop j := by
  intro fuel
  induction fuel with
  | zero =>
      intro j hj
      rw [List.drop_eq_nil_of_le (by rw [sig_das_length]; omega)]
      rfl
  | succ m ih =>
      intro j hj
      by_cases hlt : j < chans.length
      · have hq : j < (sig_das nm ty defn du timedim gsec 0 chans).length := by
          rw [sig_das_length]
          omega
        have hfind := (sig_das_find nm ty defn du timedim gsec chans 0 j).1
          (by omega) (by omega)
        rw [Nat.sub_zero] at hfind
        rw [List.getElem?_eq_getElem hq] at hfind
        simp only [collect_signal_arrays]
        rw [hfind]
        show _ :: collect_signal_arrays _ _ m (j + 1) = _
        rw [ih (j + 1) (by omega)]
        rw [List.drop_eq_getElem_cons hq]
      · have hfind := (sig_das_find nm ty defn du timedim gsec chans 0 j).2
          (Or.inr (by omega))
        simp only [collect_signal_arrays]
        rw [hfind]
        rw [List.drop_eq_nil_of_le (by rw [sig_das_length]; omega)]

theorem insert_by_name_perm (da : NDataArray) (l : List NDataArray) :
    (insert_by_name da l).Perm (da :: l) := by
  induction l with
  | nil => exact List.Perm.refl _
  | cons x xs ih =>
      rw [insert_by_name]
      split
      · exact List.Perm.refl _
      · exact (List.Perm.cons x ih).trans (List.Perm.swap da x xs)

theorem sort_by_name_perm (l : List NDataArray) :
    (sort_by_name l).Perm l := by
  induction l with
  | nil => exact List.Perm.refl _
  | cons x xs ih =>
      exact (insert_by_name_perm x (sort_by_name xs)).trans (List.Perm.cons x ih)

end Neonix
namespace Neonix

theorem add_annotations_length (i : SectionId) :
    ∀ (ann : List (String × PyVal)) (st : SecStore),
      (add_annotations st i ann).length = st.length := by
  intro ann
  induction ann with
  | nil => intro st; rfl
  | cons kv rest ih =>
      intro st
      show (add_annotations (create_property_val st i kv.1 (to_value kv.2))
        i rest).length = st.length
      rw [ih]
      exact create_property_val_length st i kv.1 (to_value kv.2)

theorem read_signal_mismatch (st : SecStore) (blk : NBlock) (grp : NGroup)
    (base : String) (da0 : NDataArray)
    (hhead : (collect_signal_arrays (group_arrays blk grp) base
      ((group_arrays blk grp).length + 1) 0)[0]? = some da0)
    (hbad : (collect_signal_arrays (group_arrays blk grp) base
      ((group_arrays blk grp).length + 1) 0).all
      (fun da => da.metadata == da0.metadata) = false) :
    read_signal st blk grp base = Except.error ReadErr.metadataMismatch := by
  unfold read_signal
  dsimp only
  rw [hhead]
  dsimp only [Bind.bind, Except.bind]
  rw [hbad]
  rfl

theorem read_signal_fresh (st : SecStore) (nm : String)
    (defn du : Option String) (si off : ℚ) (tu : String) (gsec : SectionId)
    (c0 : List ℚ) (cs : List (List ℚ)) (blk : NBlock) (grp : NGroup)
    (hba : blk.dataArrays = sig_das nm "neo.analogsignal" defn du
      (.sampled si (some tu) (some "time") off) gsec 0 (c0 :: cs))
    (hgi : grp.dataArrayIds = List.range' 0 (c0 :: cs).length)
    (hsec : ∃ sec, sec_get st gsec = some sec) :
    ∃ ra, read_signal st blk grp nm = Except.ok (.asig ra) ∧
      ra.channels.Perm (c0 :: cs) ∧
      ra.channels.length = (c0 :: cs).length := by
  obtain ⟨sec, hsec⟩ := hsec
  have hgroup : group_arrays blk grp = sig_das nm "neo.analogsignal" defn du
      (.sampled si (some tu) (some "time") off) gsec 0 (c0 :: cs) := by
    unfold group_arrays
    rw [hba, hgi]
    rw [← sig_das_length nm "neo.analogsignal" defn du
      (.sampled si (some tu) (some "time") off) gsec (c0 :: cs) 0]
    have hfm := filterMap_getElem_drop (sig_das nm "neo.analogsignal" defn du
      (.sampled si (some tu) (some "time") off) gsec 0 (c0 :: cs))
      ((sig_das nm "neo.analogsignal" defn du
        (.sampled si (some tu) (some "time") off) gsec 0 (c0 :: cs)).length)
      0 (by omega)
    rw [List.drop_zero] at hfm
    exact hfm
  have hcollect := collect_sig_das nm "neo.analogsignal" defn du
    (.sampled si (some tu) (some "time") off) gsec (c0 :: cs)
    ((sig_das nm "neo.analogsignal" defn du
      (.sampled si (some tu) (some "time") off) gsec 0 (c0 :: cs)).length + 1)
    0 (by rw [sig_das_length]; omega)
  rw [List.drop_zero] at hcollect
  have hall : (sig_das nm "neo.analogsignal" defn du
      (.sampled si (some tu) (some "time") off) gsec 0 (c0 :: cs)).all
      (fun da => da.metadata == some gsec) = true := by
    apply List.all_eq_true.mpr
    intro x hx
    rw [(sig_das_mem nm "neo.analogsignal" defn du
      (.sampled si (some tu) (some "time") off) gsec (c0 :: cs) 0 x hx).1]
    exact beq_self_eq_true _
  cases hs : sort_by_name (sig_das nm "neo.analogsignal" defn du
      (.sampled si (some tu) (some "time") off) gsec 0 (c0 :: cs)) with
  | nil =>
      exfalso
      have hp := sort_by_name_perm (sig_das nm "neo.analogsignal" defn du
        (.sampled si (some tu) (some "time") off) gsec 0 (c0 :: cs))
      rw [hs] at hp
      have hlen := hp.length_eq
      rw [sig_das_length] at hlen
      simp at hlen
  | cons d0 ds =>
      have hp := sort_by_name_perm (sig_das nm "neo.analogsignal" defn du
        (.sampled si (some tu) (some "time") off) gsec 0 (c0 :: cs))
      rw [hs] at hp
      have hd0mem : d0 ∈ sig_das nm "neo.analogsignal" defn du
          (.sampled si (some tu) (some "time") off) gsec 0 (c0 :: cs) :=
        hp.mem_iff.mp (List.mem_cons_self d0 ds)
      obtain ⟨hml, hnty, hun, hdf, hdims⟩ := sig_das_mem nm "neo.analogsignal"
        defn du (.sampled si (some tu) (some "time") off) gsec (c0 :: cs) 0
        d0 hd0mem
      have hperm2 : ((d0 :: ds).map (fun da => da.data.as1)).Perm (c0 :: cs) := by
        have := hp.map (fun da => da.data.as1)
        rw [sig_das_map_data] at this
        exact this
      refine ⟨{ name := sec.sname, description := d0.definition
                file_origin := prop_str (find_prop
                  (read_props st d0.metadata) "file_origin")
                annots := split_annots (read_props st d0.metadata) "signal"
                channels := (d0 :: ds).map (fun da => da.data.as1)
                unit := d0.unit.getD "dimensionless"
                sampling_period := ⟨si, tu⟩
                t_start := ⟨off, tu⟩ }, ?_, hperm2, hperm2.length_eq⟩
      unfold read_signal
      dsimp only
      rw [hgroup, hcollect]
      have hhead : (sig_das nm "neo.analogsignal" defn du
          (.sampled si (some tu) (some "time") off) gsec 0 (c0 :: cs))[0]? =
          some (⟨nm ++ "." ++ natDecimal 0, "neo.analogsignal", defn, du,
            .d1 c0, [.sampled si (some tu) (some "time") off, .setd []],
            some gsec, []⟩ : NDataArray) := by simp [sig_das]
      rw [hhead]
      dsimp only [Bind.bind, Except.bind]
      have hall2 : (sig_das nm "neo.analogsignal" defn du
          (.sampled si (some tu) (some "time") off) gsec 0 (c0 :: cs)).all
          (fun da => da.metadata ==
            (⟨nm ++ "." ++ natDecimal 0, "neo.analogsignal", defn, du,
              .d1 c0, [.sampled si (some tu) (some "time") off, .setd []],
              some gsec, []⟩ : NDataArray).metadata) = true := hall
      first
      | rw [hall2]
      | rw [hall]
      rw [if_pos (rfl : (true : Bool) = true)]
      unfold signal_da_to_neo
      first
      | dsimp only [Bind.bind, Except.bind]
      | skip
      rw [hs]
      rw [List.getElem?_cons_zero]
      first
      | dsimp only
      | skip
      rw [hml]
      first
      | dsimp only
      | skip
      rw [Option.some_bind']
      rw [hsec]
      first
      | dsimp only
      | skip
      rw [hnty]
      rw [if_pos (Or.inl rfl)]
      rw [hdims]
      rfl

end Neonix
namespace Neonix

/-- C2: writing a K-channel signal into a fresh group creates exactly K
sibling data arrays whose metadata attachments are one identical section
(arena identity), reading the group back succeeds and reconstructs a
payload holding all K channels, and whenever any collected array's
metadata attachment differs from the first one, `read_signal` raises the
metadata-consistency error instead of silently ignoring it. -/
theorem C2_multichannel_grouping (st : SecStore) (blk : NBlock) (grp : NGroup)
    (om : ObjMap) (sig : NeoAnalogSignal)
    (st' : SecStore) (blk' : NBlock) (grp' : NGroup) (om' : ObjMap)
    (hfb : blk.dataArrays = []) (hfg : grp.dataArrayIds = [])
    (hK : 0 < sig.channels.length)
    (h : write_analogsignal st blk grp om sig = some (st', blk', grp', om')) :
    (blk'.dataArrays.length = sig.channels.length ∧
      ∃ gsec, ∀ da ∈ blk'.dataArrays, da.metadata = some gsec) ∧
    (∃ ra, read_signal st' blk' grp'
        (neo_attr_to_nix sig.name "AnalogSignal" sig.description none none
          sig.file_origin sig.annots
          (blk.dataArrays.map (fun d => d.name))).name
        = Except.ok (.asig ra) ∧
      ra.channels.Perm sig.channels ∧
      ra.channels.length = sig.channels.length) ∧
    (∀ (st₂ : SecStore) (blk₂ : NBlock) (grp₂ : NGroup) (base : String)
        (da0 : NDataArray),
      (collect_signal_arrays (group_arrays blk₂ grp₂) base
        ((group_arrays blk₂ grp₂).length + 1) 0)[0]? = some da0 →
      (collect_signal_arrays (group_arrays blk₂ grp₂) base
        ((group_arrays blk₂ grp₂).length + 1) 0).all
        (fun da => da.metadata == da0.metadata) = false →
      read_signal st₂ blk₂ grp₂ base = Except.error ReadErr.metadataMismatch) := by
  obtain ⟨c0, cs, hcc⟩ : ∃ c0 cs, sig.channels = c0 :: cs := by
    cases hc : sig.channels with
    | nil => rw [hc] at hK; simp at hK
    | cons a b => exact ⟨a, b, rfl⟩
  unfold write_analogsignal at h
  dsimp only at h
  simp only [Option.bind_eq_bind] at h
  rw [Option.bind_eq_some] at h
  obtain ⟨tuStr, htu, h⟩ := h
  have h4 := Option.some.inj h
  have hst := (congrArg (fun p => p.1) h4).symm
  have hblk := (congrArg (fun p => p.2.1) h4).symm
  have hgrp := (congrArg (fun p => p.2.2.1) h4).symm
  dsimp only at hst hblk hgrp
  rw [write_sig_arrays_eq] at hblk hgrp
  dsimp only at hblk hgrp
  have hba : blk'.dataArrays = sig_das
      (neo_attr_to_nix sig.name "AnalogSignal" sig.description none none
        sig.file_origin sig.annots (blk.dataArrays.map (fun d => d.name))).name
      ("neo." ++ str_lower "AnalogSignal")
      sig.description (get_units sig.unit false)
      (.sampled (rescale sig.sampling_period tuStr).mag (some tuStr)
        (some "time") (rescale sig.t_start tuStr).mag)
      ((get_or_init_metadata st grp.name grp.ntype grp.metadata).1.length)
      0 sig.channels := by
    rw [hblk]
    show blk.dataArrays ++ _ = _
    rw [hfb]
    exact List.nil_append _
  have hgi : grp'.dataArrayIds =
      List.range' 0 sig.channels.length := by
    rw [hgrp]
    show grp.dataArrayIds ++ _ = _
    rw [hfg, hfb]
    exact List.nil_append _
  have hty : ("neo." ++ str_lower "AnalogSignal") = "neo.analogsignal" := rfl
  have hsec : ∃ sec, sec_get st'
      ((get_or_init_metadata st grp.name grp.ntype grp.metadata).1.length)
      = some sec := by
    have hl2 : (create_section
        (get_or_init_metadata st grp.name grp.ntype grp.metadata).1
        (neo_attr_to_nix sig.name "AnalogSignal" sig.description none none
          sig.file_origin sig.annots
          (blk.dataArrays.map (fun d => d.name))).name
        ((neo_attr_to_nix sig.name "AnalogSignal" sig.description none none
          sig.file_origin sig.annots
          (blk.dataArrays.map (fun d => d.name))).ntype ++ ".metadata")).1.length =
        (get_or_init_metadata st grp.name grp.ntype grp.metadata).1.length
          + 1 :=
      create_section_length ..
    have hlt : (get_or_init_metadata st grp.name grp.ntype
        grp.metadata).1.length < st'.length := by
      rw [hst]
      split
      · split
        · rw [create_property_length]
          omega
        · omega
      · rw [add_annotations_length]
        split
        · rw [create_property_length]
          omega
        · omega
    exact ⟨st'[(get_or_init_metadata st grp.name grp.ntype
        grp.metadata).1.length], List.getElem?_eq_getElem hlt⟩
  refine ⟨⟨?_, ?_⟩, ?_, ?_⟩
  · rw [hba, sig_das_length]
  · refine ⟨(get_or_init_metadata st grp.name grp.ntype
      grp.metadata).1.length, ?_⟩
    intro da hda
    rw [hba] at hda
    exact (sig_das_mem _ _ _ _ _ _ _ _ da hda).1
  · rw [hcc] at hba hgi
    rw [hty] at hba
    obtain ⟨ra, hra, hperm, hlen⟩ := read_signal_fresh st'
      (neo_attr_to_nix sig.name "AnalogSignal" sig.description none none
        sig.file_origin sig.annots (blk.dataArrays.map (fun d => d.name))).name
      sig.description (get_units sig.unit false)
      (rescale sig.sampling_period tuStr).mag
      (rescale sig.t_start tuStr).mag tuStr
      ((get_or_init_metadata st grp.name grp.ntype grp.metadata).1.length)
      c0 cs blk' grp' hba hgi hsec
    rw [← hcc] at hperm hlen
    exact ⟨ra, hra, hperm, hlen⟩
  · intro st₂ blk₂ grp₂ base da0 hhead hbad
    exact read_signal_mismatch st₂ blk₂ grp₂ base da0 hhead hbad

end Neonix
namespace Neonix

def c2Blk : NBlock :=
  { name := "blk", ntype := "neo.block", definition := none, created_at := 0
    metadata := none, dataArrays := [], groups := [], multiTags := []
    sources := [] }

def c2Grp : NGroup :=
  { name := "seg", ntype := "neo.segment", definition := none
    created_at := 0, metadata := none, dataArrayIds := [], multiTagIds := [] }

def c2Sig : NeoAnalogSignal :=
  { eid := 1, name := some "sig", description := none, file_origin := none
    annots := [], channels := [[1, 2], [3, 4]], unit := "mV"
    sampling_period := ⟨1, "s"⟩, t_start := ⟨0, "s"⟩ }

theorem C2_multichannel_grouping_witness :
    c2Blk.dataArrays = [] ∧ c2Grp.dataArrayIds = [] ∧
    0 < c2Sig.channels.length ∧
    ∃ r : SecStore × NBlock × NGroup × ObjMap,
      write_analogsignal [] c2Blk c2Grp [] c2Sig = some r ∧
      ((r.2.1.dataArrays.length = c2Sig.channels.length ∧
        ∃ gsec, ∀ da ∈ r.2.1.dataArrays, da.metadata = some gsec) ∧
       (∃ ra, read_signal r.1 r.2.1 r.2.2.1
          (neo_attr_to_nix c2Sig.name "AnalogSignal" c2Sig.description
            none none c2Sig.file_origin c2Sig.annots
            (c2Blk.dataArrays.map (fun d => d.name))).name
          = Except.ok (.asig ra) ∧
        ra.channels.Perm c2Sig.channels ∧
        ra.channels.length = c2Sig.channels.length) ∧
       (∀ (st₂ : SecStore) (blk₂ : NBlock) (grp₂ : NGroup) (base : String)
          (da0 : NDataArray),
        (collect_signal_arrays (group_arrays blk₂ grp₂) base
          ((group_arrays blk₂ grp₂).length + 1) 0)[0]? = some da0 →
        (collect_signal_arrays (group_arrays blk₂ grp₂) base
          ((group_arrays blk₂ grp₂).length + 1) 0).all
          (fun da => da.metadata == da0.metadata) = false →
        read_signal st₂ blk₂ grp₂ base =
          Except.error ReadErr.metadataMismatch)) :=
  ⟨rfl, rfl, by decide,
   ⟨_, rfl, C2_multichannel_grouping [] c2Blk c2Grp [] c2Sig _ _ _ _
     rfl rfl (by decide) rfl⟩⟩

end Neonix
namespace Neonix

theorem read_props_of_sec (st : SecStore) (i : SectionId) (sec : NSection)
    (h : sec_get st i = some sec) :
    read_props st (some i) =
      sec.props.map (fun p => (p.pname, decode_prop_values p.values)) := by
  unfold read_props
  rw [Option.some_bind', h]

theorem ann_props_decode (ann : List (String × PyVal))
    (hs : ∀ kv ∈ ann, ann_scalar kv.2) :
    (ann_props ann).map (fun p => (p.pname, decode_prop_values p.values))
      = ann := by
  induction ann with
  | nil => rfl
  | cons kv rest ih =>
      simp only [ann_props, List.map_cons, List.map_map] at ih ⊢
      rw [decode_ann_value kv.2 (hs kv (List.mem_cons_self kv rest))]
      have := ih (fun x hx => hs x (List.mem_cons_of_mem kv hx))
      rw [this]

/-- The decoded property pairs of a whole `attr_meta_props` section with
present timestamps and file origin. -/
theorem attr_meta_props_decode (attr : NixAttr) (fd : DT) (fo : String)
    (hfd : attr.file_datetime = some fd) (hfo : attr.file_origin = some fo)
    (hs : ∀ kv ∈ attr.annots, ann_scalar kv.2) :
    (attr_meta_props attr).map
        (fun p => (p.pname, decode_prop_values p.values)) =
      ("file_datetime", .scalar (.int (calculate_timestamp fd))) ::
      ("file_origin", .scalar (.str fo)) :: attr.annots := by
  unfold attr_meta_props
  rw [hfd, hfo]
  simp only [fdt_props, fo_props, List.map_append, List.map_cons,
    List.map_nil, List.singleton_append, List.cons_append, List.nil_append]
  rw [ann_props_decode attr.annots hs]
  rfl

theorem find_prop_cons_ne (k k' : String) (v : PyVal)
    (rest : List (String × PyVal)) (h : (k' == k) = false) :
    find_prop ((k', v) :: rest) k = find_prop rest k := by
  unfold find_prop
  rw [List.find?_cons_of_neg _ (by
    intro hx
    dsimp only at hx
    rw [h] at hx
    exact Bool.false_ne_true hx)]

theorem find_prop_cons_self (k : String) (v : PyVal)
    (rest : List (String × PyVal)) :
    find_prop ((k, v) :: rest) k = some v := by
  unfold find_prop
  rw [List.find?_cons_of_pos _ (by
    dsimp only
    exact beq_self_eq_true k)]
  rfl

end Neonix
namespace Neonix

/-- Round trip of a childless Block through `write_block` and
`_block_to_neo`: the directly mapped attributes come back exactly,
provided the timestamps are whole seconds, name and file origin are
truthy, and the annotations are scalar with non-reserved keys. -/
theorem block_round_trip (st : SecStore) (om : ObjMap) (b : NeoBlock)
    (rd fd : DT)
    (hn : strTruthy b.name)
    (hrd : b.rec_datetime = some rd) (hrd0 : rd.usec = 0)
    (hfd : b.file_datetime = some fd) (hfd0 : fd.usec = 0)
    (hfo : strTruthy b.file_origin)
    (hs : ∀ kv ∈ b.annots, ann_scalar kv.2)
    (hkeys : ∀ kv ∈ b.annots, kv.1 ∉ reserved_keys "block")
    (hsegs : b.segments = []) (hrcgs : b.rcgs = []) :
    ∃ st' nb om', write_block st [] om b = some (st', [nb], om') ∧
      block_to_neo st' nb =
        { name := b.name.getD "", description := b.description
          rec_datetime := rd, file_datetime := some fd
          file_origin := b.file_origin, annots := b.annots } := by
  obtain ⟨fos, hfos⟩ : ∃ s, b.file_origin = some s := by
    cases hc : b.file_origin with
    | none => rw [hc] at hfo; exact absurd hfo (by simp [strTruthy])
    | some s => exact ⟨s, rfl⟩
  have hattrfd : (neo_attr_to_nix b.name "Block" b.description b.rec_datetime
      b.file_datetime b.file_origin b.annots
      (([] : List NBlock).map (fun x => x.name))).file_datetime = some fd := hfd
  have hattrfo : (neo_attr_to_nix b.name "Block" b.description b.rec_datetime
      b.file_datetime b.file_origin b.annots
      (([] : List NBlock).map (fun x => x.name))).file_origin = some fos := by
    show (if strTruthy b.file_origin then b.file_origin else none) = some fos
    rw [if_pos hfo]
    exact hfos
  have hattrca : (neo_attr_to_nix b.name "Block" b.description b.rec_datetime
      b.file_datetime b.file_origin b.annots
      (([] : List NBlock).map (fun x => x.name))).created_at = some rd := hrd
  have hmed : (neo_attr_to_nix b.name "Block" b.description b.rec_datetime
      b.file_datetime b.file_origin b.annots
      (([] : List NBlock).map (fun x => x.name))).name = b.name.getD "" := by
    show mediate_name b.name "Block" (([] : List NBlock).map (fun x => x.name))
      = b.name.getD ""
    simp only [mediate_name, List.map_nil]
    rw [if_neg (List.not_mem_nil _)]
    unfold nix_basename
    rw [if_pos hn]
  have hne : (neo_attr_to_nix b.name "Block" b.description b.rec_datetime
      b.file_datetime b.file_origin b.annots
      (([] : List NBlock).map (fun x => x.name))).file_datetime ≠ none ∨
      (neo_attr_to_nix b.name "Block" b.description b.rec_datetime
      b.file_datetime b.file_origin b.annots
      (([] : List NBlock).map (fun x => x.name))).file_origin ≠ none ∨
      (neo_attr_to_nix b.name "Block" b.description b.rec_datetime
      b.file_datetime b.file_origin b.annots
      (([] : List NBlock).map (fun x => x.name))).annots ≠ [] := by
    left
    rw [hattrfd]
    simp
  obtain ⟨st₁, hwa, hlen₁, hoth₁, hsec₁⟩ := write_attr_meta_none_exact st
    (neo_attr_to_nix b.name "Block" b.description b.rec_datetime
      b.file_datetime b.file_origin b.annots
      (([] : List NBlock).map (fun x => x.name))).name
    (neo_attr_to_nix b.name "Block" b.description b.rec_datetime
      b.file_datetime b.file_origin b.annots
      (([] : List NBlock).map (fun x => x.name))).ntype
    (neo_attr_to_nix b.name "Block" b.description b.rec_datetime
      b.file_datetime b.file_origin b.annots
      (([] : List NBlock).map (fun x => x.name))) hne hs
  have hm2 : (write_attr_meta st
      (neo_attr_to_nix b.name "Block" b.description b.rec_datetime
        b.file_datetime b.file_origin b.annots
        (([] : List NBlock).map (fun x => x.name))).name
      (neo_attr_to_nix b.name "Block" b.description b.rec_datetime
        b.file_datetime b.file_origin b.annots
        (([] : List NBlock).map (fun x => x.name))).ntype none
      (neo_attr_to_nix b.name "Block" b.description b.rec_datetime
        b.file_datetime b.file_origin b.annots
        (([] : List NBlock).map (fun x => x.name)))).2 = some st.length := by
    rw [hwa]
  have hst1 : (write_attr_meta st
      (neo_attr_to_nix b.name "Block" b.description b.rec_datetime
        b.file_datetime b.file_origin b.annots
        (([] : List NBlock).map (fun x => x.name))).name
      (neo_attr_to_nix b.name "Block" b.description b.rec_datetime
        b.file_datetime b.file_origin b.annots
        (([] : List NBlock).map (fun x => x.name))).ntype none
      (neo_attr_to_nix b.name "Block" b.description b.rec_datetime
        b.file_datetime b.file_origin b.annots
        (([] : List NBlock).map (fun x => x.name)))).1 = st₁ := by
    rw [hwa]
  have hwb : ∃ nb, write_block st [] om b = some (st₁, [nb], om) ∧
      nb.name = (neo_attr_to_nix b.name "Block" b.description b.rec_datetime
        b.file_datetime b.file_origin b.annots
        (([] : List NBlock).map (fun x => x.name))).name ∧
      nb.definition = b.description ∧
      nb.created_at = calculate_timestamp rd ∧
      nb.metadata = some st.length := by
    unfold write_block
    rw [hsegs, hrcgs]
    dsimp only [fold_opt]
    simp only [Option.bind_eq_bind, Option.some_bind]
    rw [hst1]
    refine ⟨_, rfl, rfl, rfl, ?_, hm2⟩
    rw [hattrca]
  obtain ⟨nb, hwbe, hname, hdef, hca, hmeta⟩ := hwb
  refine ⟨st₁, nb, om, hwbe, ?_⟩
  unfold block_to_neo
  dsimp only
  rw [hmeta]
  rw [read_props_of_sec _ _ _ hsec₁]
  dsimp only
  rw [attr_meta_props_decode _ fd fos hattrfd hattrfo hs]
  rw [RBlock.mk.injEq]
  refine ⟨hname.trans hmed, hdef, ?_, ?_, ?_, ?_⟩
  · rw [hca]
    show fromtimestamp (calculate_timestamp rd) = rd
    obtain ⟨s, u⟩ := rd
    obtain rfl : u = 0 := hrd0
    rfl
  · rw [find_prop_cons_self]
    show (some (calculate_timestamp fd)).map fromtimestamp = some fd
    show some (fromtimestamp (calculate_timestamp fd)) = some fd
    obtain ⟨s, u⟩ := fd
    obtain rfl : u = 0 := hfd0
    rfl
  · rw [find_prop_cons_ne _ _ _ _ (by decide), find_prop_cons_self]
    show some fos = b.file_origin
    exact hfos.symm
  · show split_annots _ "block" = b.annots
    unfold split_annots
    simp only [List.filter_cons]
    rw [if_neg (by decide), if_neg (by decide)]
    apply List.filter_eq_self.mpr
    intro kv hkv
    have hnk := hkeys kv hkv
    have hcf : (reserved_keys "block").contains kv.1 = false := by
      cases hc : (reserved_keys "block").contains kv.1
      · rfl
      · exact absurd ((Neo2nix.contains_mem_str _ _).mp hc) hnk
    rw [hcf]
    rfl

end Neonix
namespace Neonix

/-- Round trip of a childless Segment written into a block with no groups
through `write_segment` and `_group_to_neo`: the directly mapped
attributes come back exactly, provided the timestamps are whole seconds,
name and file origin are truthy, and the annotations are scalar with
non-reserved keys. -/
theorem segment_round_trip (st : SecStore) (blk : NBlock) (om : ObjMap)
    (sg : NeoSegment) (rd fd : DT)
    (hgrps : blk.groups = [])
    (hn : strTruthy sg.name)
    (hrd : sg.rec_datetime = some rd) (hrd0 : rd.usec = 0)
    (hfd : sg.file_datetime = some fd) (hfd0 : fd.usec = 0)
    (hfo : strTruthy sg.file_origin)
    (hs : ∀ kv ∈ sg.annots, ann_scalar kv.2)
    (hkeys : ∀ kv ∈ sg.annots, kv.1 ∉ reserved_keys "segment")
    (ha : sg.analogsignals = []) (hi : sg.irregularlysampledsignals = [])
    (he : sg.epochs = []) (hev : sg.events = []) (hsp : sg.spiketrains = []) :
    ∃ st' grp om', write_segment st blk om sg =
        some (st', { blk with groups := blk.groups ++ [grp] }, om') ∧
      group_to_neo st' grp =
        { name := sg.name.getD "", description := sg.description
          rec_datetime := rd, file_datetime := some fd
          file_origin := sg.file_origin, annots := sg.annots } := by
  obtain ⟨fos, hfos⟩ : ∃ s, sg.file_origin = some s := by
    cases hc : sg.file_origin with
    | none => rw [hc] at hfo; exact absurd hfo (by simp [strTruthy])
    | some s => exact ⟨s, rfl⟩
  have hattrfd : (neo_attr_to_nix sg.name "Segment" sg.description
      sg.rec_datetime sg.file_datetime sg.file_origin sg.annots
      (blk.groups.map (fun x => x.name))).file_datetime = some fd := hfd
  have hattrfo : (neo_attr_to_nix sg.name "Segment" sg.description
      sg.rec_datetime sg.file_datetime sg.file_origin sg.annots
      (blk.groups.map (fun x => x.name))).file_origin = some fos := by
    show (if strTruthy sg.file_origin then sg.file_origin else none) = some fos
    rw [if_pos hfo]
    exact hfos
  have hattrca : (neo_attr_to_nix sg.name "Segment" sg.description
      sg.rec_datetime sg.file_datetime sg.file_origin sg.annots
      (blk.groups.map (fun x => x.name))).created_at = some rd := hrd
  have hmed : (neo_attr_to_nix sg.name "Segment" sg.description
      sg.rec_datetime sg.file_datetime sg.file_origin sg.annots
      (blk.groups.map (fun x => x.name))).name = sg.name.getD "" := by
    show mediate_name sg.name "Segment" (blk.groups.map (fun x => x.name))
      = sg.name.getD ""
    simp only [mediate_name, hgrps, List.map_nil]
    rw [if_neg (List.not_mem_nil _)]
    unfold nix_basename
    rw [if_pos hn]
  have hne : (neo_attr_to_nix sg.name "Segment" sg.description
      sg.rec_datetime sg.file_datetime sg.file_origin sg.annots
      (blk.groups.map (fun x => x.name))).file_datetime ≠ none ∨
      (neo_attr_to_nix sg.name "Segment" sg.description
      sg.rec_datetime sg.file_datetime sg.file_origin sg.annots
      (blk.groups.map (fun x => x.name))).file_origin ≠ none ∨
      (neo_attr_to_nix sg.name "Segment" sg.description
      sg.rec_datetime sg.file_datetime sg.file_origin sg.annots
      (blk.groups.map (fun x => x.name))).annots ≠ [] := by
    left
    rw [hattrfd]
    simp
  obtain ⟨st₁, hwa, hlen₁, hoth₁, hsec₁⟩ := write_attr_meta_none_exact st
    (neo_attr_to_nix sg.name "Segment" sg.description
      sg.rec_datetime sg.file_datetime sg.file_origin sg.annots
      (blk.groups.map (fun x => x.name))).name
    (neo_attr_to_nix sg.name "Segment" sg.description
      sg.rec_datetime sg.file_datetime sg.file_origin sg.annots
      (blk.groups.map (fun x => x.name))).ntype
    (neo_attr_to_nix sg.name "Segment" sg.description
      sg.rec_datetime sg.file_datetime sg.file_origin sg.annots
      (blk.groups.map (fun x => x.name))) hne hs
  have hm2 : (write_attr_meta st
      (neo_attr_to_nix sg.name "Segment" sg.description
        sg.rec_datetime sg.file_datetime sg.file_origin sg.annots
        (blk.groups.map (fun x => x.name))).name
      (neo_attr_to_nix sg.name "Segment" sg.description
        sg.rec_datetime sg.file_datetime sg.file_origin sg.annots
        (blk.groups.map (fun x => x.name))).ntype none
      (neo_attr_to_nix sg.name "Segment" sg.description
        sg.rec_datetime sg.file_datetime sg.file_origin sg.annots
        (blk.groups.map (fun x => x.name)))).2 = some st.length := by
    rw [hwa]
  have hst1 : (write_attr_meta st
      (neo_attr_to_nix sg.name "Segment" sg.description
        sg.rec_datetime sg.file_datetime sg.file_origin sg.annots
        (blk.groups.map (fun x => x.name))).name
      (neo_attr_to_nix sg.name "Segment" sg.description
        sg.rec_datetime sg.file_datetime sg.file_origin sg.annots
        (blk.groups.map (fun x => x.name))).ntype none
      (neo_attr_to_nix sg.name "Segment" sg.description
        sg.rec_datetime sg.file_datetime sg.file_origin sg.annots
        (blk.groups.map (fun x => x.name)))).1 = st₁ := by
    rw [hwa]
  have hws : ∃ grp, write_segment st blk om sg =
      some (st₁, { blk with groups := blk.groups ++ [grp] }, om) ∧
      grp.name = (neo_attr_to_nix sg.name "Segment" sg.description
        sg.rec_datetime sg.file_datetime sg.file_origin sg.annots
        (blk.groups.map (fun x => x.name))).name ∧
      grp.definition = sg.description ∧
      grp.created_at = calculate_timestamp rd ∧
      grp.metadata = some st.length := by
    unfold write_segment
    rw [ha, hi, he, hev, hsp]
    dsimp only [fold_opt]
    simp only [Option.bind_eq_bind, Option.some_bind]
    rw [hst1]
    refine ⟨_, rfl, rfl, rfl, ?_, hm2⟩
    rw [hattrca]
  obtain ⟨grp, hwse, hname, hdef, hca, hmeta⟩ := hws
  refine ⟨st₁, grp, om, hwse, ?_⟩
  unfold group_to_neo
  dsimp only
  rw [hmeta]
  rw [read_props_of_sec _ _ _ hsec₁]
  dsimp only
  rw [attr_meta_props_decode _ fd fos hattrfd hattrfo hs]
  rw [RSegment.mk.injEq]
  refine ⟨hname.trans hmed, hdef, ?_, ?_, ?_, ?_⟩
  · rw [hca]
    show fromtimestamp (calculate_timestamp rd) = rd
    obtain ⟨s, u⟩ := rd
    obtain rfl : u = 0 := hrd0
    rfl
  · rw [find_prop_cons_self]
    show (some (calculate_timestamp fd)).map fromtimestamp = some fd
    show some (fromtimestamp (calculate_timestamp fd)) = some fd
    obtain ⟨s, u⟩ := fd
    obtain rfl : u = 0 := hfd0
    rfl
  · rw [find_prop_cons_ne _ _ _ _ (by decide), find_prop_cons_self]
    show some fos = sg.file_origin
    exact hfos.symm
  · show split_annots _ "segment" = sg.annots
    unfold split_annots
    simp only [List.filter_cons]
    rw [if_neg (by decide), if_neg (by decide)]
    apply List.filter_eq_self.mpr
    intro kv hkv
    have hnk := hkeys kv hkv
    have hcf : (reserved_keys "segment").contains kv.1 = false := by
      cases hc : (reserved_keys "segment").contains kv.1
      · rfl
      · exact absurd ((Neo2nix.contains_mem_str _ _).mp hc) hnk
    rw [hcf]
    rfl

end Neonix
namespace Neonix

theorem rescale_self (q : Quant) (u : String) (h : q.unit = u) :
    rescale q u = q := by
  unfold rescale
  rw [if_pos h]

theorem get_units_false_getD (u : String) :
    (get_units u false).getD "dimensionless" = u := by
  show (if u = "dimensionless" then (none : Option String)
    else some u).getD "dimensionless" = u
  by_cases h : u = "dimensionless"
  · rw [if_pos h]
    exact h.symm
  · rw [if_neg h]
    rfl

/-- Decoded property pairs of a signal metadata section holding the file
origin and scalar annotations. -/
theorem fo_ann_props_decode (fo : String) (ann : List (String × PyVal))
    (hs : ∀ kv ∈ ann, ann_scalar kv.2) :
    ((⟨"file_origin", [.str fo]⟩ :: ann_props ann).map
        (fun p => (p.pname, decode_prop_values p.values)))
      = ("file_origin", .scalar (.str fo)) :: ann := by
  rw [List.map_cons, ann_props_decode ann hs]
  rfl

/-- Strengthened form of `read_signal_fresh`: every attribute of the
reconstructed signal is pinned down. -/
theorem read_signal_fresh_exact (st : SecStore) (nm : String)
    (defn du : Option String) (si off : ℚ) (tu : String) (gsec : SectionId)
    (c0 : List ℚ) (cs : List (List ℚ)) (blk : NBlock) (grp : NGroup)
    (sec : NSection)
    (hba : blk.dataArrays = sig_das nm "neo.analogsignal" defn du
      (.sampled si (some tu) (some "time") off) gsec 0 (c0 :: cs))
    (hgi : grp.dataArrayIds = List.range' 0 (c0 :: cs).length)
    (hsec : sec_get st gsec = some sec) :
    ∃ ra, read_signal st blk grp nm = Except.ok (.asig ra) ∧
      ra.name = sec.sname ∧
      ra.description = defn ∧
      ra.unit = du.getD "dimensionless" ∧
      ra.sampling_period = ⟨si, tu⟩ ∧
      ra.t_start = ⟨off, tu⟩ ∧
      ra.file_origin = prop_str (find_prop
        (read_props st (some gsec)) "file_origin") ∧
      ra.annots = split_annots (read_props st (some gsec)) "signal" ∧
      ra.channels.Perm (c0 :: cs) ∧
      ra.channels = (sort_by_name (sig_das nm "neo.analogsignal" defn du
        (.sampled si (some tu) (some "time") off) gsec 0 (c0 :: cs))).map
        (fun da => da.data.as1) := by
  have hgroup : group_arrays blk grp = sig_das nm "neo.analogsignal" defn du
      (.sampled si (some tu) (some "time") off) gsec 0 (c0 :: cs) := by
    unfold group_arrays
    rw [hba, hgi]
    rw [← sig_das_length nm "neo.analogsignal" defn du
      (.sampled si (some tu) (some "time") off) gsec (c0 :: cs) 0]
    have hfm := filterMap_getElem_drop (sig_das nm "neo.analogsignal" defn du
      (.sampled si (some tu) (some "time") off) gsec 0 (c0 :: cs))
      ((sig_das nm "neo.analogsignal" defn du
        (.sampled si (some tu) (some "time") off) gsec 0 (c0 :: cs)).length)
      0 (by omega)
    rw [List.drop_zero] at hfm
    exact hfm
  have hcollect := collect_sig_das nm "neo.analogsignal" defn du
    (.sampled si (some tu) (some "time") off) gsec (c0 :: cs)
    ((sig_das nm "neo.analogsignal" defn du
      (.sampled si (some tu) (some "time") off) gsec 0 (c0 :: cs)).length + 1)
    0 (by rw [sig_das_length]; omega)
  rw [List.drop_zero] at hcollect
  have hall : (sig_das nm "neo.analogsignal" defn du
      (.sampled si (some tu) (some "time") off) gsec 0 (c0 :: cs)).all
      (fun da => da.metadata == some gsec) = true := by
    apply List.all_eq_true.mpr
    intro x hx
    rw [(sig_das_mem nm "neo.analogsignal" defn du
      (.sampled si (some tu) (some "time") off) gsec (c0 :: cs) 0 x hx).1]
    exact beq_self_eq_true _
  cases hs : sort_by_name (sig_das nm "neo.analogsignal" defn du
      (.sampled si (some tu) (some "time") off) gsec 0 (c0 :: cs)) with
  | nil =>
      exfalso
      have hp := sort_by_name_perm (sig_das nm "neo.analogsignal" defn du
        (.sampled si (some tu) (some "time") off) gsec 0 (c0 :: cs))
      rw [hs] at hp
      have hlen := hp.length_eq
      rw [sig_das_length] at hlen
      simp at hlen
  | cons d0 ds =>
      have hp := sort_by_name_perm (sig_das nm "neo.analogsignal" defn du
        (.sampled si (some tu) (some "time") off) gsec 0 (c0 :: cs))
      rw [hs] at hp
      have hd0mem : d0 ∈ sig_das nm "neo.analogsignal" defn du
          (.sampled si (some tu) (some "time") off) gsec 0 (c0 :: cs) :=
        hp.mem_iff.mp (List.mem_cons_self d0 ds)
      obtain ⟨hml, hnty, hun, hdf, hdims⟩ := sig_das_mem nm "neo.analogsignal"
        defn du (.sampled si (some tu) (some "time") off) gsec (c0 :: cs) 0
        d0 hd0mem
      have hperm2 : ((d0 :: ds).map (fun da => da.data.as1)).Perm (c0 :: cs) := by
        have := hp.map (fun da => da.data.as1)
        rw [sig_das_map_data] at this
        exact this
      refine ⟨{ name := sec.sname, description := d0.definition
                file_origin := prop_str (find_prop
                  (read_props st d0.metadata) "file_origin")
                annots := split_annots (read_props st d0.metadata) "signal"
                channels := (d0 :: ds).map (fun da => da.data.as1)
                unit := d0.unit.getD "dimensionless"
                sampling_period := ⟨si, tu⟩
                t_start := ⟨off, tu⟩ }, ?_, rfl, hdf,
        (by rw [hun]), rfl, rfl, (by rw [hml]), (by rw [hml]), hperm2, rfl⟩
      unfold read_signal
      dsimp only
      rw [hgroup, hcollect]
      have hhead : (sig_das nm "neo.analogsignal" defn du
          (.sampled si (some tu) (some "time") off) gsec 0 (c0 :: cs))[0]? =
          some (⟨nm ++ "." ++ natDecimal 0, "neo.analogsignal", defn, du,
            .d1 c0, [.sampled si (some tu) (some "time") off, .setd []],
            some gsec, []⟩ : NDataArray) := by simp [sig_das]
      rw [hhead]
      dsimp only [Bind.bind, Except.bind]
      have hall2 : (sig_das nm "neo.analogsignal" defn du
          (.sampled si (some tu) (some "time") off) gsec 0 (c0 :: cs)).all
          (fun da => da.metadata ==
            (⟨nm ++ "." ++ natDecimal 0, "neo.analogsignal", defn, du,
              .d1 c0, [.sampled si (some tu) (some "time") off, .setd []],
              some gsec, []⟩ : NDataArray).metadata) = true := hall
      first
      | rw [hall2]
      | rw [hall]
      rw [if_pos (rfl : (true : Bool) = true)]
      unfold signal_da_to_neo
      first
      | dsimp only [Bind.bind, Except.bind]
      | skip
      rw [hs]
      rw [List.getElem?_cons_zero]
      first
      | dsimp only
      | skip
      rw [hml]
      first
      | dsimp only
      | skip
      rw [Option.some_bind']
      rw [hsec]
      first
      | dsimp only
      | skip
      rw [hnty]
      rw [if_pos (Or.inl rfl)]
      rw [hdims]
      rfl

end Neonix
namespace Neonix

/-- Round trip of a K-channel AnalogSignal written into a fresh block and
group through `write_analogsignal` and `read_signal`: every directly
mapped attribute comes back exactly and the payload holds all K channels
up to the lexicographic re-sort, provided the name and file origin are
truthy, the annotations are scalar with non-reserved keys, and the time
quantities are given in seconds. -/
theorem signal_round_trip (st : SecStore) (blk : NBlock) (grp : NGroup)
    (om : ObjMap) (sig : NeoAnalogSignal) (pmId : SectionId)
    (hfb : blk.dataArrays = [])
    (hfg : grp.dataArrayIds = [])
    (hpm : grp.metadata = some pmId)
    (hn : strTruthy sig.name)
    (hfo : strTruthy sig.file_origin)
    (hs : ∀ kv ∈ sig.annots, ann_scalar kv.2)
    (hkeys : ∀ kv ∈ sig.annots, kv.1 ∉ reserved_keys "signal")
    (hsu : sig.sampling_period.unit = "s") (htu : sig.t_start.unit = "s")
    (hK : 0 < sig.channels.length) :
    ∃ st' blk' grp' om', write_analogsignal st blk grp om sig
        = some (st', blk', grp', om') ∧
      ∃ ra, read_signal st' blk' grp' (sig.name.getD "")
          = Except.ok (.asig ra) ∧
        ra.name = sig.name.getD "" ∧
        ra.description = sig.description ∧
        ra.unit = sig.unit ∧
        ra.sampling_period = sig.sampling_period ∧
        ra.t_start = sig.t_start ∧
        ra.file_origin = sig.file_origin ∧
        ra.annots = sig.annots ∧
        ra.channels.Perm sig.channels ∧
        ra.channels = (sort_by_name (sig_das (sig.name.getD "")
          "neo.analogsignal" sig.description (get_units sig.unit false)
          (.sampled sig.sampling_period.mag (some "s") (some "time")
            sig.t_start.mag) st.length 0 sig.channels)).map
          (fun da => da.data.as1) := by
  obtain ⟨fos, hfos⟩ : ∃ s, sig.file_origin = some s := by
    cases hc : sig.file_origin with
    | none => rw [hc] at hfo; exact absurd hfo (by simp [strTruthy])
    | some s => exact ⟨s, rfl⟩
  obtain ⟨c0, cs, hcc⟩ : ∃ c0 cs, sig.channels = c0 :: cs := by
    cases hc : sig.channels with
    | nil => rw [hc] at hK; simp at hK
    | cons a b => exact ⟨a, b, rfl⟩
  have hattrfo : (neo_attr_to_nix sig.name "AnalogSignal" sig.description
      none none sig.file_origin sig.annots
      (blk.dataArrays.map (fun d => d.name))).file_origin = some fos := by
    show (if strTruthy sig.file_origin then sig.file_origin else none) = some fos
    rw [if_pos hfo]
    exact hfos
  have hmed : (neo_attr_to_nix sig.name "AnalogSignal" sig.description
      none none sig.file_origin sig.annots
      (blk.dataArrays.map (fun d => d.name))).name = sig.name.getD "" := by
    show mediate_name sig.name "AnalogSignal"
      (blk.dataArrays.map (fun d => d.name)) = sig.name.getD ""
    simp only [mediate_name, hfb, List.map_nil]
    rw [if_neg (List.not_mem_nil _)]
    unfold nix_basename
    rw [if_pos hn]
  have hw : ∃ r, write_analogsignal st blk grp om sig = some r := by
    unfold write_analogsignal
    dsimp only
    simp only [Option.bind_eq_bind]
    rw [hsu]
    exact ⟨_, rfl⟩
  obtain ⟨r, h⟩ := hw
  obtain ⟨st', blk', grp', om'⟩ := r
  have horig := h
  unfold write_analogsignal at h
  dsimp only at h
  simp only [Option.bind_eq_bind] at h
  rw [Option.bind_eq_some] at h
  obtain ⟨tuStr, htuS, h⟩ := h
  rw [hsu] at htuS
  have htueq : "s" = tuStr := Option.some.inj htuS
  subst htueq
  rw [hpm] at h
  dsimp only [get_or_init_metadata] at h
  rw [hattrfo] at h
  rw [rescale_self sig.sampling_period "s" hsu,
    rescale_self sig.t_start "s" htu] at h
  simp only [create_section] at h
  first
  | dsimp only at h
  | skip
  have h4 := Option.some.inj h
  have hst := (congrArg (fun p => p.1) h4).symm
  have hblk := (congrArg (fun p => p.2.1) h4).symm
  have hgrp := (congrArg (fun p => p.2.2.1) h4).symm
  dsimp only at hst hblk hgrp
  rw [write_sig_arrays_eq] at hblk hgrp
  dsimp only at hblk hgrp
  have hba : blk'.dataArrays = sig_das
      (neo_attr_to_nix sig.name "AnalogSignal" sig.description none none
        sig.file_origin sig.annots (blk.dataArrays.map (fun d => d.name))).name
      ("neo." ++ str_lower "AnalogSignal")
      sig.description (get_units sig.unit false)
      (.sampled sig.sampling_period.mag (some "s") (some "time")
        sig.t_start.mag)
      st.length 0 sig.channels := by
    rw [hblk]
    show blk.dataArrays ++ _ = _
    rw [hfb]
    exact List.nil_append _
  have hgi : grp'.dataArrayIds = List.range' 0 sig.channels.length := by
    rw [hgrp]
    show grp.dataArrayIds ++ _ = _
    rw [hfg, hfb]
    exact List.nil_append _
  have hty : ("neo." ++ str_lower "AnalogSignal") = "neo.analogsignal" := rfl
  rw [hty] at hba
  have hsecg : sec_get st' st.length = some
      ⟨(neo_attr_to_nix sig.name "AnalogSignal" sig.description none none
          sig.file_origin sig.annots
          (blk.dataArrays.map (fun d => d.name))).name,
        (neo_attr_to_nix sig.name "AnalogSignal" sig.description none none
          sig.file_origin sig.annots
          (blk.dataArrays.map (fun d => d.name))).ntype ++ ".metadata",
        ⟨"file_origin", [.str fos]⟩ :: ann_props sig.annots⟩ := by
    rw [hst]
    by_cases hae : sig.annots.isEmpty
    · rw [if_pos hae]
      rw [sec_get_create_property_self, sec_get_append_self]
      have hnil : sig.annots = [] := by rwa [List.isEmpty_iff] at hae
      rw [hnil]
      rfl
    · rw [if_neg hae]
      obtain ⟨hl, ho, hg⟩ := add_annotations_scalars_get sig.annots
        (create_property (st ++
          [⟨(neo_attr_to_nix sig.name "AnalogSignal" sig.description none none
              sig.file_origin sig.annots
              (blk.dataArrays.map (fun d => d.name))).name,
            (neo_attr_to_nix sig.name "AnalogSignal" sig.description none none
              sig.file_origin sig.annots
              (blk.dataArrays.map (fun d => d.name))).ntype ++ ".metadata",
            []⟩]) st.length "file_origin" [.str fos]) st.length hs
      rw [hg, sec_get_create_property_self, sec_get_append_self]
      rfl
  rw [hcc] at hba hgi
  obtain ⟨ra, hra, hname, hdesc, hunit, hsp, hts, hfoe, hann, hpermc, hchex⟩ :=
    read_signal_fresh_exact st'
      (neo_attr_to_nix sig.name "AnalogSignal" sig.description none none
        sig.file_origin sig.annots (blk.dataArrays.map (fun d => d.name))).name
      sig.description (get_units sig.unit false)
      sig.sampling_period.mag sig.t_start.mag "s" st.length c0 cs blk' grp'
      ⟨(neo_attr_to_nix sig.name "AnalogSignal" sig.description none none
          sig.file_origin sig.annots
          (blk.dataArrays.map (fun d => d.name))).name,
        (neo_attr_to_nix sig.name "AnalogSignal" sig.description none none
          sig.file_origin sig.annots
          (blk.dataArrays.map (fun d => d.name))).ntype ++ ".metadata",
        ⟨"file_origin", [.str fos]⟩ :: ann_props sig.annots⟩ hba hgi hsecg
  have hdec : read_props st' (some st.length) =
      ("file_origin", PyVal.scalar (.str fos)) :: sig.annots := by
    rw [read_props_of_sec _ _ _ hsecg]
    exact fo_ann_props_decode fos sig.annots hs
  rw [hmed] at hra
  refine ⟨st', blk', grp', om', horig, ra, hra, hname.trans hmed, hdesc, ?_, ?_,
    ?_, ?_, ?_, ?_, ?_⟩
  · exact hunit.trans (get_units_false_getD sig.unit)
  · exact hsp.trans (by rw [← hsu])
  · exact hts.trans (by rw [← htu])
  · rw [hdec] at hfoe
    rw [find_prop_cons_self] at hfoe
    rw [hfos]
    exact hfoe
  · rw [hdec] at hann
    have hsa : split_annots
        (("file_origin", PyVal.scalar (.str fos)) :: sig.annots) "signal"
        = sig.annots := by
      unfold split_annots
      simp only [List.filter_cons]
      rw [if_neg (by decide)]
      apply List.filter_eq_self.mpr
      intro kv hkv
      have hnk := hkeys kv hkv
      have hcf : (reserved_keys "signal").contains kv.1 = false := by
        cases hc : (reserved_keys "signal").contains kv.1
        · rfl
        · exact absurd ((Neo2nix.contains_mem_str _ _).mp hc) hnk
      rw [hcf]
      rfl
    exact hann.trans hsa
  · rw [hcc]
    exact hpermc
  · rw [hchex, hmed, ← hcc]

end Neonix
namespace Neonix

def c1Blk : NeoBlock :=
  { name := some "b", description := some "d", rec_datetime := some ⟨5, 0⟩
    file_datetime := some ⟨7, 0⟩, file_origin := some "f", annots := []
    segments := [], rcgs := [] }

def c1Seg : NeoSegment :=
  { name := some "sg", description := none, rec_datetime := some ⟨5, 0⟩
    file_datetime := some ⟨7, 0⟩, file_origin := some "f", annots := []
    analogsignals := [], irregularlysampledsignals := [], epochs := []
    events := [], spiketrains := [] }

def c1HostBlk : NBlock :=
  { name := "hb", ntype := "neo.block", definition := none, created_at := 0
    metadata := none, dataArrays := [], groups := [], multiTags := []
    sources := [] }

def c1Grp : NGroup :=
  { name := "hg", ntype := "neo.segment", definition := none, created_at := 0
    metadata := some 0, dataArrayIds := [], multiTagIds := [] }

def c1Sig : NeoAnalogSignal :=
  { eid := 9, name := some "sig", description := some "sd"
    file_origin := some "f", annots := [], channels := [[1, 2], [3, 4]]
    unit := "mV", sampling_period := ⟨1, "s"⟩, t_start := ⟨0, "s"⟩ }

/-- A Block whose `rec_datetime` carries a sub-second component. -/
def c1BadBlk : NeoBlock :=
  { name := some "b", description := none, rec_datetime := some ⟨5, 1⟩
    file_datetime := none, file_origin := none, annots := []
    segments := [], rcgs := [] }

end Neonix
namespace Neonix

/-- Decoded property pairs of an `attr_meta_props` section without a file
datetime (the non-Block/Segment kinds never pass one). -/
theorem attr_meta_props_decode_nofd (attr : NixAttr) (fo : String)
    (hfd : attr.file_datetime = none) (hfo : attr.file_origin = some fo)
    (hs : ∀ kv ∈ attr.annots, ann_scalar kv.2) :
    (attr_meta_props attr).map
        (fun p => (p.pname, decode_prop_values p.values)) =
      ("file_origin", .scalar (.str fo)) :: attr.annots := by
  unfold attr_meta_props
  rw [hfd, hfo]
  simp only [fdt_props, fo_props, List.map_append, List.map_cons,
    List.map_nil, List.nil_append, List.singleton_append]
  rw [ann_props_decode attr.annots hs]
  rfl

theorem find_prop_append_right (l₁ l₂ : List (String × PyVal)) (k : String)
    (h : ∀ kv ∈ l₁, (kv.1 == k) = false) :
    find_prop (l₁ ++ l₂) k = find_prop l₂ k := by
  unfold find_prop
  rw [List.find?_append]
  rw [List.find?_eq_none.mpr (fun kv hkv => by
    rw [h kv hkv]
    exact Bool.false_ne_true)]
  rfl

theorem get_units_false_some (u : String) (h : u ≠ "dimensionless") :
    get_units u false = some u := by
  show (if u = "dimensionless" then none else some u) = some u
  rw [if_neg h]

/-- Two lists that are permutations of each other, agree under a map, and
whose mapped values are distinct on the second list, are equal. -/
theorem eq_of_map_eq_of_perm {α β : Type} (f : α → β) :
    ∀ (l₂ l₁ : List α), l₁.Perm l₂ →
      (∀ x ∈ l₂, ∀ y ∈ l₂, f x = f y → x = y) →
      l₁.map f = l₂.map f → l₁ = l₂ := by
  intro l₂
  induction l₂ with
  | nil =>
      intro l₁ hp _ _
      exact List.Perm.eq_nil hp
  | cons b t ih =>
      intro l₁ hp hinj hm
      cases l₁ with
      | nil => exact absurd hp.symm (by simp)
      | cons a t₁ =>
          simp only [List.map_cons, List.cons.injEq] at hm
          have hab : a = b := by
            apply hinj a ?_ b (List.mem_cons_self b t) hm.1
            exact hp.mem_iff.mp (List.mem_cons_self a t₁)
          subst hab
          have ht := ih t₁ (hp.cons_inv)
            (fun x hx y hy => hinj x (List.mem_cons_of_mem a hx)
              y (List.mem_cons_of_mem a hy)) hm.2
          rw [ht]

theorem insert_by_name_sorted (da : NDataArray) (l : List NDataArray)
    (h : l.Sorted (fun a b : NDataArray => a.name ≤ b.name)) :
    (insert_by_name da l).Sorted (fun a b : NDataArray => a.name ≤ b.name) := by
  induction l with
  | nil => simp [insert_by_name]
  | cons x xs ih =>
      rw [insert_by_name]
      rw [List.sorted_cons] at h
      split
      · rw [List.sorted_cons]
        refine ⟨?_, List.sorted_cons.mpr h⟩
        intro b hb
        rcases List.mem_cons.mp hb with rfl | hb
        · assumption
        · exact le_trans (by assumption) (h.1 b hb)
      · rw [List.sorted_cons]
        refine ⟨?_, ih h.2⟩
        intro b hb
        have hbm := (insert_by_name_perm da xs).mem_iff.mp hb
        rcases List.mem_cons.mp hbm with rfl | hbm
        · exact le_of_not_le (by assumption)
        · exact h.1 b hbm

theorem sort_by_name_sorted (l : List NDataArray) :
    (sort_by_name l).Sorted (fun a b : NDataArray => a.name ≤ b.name) := by
  induction l with
  | nil => simp [sort_by_name]
  | cons x xs ih => exact insert_by_name_sorted x (sort_by_name xs) ih

theorem natDecimal_lit_0 : natDecimal 0 = "0" := by simp [natDecimal]
theorem natDecimal_lit_1 : natDecimal 1 = "1" := by simp [natDecimal]; rfl
theorem natDecimal_lit_2 : natDecimal 2 = "2" := by simp [natDecimal]; rfl
theorem natDecimal_lit_3 : natDecimal 3 = "3" := by simp [natDecimal]; rfl
theorem natDecimal_lit_4 : natDecimal 4 = "4" := by simp [natDecimal]; rfl
theorem natDecimal_lit_5 : natDecimal 5 = "5" := by simp [natDecimal]; rfl
theorem natDecimal_lit_6 : natDecimal 6 = "6" := by simp [natDecimal]; rfl
theorem natDecimal_lit_7 : natDecimal 7 = "7" := by simp [natDecimal]; rfl
theorem natDecimal_lit_8 : natDecimal 8 = "8" := by simp [natDecimal]; rfl
theorem natDecimal_lit_9 : natDecimal 9 = "9" := by simp [natDecimal]; rfl
theorem natDecimal_lit_10 : natDecimal 10 = "10" := by simp [natDecimal]; rfl

end Neonix
namespace Neonix

/-- Round trip of a Unit with no spike trains through `write_unit` and
`_source_unit_to_neo`. -/
theorem unit_round_trip (st : SecStore) (blk : NBlock) (om : ObjMap)
    (parentSrc : NSource) (ut : NeoUnit)
    (hps : parentSrc.sources = [])
    (hn : strTruthy ut.name) (hfo : strTruthy ut.file_origin)
    (hs : ∀ kv ∈ ut.annots, ann_scalar kv.2)
    (hkeys : ∀ kv ∈ ut.annots, kv.1 ∉ reserved_keys "unit")
    (hst : ut.spiketrain_eids = []) :
    ∃ st' usrc, write_unit st blk om parentSrc ut
        = some (st', blk, parentSrc.addChild usrc) ∧
      source_unit_to_neo st' usrc =
        { name := ut.name.getD "", description := ut.description
          file_origin := ut.file_origin, annots := ut.annots } := by
  obtain ⟨fos, hfos⟩ : ∃ s, ut.file_origin = some s := by
    cases hc : ut.file_origin with
    | none => rw [hc] at hfo; exact absurd hfo (by simp [strTruthy])
    | some s => exact ⟨s, rfl⟩
  have hattrfd : (neo_attr_to_nix ut.name "Unit" ut.description none none
      ut.file_origin ut.annots
      (parentSrc.sources.map NSource.name)).file_datetime = none := rfl
  have hattrfo : (neo_attr_to_nix ut.name "Unit" ut.description none none
      ut.file_origin ut.annots
      (parentSrc.sources.map NSource.name)).file_origin = some fos := by
    show (if strTruthy ut.file_origin then ut.file_origin else none) = some fos
    rw [if_pos hfo]
    exact hfos
  have hmed : (neo_attr_to_nix ut.name "Unit" ut.description none none
      ut.file_origin ut.annots
      (parentSrc.sources.map NSource.name)).name = ut.name.getD "" := by
    show mediate_name ut.name "Unit" (parentSrc.sources.map NSource.name)
      = ut.name.getD ""
    simp only [mediate_name, hps, List.map_nil]
    rw [if_neg (List.not_mem_nil _)]
    unfold nix_basename
    rw [if_pos hn]
  have hne : (neo_attr_to_nix ut.name "Unit" ut.description none none
      ut.file_origin ut.annots
      (parentSrc.sources.map NSource.name)).file_datetime ≠ none ∨
      (neo_attr_to_nix ut.name "Unit" ut.description none none
      ut.file_origin ut.annots
      (parentSrc.sources.map NSource.name)).file_origin ≠ none ∨
      (neo_attr_to_nix ut.name "Unit" ut.description none none
      ut.file_origin ut.annots
      (parentSrc.sources.map NSource.name)).annots ≠ [] := by
    right
    left
    rw [hattrfo]
    simp
  obtain ⟨st₁, hwa, hlen₁, hoth₁, hsec₁⟩ := write_attr_meta_none_exact st
    (neo_attr_to_nix ut.name "Unit" ut.description none none
      ut.file_origin ut.annots (parentSrc.sources.map NSource.name)).name
    (neo_attr_to_nix ut.name "Unit" ut.description none none
      ut.file_origin ut.annots (parentSrc.sources.map NSource.name)).ntype
    (neo_attr_to_nix ut.name "Unit" ut.description none none
      ut.file_origin ut.annots (parentSrc.sources.map NSource.name)) hne hs
  have hm2 : (write_attr_meta st
      (neo_attr_to_nix ut.name "Unit" ut.description none none
        ut.file_origin ut.annots (parentSrc.sources.map NSource.name)).name
      (neo_attr_to_nix ut.name "Unit" ut.description none none
        ut.file_origin ut.annots (parentSrc.sources.map NSource.name)).ntype
      none
      (neo_attr_to_nix ut.name "Unit" ut.description none none
        ut.file_origin ut.annots
        (parentSrc.sources.map NSource.name))).2 = some st.length := by
    rw [hwa]
  have hst1 : (write_attr_meta st
      (neo_attr_to_nix ut.name "Unit" ut.description none none
        ut.file_origin ut.annots (parentSrc.sources.map NSource.name)).name
      (neo_attr_to_nix ut.name "Unit" ut.description none none
        ut.file_origin ut.annots (parentSrc.sources.map NSource.name)).ntype
      none
      (neo_attr_to_nix ut.name "Unit" ut.description none none
        ut.file_origin ut.annots
        (parentSrc.sources.map NSource.name))).1 = st₁ := by
    rw [hwa]
  have hwu : ∃ usrc, write_unit st blk om parentSrc ut
      = some (st₁, blk, parentSrc.addChild usrc) ∧
      usrc.name = (neo_attr_to_nix ut.name "Unit" ut.description none none
        ut.file_origin ut.annots (parentSrc.sources.map NSource.name)).name ∧
      usrc.definition = ut.description ∧
      usrc.metadata = some st.length := by
    unfold write_unit
    rw [hst]
    dsimp only [add_st_refs]
    simp only [Option.bind_eq_bind, Option.some_bind]
    rw [hst1]
    exact ⟨_, rfl, rfl, rfl, hm2⟩
  obtain ⟨usrc, hwe, hname, hdef, hmeta⟩ := hwu
  refine ⟨st₁, usrc, hwe, ?_⟩
  unfold source_unit_to_neo
  dsimp only
  rw [hmeta]
  rw [read_props_of_sec _ _ _ hsec₁]
  dsimp only
  rw [attr_meta_props_decode_nofd _ fos hattrfd hattrfo hs]
  rw [RUnit.mk.injEq]
  refine ⟨hname.trans hmed, hdef, ?_, ?_⟩
  · rw [find_prop_cons_self]
    show some fos = ut.file_origin
    exact hfos.symm
  · show split_annots _ "unit" = ut.annots
    unfold split_annots
    simp only [List.filter_cons]
    rw [if_neg (by decide)]
    apply List.filter_eq_self.mpr
    intro kv hkv
    have hnk := hkeys kv hkv
    have hcf : (reserved_keys "unit").contains kv.1 = false := by
      cases hc : (reserved_keys "unit").contains kv.1
      · rfl
      · exact absurd ((Neo2nix.contains_mem_str _ _).mp hc) hnk
    rw [hcf]
    rfl

end Neonix
namespace Neonix

/-- Round trip of an Epoch written into a fresh block through
`write_epoch` and `_mtag_eest_to_neo`. -/
theorem epoch_round_trip (st : SecStore) (blk : NBlock) (grp : NGroup)
    (ep : NeoEpoch)
    (hdas : blk.dataArrays = []) (hmts : blk.multiTags = [])
    (hn : strTruthy ep.name) (hfo : strTruthy ep.file_origin)
    (hs : ∀ kv ∈ ep.annots, ann_scalar kv.2)
    (hkeys : ∀ kv ∈ ep.annots, kv.1 ∉ reserved_keys "epoch") :
    ∃ st' blk' grp' mtag, write_epoch st blk grp ep = some (st', blk', grp') ∧
      blk'.multiTags = [mtag] ∧
      mtag_eest_to_neo st' blk' mtag = Except.ok (.ep
        { name := ep.name.getD "", description := ep.description
          file_origin := ep.file_origin, annots := ep.annots
          times := ep.times, times_unit := ep.times_unit
          durations := ep.durations, durations_unit := ep.durations_unit
          labels := ep.labels }) := by
  obtain ⟨fos, hfos⟩ : ∃ s, ep.file_origin = some s := by
    cases hc : ep.file_origin with
    | none => rw [hc] at hfo; exact absurd hfo (by simp [strTruthy])
    | some s => exact ⟨s, rfl⟩
  have hattrfd : (neo_attr_to_nix ep.name "Epoch" ep.description none none
      ep.file_origin ep.annots
      (([] : List NMultiTag).map (fun x => x.name))).file_datetime = none := rfl
  have hattrfo : (neo_attr_to_nix ep.name "Epoch" ep.description none none
      ep.file_origin ep.annots
      (([] : List NMultiTag).map (fun x => x.name))).file_origin = some fos := by
    show (if strTruthy ep.file_origin then ep.file_origin else none) = some fos
    rw [if_pos hfo]
    exact hfos
  have hmed : (neo_attr_to_nix ep.name "Epoch" ep.description none none
      ep.file_origin ep.annots
      (([] : List NMultiTag).map (fun x => x.name))).name = ep.name.getD "" := by
    show mediate_name ep.name "Epoch" (([] : List NMultiTag).map (fun x => x.name))
      = ep.name.getD ""
    simp only [mediate_name, List.map_nil]
    rw [if_neg (List.not_mem_nil _)]
    unfold nix_basename
    rw [if_pos hn]
  have hne : (neo_attr_to_nix ep.name "Epoch" ep.description none none
      ep.file_origin ep.annots
      (([] : List NMultiTag).map (fun x => x.name))).file_datetime ≠ none ∨
      (neo_attr_to_nix ep.name "Epoch" ep.description none none
      ep.file_origin ep.annots
      (([] : List NMultiTag).map (fun x => x.name))).file_origin ≠ none ∨
      (neo_attr_to_nix ep.name "Epoch" ep.description none none
      ep.file_origin ep.annots
      (([] : List NMultiTag).map (fun x => x.name))).annots ≠ [] := by
    right
    left
    rw [hattrfo]
    simp
  obtain ⟨st₁, hwa, hlen₁, hoth₁, hsec₁⟩ := write_attr_meta_none_exact st
    (neo_attr_to_nix ep.name "Epoch" ep.description none none
      ep.file_origin ep.annots (([] : List NMultiTag).map (fun x => x.name))).name
    (neo_attr_to_nix ep.name "Epoch" ep.description none none
      ep.file_origin ep.annots (([] : List NMultiTag).map (fun x => x.name))).ntype
    (neo_attr_to_nix ep.name "Epoch" ep.description none none
      ep.file_origin ep.annots (([] : List NMultiTag).map (fun x => x.name))) hne hs
  have hm2 : (write_attr_meta st
      (neo_attr_to_nix ep.name "Epoch" ep.description none none
        ep.file_origin ep.annots (([] : List NMultiTag).map (fun x => x.name))).name
      (neo_attr_to_nix ep.name "Epoch" ep.description none none
        ep.file_origin ep.annots (([] : List NMultiTag).map (fun x => x.name))).ntype
      none
      (neo_attr_to_nix ep.name "Epoch" ep.description none none
        ep.file_origin ep.annots
        (([] : List NMultiTag).map (fun x => x.name)))).2 = some st.length := by
    rw [hwa]
  have hst1 : (write_attr_meta st
      (neo_attr_to_nix ep.name "Epoch" ep.description none none
        ep.file_origin ep.annots (([] : List NMultiTag).map (fun x => x.name))).name
      (neo_attr_to_nix ep.name "Epoch" ep.description none none
        ep.file_origin ep.annots (([] : List NMultiTag).map (fun x => x.name))).ntype
      none
      (neo_attr_to_nix ep.name "Epoch" ep.description none none
        ep.file_origin ep.annots
        (([] : List NMultiTag).map (fun x => x.name)))).1 = st₁ := by
    rw [hwa]
  have hwe : ∃ blk' grp' mtag,
      write_epoch st blk grp ep = some (st₁, blk', grp') ∧
      blk'.multiTags = [mtag] ∧
      mtag.name = (neo_attr_to_nix ep.name "Epoch" ep.description none none
        ep.file_origin ep.annots (([] : List NMultiTag).map (fun x => x.name))).name ∧
      mtag.definition = ep.description ∧
      mtag.ntype = (neo_attr_to_nix ep.name "Epoch" ep.description none none
        ep.file_origin ep.annots (([] : List NMultiTag).map (fun x => x.name))).ntype ∧
      mtag.positionsId = 0 ∧
      mtag.extentsId = some 1 ∧
      mtag.metadata = some st.length ∧
      blk'.dataArrays =
        [{ name := (neo_attr_to_nix ep.name "Epoch" ep.description none none
              ep.file_origin ep.annots
              (([] : List NMultiTag).map (fun x => x.name))).name ++ ".times"
           ntype := (neo_attr_to_nix ep.name "Epoch" ep.description none none
              ep.file_origin ep.annots
              (([] : List NMultiTag).map (fun x => x.name))).ntype ++ ".times"
           definition := none, unit := get_units ep.times_unit false
           data := .d1 ep.times, dims := [.setd ep.labels]
           metadata := none, sourceNames := [] },
         { name := (neo_attr_to_nix ep.name "Epoch" ep.description none none
              ep.file_origin ep.annots
              (([] : List NMultiTag).map (fun x => x.name))).name ++ ".durations"
           ntype := (neo_attr_to_nix ep.name "Epoch" ep.description none none
              ep.file_origin ep.annots
              (([] : List NMultiTag).map (fun x => x.name))).ntype ++ ".durations"
           definition := none, unit := get_units ep.durations_unit false
           data := .d1 ep.durations, dims := []
           metadata := none, sourceNames := [] }] := by
    unfold write_epoch
    rw [hdas, hmts]
    dsimp only
    rw [hst1]
    exact ⟨_, _, _, rfl, rfl, rfl, rfl, rfl, rfl, rfl, hm2, rfl⟩
  obtain ⟨blk', grp', mtag, hweq, hmt, hname, hdef, hnty, hpos, hext, hmeta,
    hdas'⟩ := hwe
  refine ⟨st₁, blk', grp', mtag, hweq, hmt, ?_⟩
  unfold mtag_eest_to_neo
  dsimp only
  rw [hmeta]
  rw [read_props_of_sec _ _ _ hsec₁]
  dsimp only
  rw [attr_meta_props_decode_nofd _ fos hattrfd hattrfo hs]
  rw [hpos, hdas']
  rw [List.getElem?_cons_zero]
  dsimp only [Bind.bind, Except.bind]
  rw [hnty]
  have htyx : (neo_attr_to_nix ep.name "Epoch" ep.description none none
      ep.file_origin ep.annots
      (([] : List NMultiTag).map (fun x => x.name))).ntype = "neo.epoch" := rfl
  rw [if_pos htyx]
  rw [hext]
  rw [Option.some_bind']
  rw [List.getElem?_cons_succ, List.getElem?_cons_zero]
  dsimp only [Bind.bind, Except.bind]
  rw [List.getElem?_cons_zero]
  dsimp only
  rw [Except.ok.injEq, REest.ep.injEq, REpoch.mk.injEq]
  refine ⟨hname.trans hmed, hdef, ?_, ?_, rfl,
    get_units_false_getD ep.times_unit, rfl,
    get_units_false_getD ep.durations_unit, rfl⟩
  · rw [find_prop_cons_self]
    show some fos = ep.file_origin
    exact hfos.symm
  · show split_annots _ "epoch" = ep.annots
    unfold split_annots
    simp only [List.filter_cons]
    rw [if_neg (by decide)]
    apply List.filter_eq_self.mpr
    intro kv hkv
    have hnk := hkeys kv hkv
    have hcf : (reserved_keys "epoch").contains kv.1 = false := by
      cases hc : (reserved_keys "epoch").contains kv.1
      · rfl
      · exact absurd ((Neo2nix.contains_mem_str _ _).mp hc) hnk
    rw [hcf]
    rfl

end Neonix
namespace Neonix

/-- Round trip of an Event written into a fresh block through
`write_event` and `_mtag_eest_to_neo`. -/
theorem event_round_trip (st : SecStore) (blk : NBlock) (grp : NGroup)
    (ev : NeoEvent)
    (hdas : blk.dataArrays = []) (hmts : blk.multiTags = [])
    (hn : strTruthy ev.name) (hfo : strTruthy ev.file_origin)
    (hs : ∀ kv ∈ ev.annots, ann_scalar kv.2)
    (hkeys : ∀ kv ∈ ev.annots, kv.1 ∉ reserved_keys "event") :
    ∃ st' blk' grp' mtag, write_event st blk grp ev = some (st', blk', grp') ∧
      blk'.multiTags = [mtag] ∧
      mtag_eest_to_neo st' blk' mtag = Except.ok (.ev
        { name := ev.name.getD "", description := ev.description
          file_origin := ev.file_origin, annots := ev.annots
          times := ev.times, times_unit := ev.times_unit
          labels := ev.labels }) := by
  obtain ⟨fos, hfos⟩ : ∃ s, ev.file_origin = some s := by
    cases hc : ev.file_origin with
    | none => rw [hc] at hfo; exact absurd hfo (by simp [strTruthy])
    | some s => exact ⟨s, rfl⟩
  have hattrfd : (neo_attr_to_nix ev.name "Event" ev.description none none
      ev.file_origin ev.annots
      (([] : List NMultiTag).map (fun x => x.name))).file_datetime = none := rfl
  have hattrfo : (neo_attr_to_nix ev.name "Event" ev.description none none
      ev.file_origin ev.annots
      (([] : List NMultiTag).map (fun x => x.name))).file_origin = some fos := by
    show (if strTruthy ev.file_origin then ev.file_origin else none) = some fos
    rw [if_pos hfo]
    exact hfos
  have hmed : (neo_attr_to_nix ev.name "Event" ev.description none none
      ev.file_origin ev.annots
      (([] : List NMultiTag).map (fun x => x.name))).name = ev.name.getD "" := by
    show mediate_name ev.name "Event" (([] : List NMultiTag).map (fun x => x.name))
      = ev.name.getD ""
    simp only [mediate_name, List.map_nil]
    rw [if_neg (List.not_mem_nil _)]
    unfold nix_basename
    rw [if_pos hn]
  have hne : (neo_attr_to_nix ev.name "Event" ev.description none none
      ev.file_origin ev.annots
      (([] : List NMultiTag).map (fun x => x.name))).file_datetime ≠ none ∨
      (neo_attr_to_nix ev.name "Event" ev.description none none
      ev.file_origin ev.annots
      (([] : List NMultiTag).map (fun x => x.name))).file_origin ≠ none ∨
      (neo_attr_to_nix ev.name "Event" ev.description none none
      ev.file_origin ev.annots
      (([] : List NMultiTag).map (fun x => x.name))).annots ≠ [] := by
    right
    left
    rw [hattrfo]
    simp
  obtain ⟨st₁, hwa, hlen₁, hoth₁, hsec₁⟩ := write_attr_meta_none_exact st
    (neo_attr_to_nix ev.name "Event" ev.description none none
      ev.file_origin ev.annots (([] : List NMultiTag).map (fun x => x.name))).name
    (neo_attr_to_nix ev.name "Event" ev.description none none
      ev.file_origin ev.annots (([] : List NMultiTag).map (fun x => x.name))).ntype
    (neo_attr_to_nix ev.name "Event" ev.description none none
      ev.file_origin ev.annots (([] : List NMultiTag).map (fun x => x.name))) hne hs
  have hm2 : (write_attr_meta st
      (neo_attr_to_nix ev.name "Event" ev.description none none
        ev.file_origin ev.annots (([] : List NMultiTag).map (fun x => x.name))).name
      (neo_attr_to_nix ev.name "Event" ev.description none none
        ev.file_origin ev.annots (([] : List NMultiTag).map (fun x => x.name))).ntype
      none
      (neo_attr_to_nix ev.name "Event" ev.description none none
        ev.file_origin ev.annots
        (([] : List NMultiTag).map (fun x => x.name)))).2 = some st.length := by
    rw [hwa]
  have hst1 : (write_attr_meta st
      (neo_attr_to_nix ev.name "Event" ev.description none none
        ev.file_origin ev.annots (([] : List NMultiTag).map (fun x => x.name))).name
      (neo_attr_to_nix ev.name "Event" ev.description none none
        ev.file_origin ev.annots (([] : List NMultiTag).map (fun x => x.name))).ntype
      none
      (neo_attr_to_nix ev.name "Event" ev.description none none
        ev.file_origin ev.annots
        (([] : List NMultiTag).map (fun x => x.name)))).1 = st₁ := by
    rw [hwa]
  have hwe : ∃ blk' grp' mtag,
      write_event st blk grp ev = some (st₁, blk', grp') ∧
      blk'.multiTags = [mtag] ∧
      mtag.name = (neo_attr_to_nix ev.name "Event" ev.description none none
        ev.file_origin ev.annots (([] : List NMultiTag).map (fun x => x.name))).name ∧
      mtag.definition = ev.description ∧
      mtag.ntype = (neo_attr_to_nix ev.name "Event" ev.description none none
        ev.file_origin ev.annots (([] : List NMultiTag).map (fun x => x.name))).ntype ∧
      mtag.positionsId = 0 ∧
      mtag.metadata = some st.length ∧
      blk'.dataArrays =
        [{ name := (neo_attr_to_nix ev.name "Event" ev.description none none
              ev.file_origin ev.annots
              (([] : List NMultiTag).map (fun x => x.name))).name ++ ".times"
           ntype := (neo_attr_to_nix ev.name "Event" ev.description none none
              ev.file_origin ev.annots
              (([] : List NMultiTag).map (fun x => x.name))).ntype ++ ".times"
           definition := none, unit := get_units ev.times_unit false
           data := .d1 ev.times, dims := [.setd ev.labels]
           metadata := none, sourceNames := [] }] := by
    unfold write_event
    rw [hdas, hmts]
    dsimp only
    rw [hst1]
    exact ⟨_, _, _, rfl, rfl, rfl, rfl, rfl, rfl, hm2, rfl⟩
  obtain ⟨blk', grp', mtag, hweq, hmt, hname, hdef, hnty, hpos, hmeta,
    hdas'⟩ := hwe
  refine ⟨st₁, blk', grp', mtag, hweq, hmt, ?_⟩
  unfold mtag_eest_to_neo
  dsimp only
  rw [hmeta]
  rw [read_props_of_sec _ _ _ hsec₁]
  dsimp only
  rw [attr_meta_props_decode_nofd _ fos hattrfd hattrfo hs]
  rw [hpos, hdas']
  rw [List.getElem?_cons_zero]
  dsimp only [Bind.bind, Except.bind]
  have htyx : (neo_attr_to_nix ev.name "Event" ev.description none none
      ev.file_origin ev.annots
      (([] : List NMultiTag).map (fun x => x.name))).ntype = "neo.event" := rfl
  rw [hnty, htyx]
  rw [if_neg (by decide : ¬ (("neo.event" : String) = "neo.epoch"))]
  have htyE : ("neo.event" : String) = "neo.event" := rfl
  rw [if_pos htyE]
  rw [List.getElem?_cons_zero]
  dsimp only
  rw [Except.ok.injEq, REest.ev.injEq, REvent.mk.injEq]
  refine ⟨hname.trans hmed, hdef, ?_, ?_, rfl,
    get_units_false_getD ev.times_unit, rfl⟩
  · rw [find_prop_cons_self]
    show some fos = ev.file_origin
    exact hfos.symm
  · show split_annots _ "event" = ev.annots
    unfold split_annots
    simp only [List.filter_cons]
    rw [if_neg (by decide)]
    apply List.filter_eq_self.mpr
    intro kv hkv
    have hnk := hkeys kv hkv
    have hcf : (reserved_keys "event").contains kv.1 = false := by
      cases hc : (reserved_keys "event").contains kv.1
      · rfl
      · exact absurd ((Neo2nix.contains_mem_str _ _).mp hc) hnk
    rw [hcf]
    rfl

end Neonix
namespace Neonix

/-- Round trip of a waveform-less SpikeTrain written into a fresh block
through `write_spiketrain` and `_mtag_eest_to_neo`: `t_start` comes back
because its magnitude is non-zero (the truthiness guard of C10), `t_stop`
always. -/
theorem spiketrain_round_trip (st : SecStore) (blk : NBlock) (grp : NGroup)
    (om : ObjMap) (sptr : NeoSpikeTrain)
    (hdas : blk.dataArrays = []) (hmts : blk.multiTags = [])
    (hn : strTruthy sptr.name) (hfo : strTruthy sptr.file_origin)
    (hs : ∀ kv ∈ sptr.annots, ann_scalar kv.2)
    (hkeys : ∀ kv ∈ sptr.annots, kv.1 ∉ reserved_keys "spiketrain")
    (htu_ne : sptr.times_unit ≠ "dimensionless")
    (hts : sptr.t_start.unit = sptr.times_unit)
    (htp : sptr.t_stop.unit = sptr.times_unit)
    (hm0 : sptr.t_start.mag ≠ 0)
    (hwf : sptr.waveforms = none) :
    ∃ st' blk' grp' om' mtag,
      write_spiketrain st blk grp om sptr = some (st', blk', grp', om') ∧
      blk'.multiTags = [mtag] ∧
      mtag_eest_to_neo st' blk' mtag = Except.ok (.sp
        { name := sptr.name.getD "", description := sptr.description
          file_origin := sptr.file_origin, annots := sptr.annots
          times := sptr.times, times_unit := sptr.times_unit
          t_start := some sptr.t_start.mag, t_stop := some sptr.t_stop.mag
          waveforms := none }) := by
  obtain ⟨fos, hfos⟩ : ∃ s, sptr.file_origin = some s := by
    cases hc : sptr.file_origin with
    | none => rw [hc] at hfo; exact absurd hfo (by simp [strTruthy])
    | some s => exact ⟨s, rfl⟩
  have hattrfd : (neo_attr_to_nix sptr.name "SpikeTrain" sptr.description
      none none sptr.file_origin sptr.annots
      (([] : List NMultiTag).map (fun x => x.name))).file_datetime = none := rfl
  have hattrfo : (neo_attr_to_nix sptr.name "SpikeTrain" sptr.description
      none none sptr.file_origin sptr.annots
      (([] : List NMultiTag).map (fun x => x.name))).file_origin = some fos := by
    show (if strTruthy sptr.file_origin then sptr.file_origin else none)
      = some fos
    rw [if_pos hfo]
    exact hfos
  have hmed : (neo_attr_to_nix sptr.name "SpikeTrain" sptr.description
      none none sptr.file_origin sptr.annots
      (([] : List NMultiTag).map (fun x => x.name))).name
      = sptr.name.getD "" := by
    show mediate_name sptr.name "SpikeTrain"
      (([] : List NMultiTag).map (fun x => x.name)) = sptr.name.getD ""
    simp only [mediate_name, List.map_nil]
    rw [if_neg (List.not_mem_nil _)]
    unfold nix_basename
    rw [if_pos hn]
  have hgu : get_units sptr.times_unit false = some sptr.times_unit :=
    get_units_false_some _ htu_ne
  obtain ⟨st₂, e, hlen₂, hoth₂, g⟩ := write_attr_meta_some_exact
    (st ++ [⟨(neo_attr_to_nix sptr.name "SpikeTrain" sptr.description
        none none sptr.file_origin sptr.annots
        (([] : List NMultiTag).map (fun x => x.name))).name,
      (neo_attr_to_nix sptr.name "SpikeTrain" sptr.description
        none none sptr.file_origin sptr.annots
        (([] : List NMultiTag).map (fun x => x.name))).ntype ++ ".metadata",
      []⟩])
    (neo_attr_to_nix sptr.name "SpikeTrain" sptr.description
      none none sptr.file_origin sptr.annots
      (([] : List NMultiTag).map (fun x => x.name))).name
    (neo_attr_to_nix sptr.name "SpikeTrain" sptr.description
      none none sptr.file_origin sptr.annots
      (([] : List NMultiTag).map (fun x => x.name))).ntype
    (neo_attr_to_nix sptr.name "SpikeTrain" sptr.description
      none none sptr.file_origin sptr.annots
      (([] : List NMultiTag).map (fun x => x.name)))
    st.length hs
  have e1 : (write_attr_meta
      (st ++ [⟨(neo_attr_to_nix sptr.name "SpikeTrain" sptr.description
          none none sptr.file_origin sptr.annots
          (([] : List NMultiTag).map (fun x => x.name))).name,
        (neo_attr_to_nix sptr.name "SpikeTrain" sptr.description
          none none sptr.file_origin sptr.annots
          (([] : List NMultiTag).map (fun x => x.name))).ntype ++ ".metadata",
        []⟩])
      (neo_attr_to_nix sptr.name "SpikeTrain" sptr.description
        none none sptr.file_origin sptr.annots
        (([] : List NMultiTag).map (fun x => x.name))).name
      (neo_attr_to_nix sptr.name "SpikeTrain" sptr.description
        none none sptr.file_origin sptr.annots
        (([] : List NMultiTag).map (fun x => x.name))).ntype
      (some st.length)
      (neo_attr_to_nix sptr.name "SpikeTrain" sptr.description
        none none sptr.file_origin sptr.annots
        (([] : List NMultiTag).map (fun x => x.name)))).1 = st₂ := by
    rw [e]
  have hwe : ∃ blk' grp' om' mtag,
      write_spiketrain st blk grp om sptr = some
        (create_property (create_property st₂ st.length "t_start"
          [.float sptr.t_start.mag]) st.length "t_stop"
          [.float sptr.t_stop.mag], blk', grp', om') ∧
      blk'.multiTags = [mtag] ∧
      mtag.name = (neo_attr_to_nix sptr.name "SpikeTrain" sptr.description
        none none sptr.file_origin sptr.annots
        (([] : List NMultiTag).map (fun x => x.name))).name ∧
      mtag.definition = sptr.description ∧
      mtag.ntype = (neo_attr_to_nix sptr.name "SpikeTrain" sptr.description
        none none sptr.file_origin sptr.annots
        (([] : List NMultiTag).map (fun x => x.name))).ntype ∧
      mtag.positionsId = 0 ∧
      mtag.featureIds = [] ∧
      mtag.metadata = some st.length ∧
      blk'.dataArrays =
        [{ name := (neo_attr_to_nix sptr.name "SpikeTrain" sptr.description
              none none sptr.file_origin sptr.annots
              (([] : List NMultiTag).map (fun x => x.name))).name ++ ".times"
           ntype := (neo_attr_to_nix sptr.name "SpikeTrain" sptr.description
              none none sptr.file_origin sptr.annots
              (([] : List NMultiTag).map (fun x => x.name))).ntype ++ ".times"
           definition := none, unit := get_units sptr.times_unit false
           data := .d1 sptr.times, dims := []
           metadata := none, sourceNames := [] }] := by
    unfold write_spiketrain
    rw [hdas, hmts]
    dsimp only [get_or_init_metadata]
    simp only [create_section]
    first
    | dsimp only
    | skip
    rw [hgu]
    simp only [Option.bind_eq_bind, Option.some_bind]
    rw [hwf]
    dsimp only
    first
    | simp only [Option.some_bind]
    | skip
    rw [rescale_self sptr.t_start sptr.times_unit hts,
      rescale_self sptr.t_stop sptr.times_unit htp]
    rw [if_pos hm0]
    rw [e1]
    exact ⟨_, _, _, _, rfl, rfl, rfl, rfl, rfl, rfl, rfl, rfl, rfl⟩
  obtain ⟨blk', grp', om', mtag, hweq, hmt, hname, hdef, hnty, hpos, hfeat,
    hmeta, hdas'⟩ := hwe
  have hsecg : sec_get (create_property (create_property st₂ st.length
      "t_start" [.float sptr.t_start.mag]) st.length "t_stop"
      [.float sptr.t_stop.mag]) st.length = some
      ⟨(neo_attr_to_nix sptr.name "SpikeTrain" sptr.description
          none none sptr.file_origin sptr.annots
          (([] : List NMultiTag).map (fun x => x.name))).name,
        (neo_attr_to_nix sptr.name "SpikeTrain" sptr.description
          none none sptr.file_origin sptr.annots
          (([] : List NMultiTag).map (fun x => x.name))).ntype ++ ".metadata",
        attr_meta_props (neo_attr_to_nix sptr.name "SpikeTrain"
          sptr.description none none sptr.file_origin sptr.annots
          (([] : List NMultiTag).map (fun x => x.name))) ++
          [(⟨"t_start", [NixValue.float sptr.t_start.mag]⟩ : PropEntry),
           (⟨"t_stop", [NixValue.float sptr.t_stop.mag]⟩ : PropEntry)]⟩ := by
    rw [sec_get_create_property_self, sec_get_create_property_self, g,
      sec_get_append_self]
    simp
  have hdec : (attr_meta_props (neo_attr_to_nix sptr.name "SpikeTrain"
      sptr.description none none sptr.file_origin sptr.annots
      (([] : List NMultiTag).map (fun x => x.name))) ++
        [(⟨"t_start", [NixValue.float sptr.t_start.mag]⟩ : PropEntry),
         (⟨"t_stop", [NixValue.float sptr.t_stop.mag]⟩ : PropEntry)]).map
      (fun p => (p.pname, decode_prop_values p.values)) =
      ("file_origin", PyVal.scalar (.str fos)) ::
        ((neo_attr_to_nix sptr.name "SpikeTrain" sptr.description
          none none sptr.file_origin sptr.annots
          (([] : List NMultiTag).map (fun x => x.name))).annots ++
        [("t_start", PyVal.scalar (.float sptr.t_start.mag)),
         ("t_stop", PyVal.scalar (.float sptr.t_stop.mag))]) := by
    rw [List.map_append, attr_meta_props_decode_nofd _ fos hattrfd hattrfo hs]
    rw [List.cons_append]
    rfl
  have hann_ts : ∀ kv ∈ (neo_attr_to_nix sptr.name "SpikeTrain"
      sptr.description none none sptr.file_origin sptr.annots
      (([] : List NMultiTag).map (fun x => x.name))).annots,
      (kv.1 == "t_start") = false := by
    intro kv hkv
    apply beq_eq_false_iff_ne.mpr
    intro habs
    exact hkeys kv hkv (by rw [habs]; decide)
  have hann_tp : ∀ kv ∈ (neo_attr_to_nix sptr.name "SpikeTrain"
      sptr.description none none sptr.file_origin sptr.annots
      (([] : List NMultiTag).map (fun x => x.name))).annots,
      (kv.1 == "t_stop") = false := by
    intro kv hkv
    apply beq_eq_false_iff_ne.mpr
    intro habs
    exact hkeys kv hkv (by rw [habs]; decide)
  refine ⟨_, blk', grp', om', mtag, hweq, hmt, ?_⟩
  unfold mtag_eest_to_neo
  dsimp only
  rw [hmeta]
  rw [read_props_of_sec _ _ _ hsecg]
  dsimp only
  rw [hdec]
  rw [hpos, hdas']
  rw [List.getElem?_cons_zero]
  dsimp only [Bind.bind, Except.bind]
  have htyx : (neo_attr_to_nix sptr.name "SpikeTrain" sptr.description
      none none sptr.file_origin sptr.annots
      (([] : List NMultiTag).map (fun x => x.name))).ntype
      = "neo.spiketrain" := rfl
  rw [hnty, htyx]
  rw [if_neg (by decide : ¬ (("neo.spiketrain" : String) = "neo.epoch"))]
  rw [if_neg (by decide : ¬ (("neo.spiketrain" : String) = "neo.event"))]
  have htyS : ("neo.spiketrain" : String) = "neo.spiketrain" := rfl
  rw [if_pos htyS]
  rw [hfeat]
  rw [List.getElem?_nil]
  dsimp only
  rw [Except.ok.injEq, REest.sp.injEq, RSpikeTrain.mk.injEq]
  refine ⟨hname.trans hmed, hdef, ?_, ?_, rfl,
    get_units_false_getD sptr.times_unit, ?_, ?_, rfl⟩
  · rw [find_prop_cons_self]
    show some fos = sptr.file_origin
    exact hfos.symm
  · show split_annots _ "spiketrain" = sptr.annots
    unfold split_annots
    simp only [List.filter_cons]
    rw [if_neg (by decide)]
    rw [List.filter_append]
    simp only [List.filter_cons, List.filter_nil]
    rw [if_neg (by decide), if_neg (by decide)]
    rw [List.append_nil]
    apply List.filter_eq_self.mpr
    intro kv hkv
    have hnk := hkeys kv hkv
    have hcf : (reserved_keys "spiketrain").contains kv.1 = false := by
      cases hc : (reserved_keys "spiketrain").contains kv.1
      · rfl
      · exact absurd ((Neo2nix.contains_mem_str _ _).mp hc) hnk
    rw [hcf]
    rfl
  · rw [find_prop_cons_ne _ _ _ _ (by decide)]
    rw [find_prop_append_right _ _ _ hann_ts]
    rw [find_prop_cons_self]
    rfl
  · rw [find_prop_cons_ne _ _ _ _ (by decide)]
    rw [find_prop_append_right _ _ _ hann_tp]
    rw [find_prop_cons_ne _ _ _ _ (by decide)]
    rw [find_prop_cons_self]
    rfl

end Neonix
namespace Neonix

/-- The irregular-signal analogue of `read_signal_fresh_exact`: reading a
fresh group of `neo.irregularlysampledsignal` arrays succeeds and every
attribute of the reconstruction is pinned down. -/
theorem read_signal_fresh_irr (st : SecStore) (nm : String)
    (defn du : Option String) (ticks : List ℚ) (tu : Option String)
    (gsec : SectionId) (c0 : List ℚ) (cs : List (List ℚ))
    (blk : NBlock) (grp : NGroup) (sec : NSection)
    (hba : blk.dataArrays = sig_das nm "neo.irregularlysampledsignal" defn du
      (.range ticks tu (some "time")) gsec 0 (c0 :: cs))
    (hgi : grp.dataArrayIds = List.range' 0 (c0 :: cs).length)
    (hsec : sec_get st gsec = some sec) :
    ∃ ra, read_signal st blk grp nm = Except.ok (.isig ra) ∧
      ra.name = sec.sname ∧
      ra.description = defn ∧
      ra.unit = du.getD "dimensionless" ∧
      ra.times = ticks ∧
      ra.times_unit = tu.getD "dimensionless" ∧
      ra.file_origin = prop_str (find_prop
        (read_props st (some gsec)) "file_origin") ∧
      ra.annots = split_annots (read_props st (some gsec)) "signal" ∧
      ra.channels.Perm (c0 :: cs) := by
  have hgroup : group_arrays blk grp = sig_das nm
      "neo.irregularlysampledsignal" defn du
      (.range ticks tu (some "time")) gsec 0 (c0 :: cs) := by
    unfold group_arrays
    rw [hba, hgi]
    rw [← sig_das_length nm "neo.irregularlysampledsignal" defn du
      (.range ticks tu (some "time")) gsec (c0 :: cs) 0]
    have hfm := filterMap_getElem_drop (sig_das nm
      "neo.irregularlysampledsignal" defn du
      (.range ticks tu (some "time")) gsec 0 (c0 :: cs))
      ((sig_das nm "neo.irregularlysampledsignal" defn du
        (.range ticks tu (some "time")) gsec 0 (c0 :: cs)).length)
      0 (by omega)
    rw [List.drop_zero] at hfm
    exact hfm
  have hcollect := collect_sig_das nm "neo.irregularlysampledsignal" defn du
    (.range ticks tu (some "time")) gsec (c0 :: cs)
    ((sig_das nm "neo.irregularlysampledsignal" defn du
      (.range ticks tu (some "time")) gsec 0 (c0 :: cs)).length + 1)
    0 (by rw [sig_das_length]; omega)
  rw [List.drop_zero] at hcollect
  have hall : (sig_das nm "neo.irregularlysampledsignal" defn du
      (.range ticks tu (some "time")) gsec 0 (c0 :: cs)).all
      (fun da => da.metadata == some gsec) = true := by
    apply List.all_eq_true.mpr
    intro x hx
    rw [(sig_das_mem nm "neo.irregularlysampledsignal" defn du
      (.range ticks tu (some "time")) gsec (c0 :: cs) 0 x hx).1]
    exact beq_self_eq_true _
  cases hs : sort_by_name (sig_das nm "neo.irregularlysampledsignal" defn du
      (.range ticks tu (some "time")) gsec 0 (c0 :: cs)) with
  | nil =>
      exfalso
      have hp := sort_by_name_perm (sig_das nm "neo.irregularlysampledsignal"
        defn du (.range ticks tu (some "time")) gsec 0 (c0 :: cs))
      rw [hs] at hp
      have hlen := hp.length_eq
      rw [sig_das_length] at hlen
      simp at hlen
  | cons d0 ds =>
      have hp := sort_by_name_perm (sig_das nm "neo.irregularlysampledsignal"
        defn du (.range ticks tu (some "time")) gsec 0 (c0 :: cs))
      rw [hs] at hp
      have hd0mem : d0 ∈ sig_das nm "neo.irregularlysampledsignal" defn du
          (.range ticks tu (some "time")) gsec 0 (c0 :: cs) :=
        hp.mem_iff.mp (List.mem_cons_self d0 ds)
      obtain ⟨hml, hnty, hun, hdf, hdims⟩ := sig_das_mem nm
        "neo.irregularlysampledsignal" defn du
        (.range ticks tu (some "time")) gsec (c0 :: cs) 0 d0 hd0mem
      have hperm2 : ((d0 :: ds).map (fun da => da.data.as1)).Perm (c0 :: cs) := by
        have := hp.map (fun da => da.data.as1)
        rw [sig_das_map_data] at this
        exact this
      refine ⟨{ name := sec.sname, description := d0.definition
                file_origin := prop_str (find_prop
                  (read_props st d0.metadata) "file_origin")
                annots := split_annots (read_props st d0.metadata) "signal"
                channels := (d0 :: ds).map (fun da => da.data.as1)
                unit := d0.unit.getD "dimensionless"
                times := ticks
                times_unit := tu.getD "dimensionless" }, ?_, rfl, hdf,
        (by rw [hun]), rfl, rfl, (by rw [hml]), (by rw [hml]), hperm2⟩
      unfold read_signal
      dsimp only
      rw [hgroup, hcollect]
      have hhead : (sig_das nm "neo.irregularlysampledsignal" defn du
          (.range ticks tu (some "time")) gsec 0 (c0 :: cs))[0]? =
          some (⟨nm ++ "." ++ natDecimal 0, "neo.irregularlysampledsignal",
            defn, du, .d1 c0, [.range ticks tu (some "time"), .setd []],
            some gsec, []⟩ : NDataArray) := by simp [sig_das]
      rw [hhead]
      dsimp only [Bind.bind, Except.bind]
      have hall2 : (sig_das nm "neo.irregularlysampledsignal" defn du
          (.range ticks tu (some "time")) gsec 0 (c0 :: cs)).all
          (fun da => da.metadata ==
            (⟨nm ++ "." ++ natDecimal 0, "neo.irregularlysampledsignal",
              defn, du, .d1 c0, [.range ticks tu (some "time"), .setd []],
              some gsec, []⟩ : NDataArray).metadata) = true := hall
      first
      | rw [hall2]
      | rw [hall]
      rw [if_pos (rfl : (true : Bool) = true)]
      unfold signal_da_to_neo
      first
      | dsimp only [Bind.bind, Except.bind]
      | skip
      rw [hs]
      rw [List.getElem?_cons_zero]
      first
      | dsimp only
      | skip
      rw [hml]
      first
      | dsimp only
      | skip
      rw [Option.some_bind']
      rw [hsec]
      first
      | dsimp only
      | skip
      rw [hnty]
      rw [hdims]
      rw [if_neg (by
        intro hor
        rcases hor with h1 | h2
        · exact absurd h1 (by decide)
        · exact Bool.false_ne_true h2)]
      rw [if_pos (Or.inl rfl)]
      rfl

end Neonix
namespace Neonix

/-- Round trip of a K-channel IrregularlySampledSignal written into a
fresh block and group through `write_irregularlysampledsignal` and
`read_signal`: every directly mapped attribute, the sample times and
their unit come back exactly, the payload as a permutation holding all K
channels. -/
theorem irregular_round_trip (st : SecStore) (blk : NBlock) (grp : NGroup)
    (om : ObjMap) (sig : NeoIrregularSignal) (pmId : SectionId)
    (hfb : blk.dataArrays = [])
    (hfg : grp.dataArrayIds = [])
    (hpm : grp.metadata = some pmId)
    (hn : strTruthy sig.name)
    (hfo : strTruthy sig.file_origin)
    (hs : ∀ kv ∈ sig.annots, ann_scalar kv.2)
    (hkeys : ∀ kv ∈ sig.annots, kv.1 ∉ reserved_keys "signal")
    (hK : 0 < sig.channels.length) :
    ∃ st' blk' grp' om', write_irregularlysampledsignal st blk grp om sig
        = some (st', blk', grp', om') ∧
      ∃ ra, read_signal st' blk' grp' (sig.name.getD "")
          = Except.ok (.isig ra) ∧
        ra.name = sig.name.getD "" ∧
        ra.description = sig.description ∧
        ra.unit = sig.unit ∧
        ra.times = sig.times ∧
        ra.times_unit = sig.times_unit ∧
        ra.file_origin = sig.file_origin ∧
        ra.annots = sig.annots ∧
        ra.channels.Perm sig.channels := by
  obtain ⟨fos, hfos⟩ : ∃ s, sig.file_origin = some s := by
    cases hc : sig.file_origin with
    | none => rw [hc] at hfo; exact absurd hfo (by simp [strTruthy])
    | some s => exact ⟨s, rfl⟩
  obtain ⟨c0, cs, hcc⟩ : ∃ c0 cs, sig.channels = c0 :: cs := by
    cases hc : sig.channels with
    | nil => rw [hc] at hK; simp at hK
    | cons a b => exact ⟨a, b, rfl⟩
  have hattrfo : (neo_attr_to_nix sig.name "IrregularlySampledSignal"
      sig.description none none sig.file_origin sig.annots
      (blk.dataArrays.map (fun d => d.name))).file_origin = some fos := by
    show (if strTruthy sig.file_origin then sig.file_origin else none) = some fos
    rw [if_pos hfo]
    exact hfos
  have hmed : (neo_attr_to_nix sig.name "IrregularlySampledSignal"
      sig.description none none sig.file_origin sig.annots
      (blk.dataArrays.map (fun d => d.name))).name = sig.name.getD "" := by
    show mediate_name sig.name "IrregularlySampledSignal"
      (blk.dataArrays.map (fun d => d.name)) = sig.name.getD ""
    simp only [mediate_name, hfb, List.map_nil]
    rw [if_neg (List.not_mem_nil _)]
    unfold nix_basename
    rw [if_pos hn]
  have hw : ∃ r, write_irregularlysampledsignal st blk grp om sig = some r :=
    ⟨_, rfl⟩
  obtain ⟨r, h⟩ := hw
  obtain ⟨st', blk', grp', om'⟩ := r
  have horig := h
  unfold write_irregularlysampledsignal at h
  dsimp only at h
  rw [hpm] at h
  dsimp only [get_or_init_metadata] at h
  rw [hattrfo] at h
  simp only [create_section] at h
  first
  | dsimp only at h
  | skip
  have h4 := Option.some.inj h
  have hst := (congrArg (fun p => p.1) h4).symm
  have hblk := (congrArg (fun p => p.2.1) h4).symm
  have hgrp := (congrArg (fun p => p.2.2.1) h4).symm
  dsimp only at hst hblk hgrp
  rw [write_sig_arrays_eq] at hblk hgrp
  dsimp only at hblk hgrp
  have hba : blk'.dataArrays = sig_das
      (neo_attr_to_nix sig.name "IrregularlySampledSignal" sig.description
        none none sig.file_origin sig.annots
        (blk.dataArrays.map (fun d => d.name))).name
      ("neo." ++ str_lower "IrregularlySampledSignal")
      sig.description (get_units sig.unit false)
      (.range sig.times (get_units sig.times_unit false) (some "time"))
      st.length 0 sig.channels := by
    rw [hblk]
    show blk.dataArrays ++ _ = _
    rw [hfb]
    exact List.nil_append _
  have hgi : grp'.dataArrayIds = List.range' 0 sig.channels.length := by
    rw [hgrp]
    show grp.dataArrayIds ++ _ = _
    rw [hfg, hfb]
    exact List.nil_append _
  have hty : ("neo." ++ str_lower "IrregularlySampledSignal")
      = "neo.irregularlysampledsignal" := rfl
  rw [hty] at hba
  have hsecg : sec_get st' st.length = some
      ⟨(neo_attr_to_nix sig.name "IrregularlySampledSignal" sig.description
          none none sig.file_origin sig.annots
          (blk.dataArrays.map (fun d => d.name))).name,
        (neo_attr_to_nix sig.name "IrregularlySampledSignal" sig.description
          none none sig.file_origin sig.annots
          (blk.dataArrays.map (fun d => d.name))).ntype ++ ".metadata",
        ⟨"file_origin", [.str fos]⟩ :: ann_props sig.annots⟩ := by
    rw [hst]
    by_cases hae : sig.annots.isEmpty
    · rw [if_pos hae]
      rw [sec_get_create_property_self, sec_get_append_self]
      have hnil : sig.annots = [] := by rwa [List.isEmpty_iff] at hae
      rw [hnil]
      rfl
    · rw [if_neg hae]
      obtain ⟨hl, ho, hg⟩ := add_annotations_scalars_get sig.annots
        (create_property (st ++
          [⟨(neo_attr_to_nix sig.name "IrregularlySampledSignal"
              sig.description none none sig.file_origin sig.annots
              (blk.dataArrays.map (fun d => d.name))).name,
            (neo_attr_to_nix sig.name "IrregularlySampledSignal"
              sig.description none none sig.file_origin sig.annots
              (blk.dataArrays.map (fun d => d.name))).ntype ++ ".metadata",
            []⟩]) st.length "file_origin" [.str fos]) st.length hs
      rw [hg, sec_get_create_property_self, sec_get_append_self]
      rfl
  rw [hcc] at hba hgi
  obtain ⟨ra, hra, hname, hdesc, hunit, htimes, htu, hfoe, hann, hpermc⟩ :=
    read_signal_fresh_irr st'
      (neo_attr_to_nix sig.name "IrregularlySampledSignal" sig.description
        none none sig.file_origin sig.annots
        (blk.dataArrays.map (fun d => d.name))).name
      sig.description (get_units sig.unit false)
      sig.times (get_units sig.times_unit false) st.length c0 cs blk' grp'
      ⟨(neo_attr_to_nix sig.name "IrregularlySampledSignal" sig.description
          none none sig.file_origin sig.annots
          (blk.dataArrays.map (fun d => d.name))).name,
        (neo_attr_to_nix sig.name "IrregularlySampledSignal" sig.description
          none none sig.file_origin sig.annots
          (blk.dataArrays.map (fun d => d.name))).ntype ++ ".metadata",
        ⟨"file_origin", [.str fos]⟩ :: ann_props sig.annots⟩ hba hgi hsecg
  have hdec : read_props st' (some st.length) =
      ("file_origin", PyVal.scalar (.str fos)) :: sig.annots := by
    rw [read_props_of_sec _ _ _ hsecg]
    exact fo_ann_props_decode fos sig.annots hs
  rw [hmed] at hra
  refine ⟨st', blk', grp', om', horig, ra, hra, hname.trans hmed, hdesc, ?_,
    htimes, ?_, ?_, ?_, ?_⟩
  · exact hunit.trans (get_units_false_getD sig.unit)
  · exact htu.trans (get_units_false_getD sig.times_unit)
  · rw [hdec] at hfoe
    rw [find_prop_cons_self] at hfoe
    rw [hfos]
    exact hfoe
  · rw [hdec] at hann
    have hsa : split_annots
        (("file_origin", PyVal.scalar (.str fos)) :: sig.annots) "signal"
        = sig.annots := by
      unfold split_annots
      simp only [List.filter_cons]
      rw [if_neg (by decide)]
      apply List.filter_eq_self.mpr
      intro kv hkv
      have hnk := hkeys kv hkv
      have hcf : (reserved_keys "signal").contains kv.1 = false := by
        cases hc : (reserved_keys "signal").contains kv.1
        · rfl
        · exact absurd ((Neo2nix.contains_mem_str _ _).mp hc) hnk
      rw [hcf]
      rfl
    exact hann.trans hsa
  · rw [hcc]
    exact hpermc

end Neonix
namespace Neonix

theorem forall2_mem_left {α β : Type} {R : α → β → Prop} :
    ∀ {l₁ : List α} {l₂ : List β}, List.Forall₂ R l₁ l₂ →
      ∀ x ∈ l₁, ∃ y ∈ l₂, R x y := by
  intro l₁ l₂ h
  induction h with
  | nil =>
      intro x hx
      exact absurd hx (List.not_mem_nil x)
  | cons hr ht ih =>
      intro x hx
      rcases List.mem_cons.mp hx with rfl | hx
      · exact ⟨_, List.mem_cons_self _ _, hr⟩
      · obtain ⟨y, hy, hr2⟩ := ih x hx
        exact ⟨y, List.mem_cons_of_mem _ hy, hr2⟩

/-- The per-channel sources of `write_recordingchannelgroup`: named by the
channel-name list, typed `neo.recordingchannel`, each holding a metadata
section with the channel's `index` and the file origin. -/
theorem write_rcg_channels_spec (blkName : String) (fos : String)
    (srcDef : Option String) (chanNames : List String)
    (hne : chanNames.isEmpty = false) :
    ∀ (idxs : List Int) (st : SecStore) (idx : Nat),
      idx + idxs.length ≤ chanNames.length →
      ∃ st' srcs,
        write_rcg_channels blkName (some fos) srcDef chanNames none st idxs idx
          = some (st', srcs) ∧
        st'.length = st.length + idxs.length ∧
        (∀ j, j < st.length → sec_get st' j = sec_get st j) ∧
        srcs.map NSource.name = (chanNames.drop idx).take idxs.length ∧
        List.Forall₂ (fun (s : NSource) (ch : Int) =>
          s.ntype = "neo.recordingchannel" ∧
          ∃ i, s.metadata = some i ∧
            sec_get st' i = some ⟨s.name,
              "neo.recordingchannel" ++ ".metadata",
              [⟨"index", [.int ch]⟩, ⟨"file_origin", [.str fos]⟩]⟩)
          srcs idxs := by
  intro idxs
  induction idxs with
  | nil =>
      intro st idx hle
      refine ⟨st, [], rfl, by simp, fun j hj => rfl, by simp,
        List.Forall₂.nil⟩
  | cons ch rest ih =>
      intro st idx hle
      have hlt : idx < chanNames.length := by
        simp only [List.length_cons] at hle
        omega
      obtain ⟨st', srcs, heq, hlen, hpres, hnames, hfa⟩ := ih
        (create_property (create_property
          (st ++ [⟨chanNames[idx], "neo.recordingchannel" ++ ".metadata", []⟩])
          st.length "index" [.int ch]) st.length "file_origin" [.str fos])
        (idx + 1) (by simp only [List.length_cons] at hle; omega)
      have hcplen : (create_property (create_property
          (st ++ [⟨chanNames[idx], "neo.recordingchannel" ++ ".metadata", []⟩])
          st.length "index" [.int ch]) st.length "file_origin"
          [.str fos]).length = st.length + 1 := by
        rw [create_property_length, create_property_length]
        simp
      have hcond : (if chanNames.isEmpty = true then
          some (blkName ++ ".RecordingChannel" ++ natDecimal idx)
          else chanNames[idx]?) = some chanNames[idx] := by
        rw [if_neg (by rw [hne]; exact Bool.false_ne_true)]
        exact List.getElem?_eq_getElem hlt
      refine ⟨st', ⟨chanNames[idx], "neo.recordingchannel", srcDef,
        some st.length, []⟩ :: srcs, ?_, ?_, ?_, ?_, ?_⟩
      · show write_rcg_channels blkName (some fos) srcDef chanNames none st
          (ch :: rest) idx = _
        rw [write_rcg_channels]
        rw [if_neg (by rw [hne]; exact Bool.false_ne_true)]
        rw [List.getElem?_eq_getElem hlt]
        simp only [Option.bind_eq_bind, Option.some_bind]
        simp only [create_section]
        first
        | dsimp only
        | skip
        first
        | simp only [Option.some_bind]
        | skip
        first
        | dsimp only
        | skip
        rw [heq]
        first
        | simp only [Option.some_bind]
        | skip
      · rw [hlen, hcplen]
        simp only [List.length_cons]
        omega
      · intro j hj
        rw [hpres j (by rw [hcplen]; omega)]
        rw [sec_get_create_property_ne _ _ _ _ _ (by omega),
          sec_get_create_property_ne _ _ _ _ _ (by omega),
          sec_get_append_ne _ _ _ (by omega)]
      · simp only [List.length_cons]
        rw [List.map_cons, hnames, List.drop_eq_getElem_cons hlt,
          List.take_succ_cons]
        rfl
      · refine List.Forall₂.cons ⟨rfl, st.length, rfl, ?_⟩ hfa
        rw [hpres st.length (by rw [hcplen]; omega)]
        rw [sec_get_create_property_self, sec_get_create_property_self,
          sec_get_append_self]
        simp [NSource.name]

theorem rcg_indexes_read (st' : SecStore) (fos : String) :
    ∀ (srcs : List NSource) (idxs : List Int),
      List.Forall₂ (fun (s : NSource) (ch : Int) =>
        s.ntype = "neo.recordingchannel" ∧
        ∃ i, s.metadata = some i ∧
          sec_get st' i = some ⟨s.name,
            "neo.recordingchannel" ++ ".metadata",
            [⟨"index", [.int ch]⟩, ⟨"file_origin", [.str fos]⟩]⟩)
        srcs idxs →
      srcs.map (fun c => (prop_int (find_prop
        (read_props st' c.metadata) "index")).getD 0) = idxs := by
  intro srcs idxs h
  induction h with
  | nil => rfl
  | cons hr ht ih =>
      rw [List.map_cons, ih]
      obtain ⟨hnt, i, hmi, hsec⟩ := hr
      rw [List.cons.injEq]
      refine ⟨?_, rfl⟩
      rw [hmi, read_props_of_sec _ _ _ hsec]
      rfl

end Neonix
namespace Neonix

/-- Round trip of a ChannelGroup (RecordingChannelGroup) with named
channels, no coordinates and no units through
`write_recordingchannelgroup` and `_source_rcg_to_neo`. -/
theorem rcg_round_trip (st : SecStore) (blk : NBlock) (om : ObjMap)
    (rcg : NeoRCG)
    (hsrc : blk.sources = [])
    (hn : strTruthy rcg.name) (hfo : strTruthy rcg.file_origin)
    (hs : ∀ kv ∈ rcg.annots, ann_scalar kv.2)
    (hkeys : ∀ kv ∈ rcg.annots, kv.1 ∉ reserved_keys "rcg")
    (hnames_len : rcg.channel_names.length = rcg.channel_indexes.length)
    (hK : 0 < rcg.channel_indexes.length)
    (hcoords : rcg.coordinates = none)
    (hunits : rcg.units = []) (hae : rcg.analog_eids = [])
    (hie : rcg.irregular_eids = []) :
    ∃ st' src, write_recordingchannelgroup st blk om rcg
        = some (st', { blk with sources := blk.sources ++ [src] }, om) ∧
      source_rcg_to_neo st' src = Except.ok
        { name := rcg.name.getD "", description := rcg.description
          file_origin := rcg.file_origin, annots := rcg.annots
          channel_names := rcg.channel_names
          channel_indexes := rcg.channel_indexes
          coordinates := none, runits := [] } := by
  obtain ⟨fos, hfos⟩ : ∃ s, rcg.file_origin = some s := by
    cases hc : rcg.file_origin with
    | none => rw [hc] at hfo; exact absurd hfo (by simp [strTruthy])
    | some s => exact ⟨s, rfl⟩
  have hcn_ne : rcg.channel_names.isEmpty = false := by
    cases hcn : rcg.channel_names with
    | nil =>
        rw [hcn] at hnames_len
        simp only [List.length_nil] at hnames_len
        omega
    | cons a b => rfl
  have hattrfd : (neo_attr_to_nix rcg.name "RecordingChannelGroup"
      rcg.description none none rcg.file_origin rcg.annots
      (([] : List NSource).map NSource.name)).file_datetime = none := rfl
  have hattrfo : (neo_attr_to_nix rcg.name "RecordingChannelGroup"
      rcg.description none none rcg.file_origin rcg.annots
      (([] : List NSource).map NSource.name)).file_origin = some fos := by
    show (if strTruthy rcg.file_origin then rcg.file_origin else none)
      = some fos
    rw [if_pos hfo]
    exact hfos
  have hmed : (neo_attr_to_nix rcg.name "RecordingChannelGroup"
      rcg.description none none rcg.file_origin rcg.annots
      (([] : List NSource).map NSource.name)).name = rcg.name.getD "" := by
    show mediate_name rcg.name "RecordingChannelGroup"
      (([] : List NSource).map NSource.name) = rcg.name.getD ""
    simp only [mediate_name, List.map_nil]
    rw [if_neg (List.not_mem_nil _)]
    unfold nix_basename
    rw [if_pos hn]
  have hne : (neo_attr_to_nix rcg.name "RecordingChannelGroup"
      rcg.description none none rcg.file_origin rcg.annots
      (([] : List NSource).map NSource.name)).file_datetime ≠ none ∨
      (neo_attr_to_nix rcg.name "RecordingChannelGroup"
      rcg.description none none rcg.file_origin rcg.annots
      (([] : List NSource).map NSource.name)).file_origin ≠ none ∨
      (neo_attr_to_nix rcg.name "RecordingChannelGroup"
      rcg.description none none rcg.file_origin rcg.annots
      (([] : List NSource).map NSource.name)).annots ≠ [] := by
    right
    left
    rw [hattrfo]
    simp
  obtain ⟨st₁, hwa, hlen₁, hoth₁, hsec₁⟩ := write_attr_meta_none_exact st
    (neo_attr_to_nix rcg.name "RecordingChannelGroup" rcg.description
      none none rcg.file_origin rcg.annots
      (([] : List NSource).map NSource.name)).name
    (neo_attr_to_nix rcg.name "RecordingChannelGroup" rcg.description
      none none rcg.file_origin rcg.annots
      (([] : List NSource).map NSource.name)).ntype
    (neo_attr_to_nix rcg.name "RecordingChannelGroup" rcg.description
      none none rcg.file_origin rcg.annots
      (([] : List NSource).map NSource.name)) hne hs
  have hm2 : (write_attr_meta st
      (neo_attr_to_nix rcg.name "RecordingChannelGroup" rcg.description
        none none rcg.file_origin rcg.annots
        (([] : List NSource).map NSource.name)).name
      (neo_attr_to_nix rcg.name "RecordingChannelGroup" rcg.description
        none none rcg.file_origin rcg.annots
        (([] : List NSource).map NSource.name)).ntype none
      (neo_attr_to_nix rcg.name "RecordingChannelGroup" rcg.description
        none none rcg.file_origin rcg.annots
        (([] : List NSource).map NSource.name))).2 = some st.length := by
    rw [hwa]
  have hst1 : (write_attr_meta st
      (neo_attr_to_nix rcg.name "RecordingChannelGroup" rcg.description
        none none rcg.file_origin rcg.annots
        (([] : List NSource).map NSource.name)).name
      (neo_attr_to_nix rcg.name "RecordingChannelGroup" rcg.description
        none none rcg.file_origin rcg.annots
        (([] : List NSource).map NSource.name)).ntype none
      (neo_attr_to_nix rcg.name "RecordingChannelGroup" rcg.description
        none none rcg.file_origin rcg.annots
        (([] : List NSource).map NSource.name))).1 = st₁ := by
    rw [hwa]
  obtain ⟨st₂, srcs, heqc, hlen₂, hpres₂, hnamesm, hfa⟩ :=
    write_rcg_channels_spec blk.name fos
      (neo_attr_to_nix rcg.name "RecordingChannelGroup" rcg.description
        none none rcg.file_origin rcg.annots
        (([] : List NSource).map NSource.name)).definition
      rcg.channel_names hcn_ne rcg.channel_indexes st₁ 0 (by omega)
  have hsec₂ : sec_get st₂ st.length = some
      ⟨(neo_attr_to_nix rcg.name "RecordingChannelGroup" rcg.description
          none none rcg.file_origin rcg.annots
          (([] : List NSource).map NSource.name)).name,
        (neo_attr_to_nix rcg.name "RecordingChannelGroup" rcg.description
          none none rcg.file_origin rcg.annots
          (([] : List NSource).map NSource.name)).ntype ++ ".metadata",
        attr_meta_props (neo_attr_to_nix rcg.name "RecordingChannelGroup"
          rcg.description none none rcg.file_origin rcg.annots
          (([] : List NSource).map NSource.name))⟩ := by
    rw [hpres₂ st.length (by omega)]
    exact hsec₁
  have hww : ∃ src, write_recordingchannelgroup st blk om rcg
      = some (st₂, { blk with sources := blk.sources ++ [src] }, om) ∧
      src.name = (neo_attr_to_nix rcg.name "RecordingChannelGroup"
        rcg.description none none rcg.file_origin rcg.annots
        (([] : List NSource).map NSource.name)).name ∧
      src.definition = rcg.description ∧
      src.metadata = some st.length ∧
      src.sources = srcs := by
    unfold write_recordingchannelgroup
    rw [hsrc, hcoords, hunits, hae, hie]
    dsimp only
    simp only [Option.bind_eq_bind]
    rw [hattrfo]
    rw [hst1]
    rw [heqc]
    simp only [Option.some_bind]
    dsimp only [write_units_fold]
    simp only [Option.some_bind]
    dsimp only [add_rcg_signal_refs]
    simp only [Option.some_bind]
    rw [hsrc]
    exact ⟨_, rfl, rfl, rfl, hm2, rfl⟩
  obtain ⟨src, hweq, hsrcname, hsrcdef, hsrcmeta, hsrcs⟩ := hww
  obtain ⟨ch0, chrest, hidxcc⟩ : ∃ a b, rcg.channel_indexes = a :: b := by
    cases hc : rcg.channel_indexes with
    | nil => rw [hc] at hK; simp at hK
    | cons a b => exact ⟨a, b, rfl⟩
  rw [hidxcc] at hfa
  cases hfashape : srcs with
  | nil =>
      rw [hfashape] at hfa
      cases hfa
  | cons s0 rest =>
  rw [hfashape] at hfa hsrcs hnamesm
  cases hfa with
  | cons hr ht =>
  obtain ⟨hnt0, i0, hmi0, hsec0⟩ := hr
  have hnames2 : (s0 :: rest).map NSource.name = rcg.channel_names := by
    rw [hnamesm, List.drop_zero, ← hnames_len, List.take_length]
  have hfilter : (s0 :: rest).filter
      (fun c => c.ntype == "neo.recordingchannel") = s0 :: rest := by
    apply List.filter_eq_self.mpr
    intro s hsmem
    obtain ⟨y, hy, hP⟩ := forall2_mem_left (List.Forall₂.cons
      ⟨hnt0, i0, hmi0, hsec0⟩ ht) s hsmem
    rw [hP.1]
    exact beq_self_eq_true _
  have hfilterU : (s0 :: rest).filter
      (fun c => c.ntype == "neo.unit") = [] := by
    rw [List.filter_eq_nil]
    intro s hsmem
    obtain ⟨y, hy, hP⟩ := forall2_mem_left (List.Forall₂.cons
      ⟨hnt0, i0, hmi0, hsec0⟩ ht) s hsmem
    rw [hP.1]
    decide
  have hchn : (((s0 :: rest).map
      (fun c : NSource => (c.name, read_props st₂ c.metadata))).map
      (fun c => c.1)) = rcg.channel_names := by
    rw [List.map_map]
    exact hnames2
  have hidx : (((s0 :: rest).map
      (fun c : NSource => (c.name, read_props st₂ c.metadata))).map
      (fun c => (prop_int (find_prop c.2 "index")).getD 0))
      = rcg.channel_indexes := by
    rw [List.map_map]
    rw [hidxcc]
    exact rcg_indexes_read st₂ fos (s0 :: rest) (ch0 :: chrest)
      (List.Forall₂.cons ⟨hnt0, i0, hmi0, hsec0⟩ ht)
  have hhead : (((s0 :: rest).map
      (fun c : NSource => (c.name, read_props st₂ c.metadata))))[0]?
      = some (s0.name, read_props st₂ s0.metadata) := by
    simp
  refine ⟨st₂, src, hweq, ?_⟩
  unfold source_rcg_to_neo
  dsimp only
  rw [hsrcmeta]
  rw [read_props_of_sec _ _ _ hsec₂]
  dsimp only
  rw [attr_meta_props_decode_nofd _ fos hattrfd hattrfo hs]
  rw [hsrcs]
  rw [hfilter]
  rw [hhead]
  dsimp only [Bind.bind, Except.bind]
  rw [hmi0]
  rw [read_props_of_sec _ _ _ hsec0]
  split
  next hcondx =>
    exact absurd hcondx (fun habs => Bool.false_ne_true habs)
  next hcondx =>
  first
  | dsimp only [Bind.bind, Except.bind]
  | skip
  rw [Except.ok.injEq, RRCG.mk.injEq]
  refine ⟨hsrcname.trans hmed, hsrcdef, ?_, ?_, hchn, hidx, rfl, ?_⟩
  · rw [find_prop_cons_self]
    show some fos = rcg.file_origin
    exact hfos.symm
  · show split_annots _ "rcg" = rcg.annots
    unfold split_annots
    simp only [List.filter_cons]
    rw [if_neg (by decide)]
    apply List.filter_eq_self.mpr
    intro kv hkv
    have hnk := hkeys kv hkv
    have hcf : (reserved_keys "rcg").contains kv.1 = false := by
      cases hc : (reserved_keys "rcg").contains kv.1
      · rfl
      · exact absurd ((Neo2nix.contains_mem_str _ _).mp hc) hnk
    rw [hcf]
    rfl
  · rw [hfilterU]
    rfl

end Neonix
namespace Neonix

/-- An eleven-channel AnalogSignal: its data arrays are named `sig.0` ..
`sig.10`, and the lexicographic re-sort on read places `sig.10` before
`sig.2`. -/
def c1Sig11 : NeoAnalogSignal :=
  { eid := 9, name := some "sig", description := none
    file_origin := some "f", annots := []
    channels := [[0], [1], [2], [3], [4], [5], [6], [7], [8], [9], [10]]
    unit := "mV", sampling_period := ⟨1, "s"⟩, t_start := ⟨0, "s"⟩ }

def c1Irr : NeoIrregularSignal :=
  { eid := 11, name := some "isig", description := some "id"
    file_origin := some "f", annots := [], channels := [[1, 2]]
    unit := "mV", times := [0, 1], times_unit := "s" }

def c1Ep : NeoEpoch :=
  { name := some "ep", description := none, file_origin := some "f"
    annots := [], times := [1, 2], times_unit := "s"
    durations := [3, 4], durations_unit := "s", labels := ["a", "b"] }

def c1Ev : NeoEvent :=
  { name := some "ev", description := none, file_origin := some "f"
    annots := [], times := [1, 2], times_unit := "s", labels := ["a", "b"] }

def c1Sp : NeoSpikeTrain :=
  { eid := 13, name := some "sp", description := none
    file_origin := some "f", annots := [], times := [1, 2]
    times_unit := "s", t_start := ⟨1, "s"⟩, t_stop := ⟨2, "s"⟩
    sampling_period := ⟨1, "s"⟩, left_sweep := none, waveforms := none }

def c1Ut : NeoUnit :=
  { name := some "u", description := none, file_origin := some "f"
    annots := [], spiketrain_eids := [] }

def c1Rcg : NeoRCG :=
  { name := some "rcg", description := none, file_origin := some "f"
    annots := [], channel_indexes := [0], channel_names := ["c0"]
    coordinates := none, units := [], analog_eids := []
    irregular_eids := [] }

def c1ParentSrc : NSource := .mk "pb" "neo.block" none none []

/-- C1 counterexample, two independent failures of the literal round-trip
identity.  First, `calculate_timestamp` keeps only whole seconds
(`int(time.mktime(dt.timetuple()))`), so a Block whose `rec_datetime`
carries 5 seconds + 1 microsecond reads back with the sub-second part
zeroed.  Second, reading a signal re-sorts its data arrays
lexicographically by name (`sorted(..., key=lambda d: d.name)`), and from
eleven channels on `sig.10` sorts before `sig.2`, so the payload comes
back as a genuine permutation, not in the written channel order. -/
theorem C1_roundtrip_counterexample :
    (∃ r nb, write_block [] [] [] c1BadBlk = some r ∧ r.2.1 = [nb] ∧
      c1BadBlk.rec_datetime = some ⟨5, 1⟩ ∧
      (block_to_neo r.1 nb).rec_datetime = ⟨5, 0⟩ ∧
      (block_to_neo r.1 nb).rec_datetime ≠ ⟨5, 1⟩) ∧
    (∃ st' blk' grp' om' ra,
      write_analogsignal [] c1HostBlk c1Grp [] c1Sig11
          = some (st', blk', grp', om') ∧
      read_signal st' blk' grp' "sig" = Except.ok (.asig ra) ∧
      ra.channels.Perm c1Sig11.channels ∧
      ra.channels ≠ c1Sig11.channels) := by
  refine ⟨⟨_, _, rfl, rfl, rfl, rfl, by decide⟩, ?_⟩
  obtain ⟨st', blk', grp', om', hwr, ra, hra, hname, hdesc, hunit, hsp, hts,
    hfoe, hann, hpermc, hchex⟩ :=
    signal_round_trip [] c1HostBlk c1Grp [] c1Sig11 0 rfl rfl rfl
      (by decide) (by decide) (by simp [c1Sig11]) (by simp [c1Sig11]) rfl rfl
      (by decide)
  refine ⟨st', blk', grp', om', ra, hwr, hra, hpermc, ?_⟩
  intro habs
  have hchex2 : ra.channels = (sort_by_name (sig_das "sig" "neo.analogsignal"
      none (some "mV") (.sampled 1 (some "s") (some "time") 0) 0 0
      [[0], [1], [2], [3], [4], [5], [6], [7], [8], [9], [10]])).map
      (fun da => da.data.as1) := hchex
  set L := sig_das "sig" "neo.analogsignal" none (some "mV")
    (.sampled 1 (some "s") (some "time") 0) 0 0
    [[0], [1], [2], [3], [4], [5], [6], [7], [8], [9], [10]] with hLdef
  have hmapdata : L.map (fun da => da.data.as1)
      = [[0], [1], [2], [3], [4], [5], [6], [7], [8], [9], [10]] :=
    sig_das_map_data "sig" "neo.analogsignal" none (some "mV")
      (.sampled 1 (some "s") (some "time") 0) 0
      [[0], [1], [2], [3], [4], [5], [6], [7], [8], [9], [10]] 0
  have heq : (sort_by_name L).map (fun da => da.data.as1)
      = L.map (fun da => da.data.as1) := by
    rw [← hchex2, habs, hmapdata]
    rfl
  have hnodup : (L.map (fun da => da.data.as1)).Nodup := by
    rw [hmapdata]
    decide
  have hsorteq : sort_by_name L = L :=
    eq_of_map_eq_of_perm (fun da => da.data.as1) L (sort_by_name L)
      (sort_by_name_perm L)
      (fun x hx y hy hxy => List.inj_on_of_nodup_map hnodup hx hy hxy)
      heq
  have hsorted := sort_by_name_sorted L
  rw [hsorteq] at hsorted
  have hlen : L.length = 11 := by
    rw [hLdef, sig_das_length]
    rfl
  have h2lt : 2 < L.length := by omega
  have h10lt : 10 < L.length := by omega
  have hle := List.Sorted.rel_get_of_lt hsorted
    ((Fin.mk_lt_mk.mpr (by omega)) :
      (⟨2, h2lt⟩ : Fin L.length) < ⟨10, h10lt⟩)
  have hn2 : (L.get ⟨2, h2lt⟩).name = "sig.2" := by
    have hg := sig_das_get_name "sig" "neo.analogsignal" none (some "mV")
      (.sampled 1 (some "s") (some "time") 0) 0
      [[0], [1], [2], [3], [4], [5], [6], [7], [8], [9], [10]] 0 2
      (L.get ⟨2, h2lt⟩) (by rw [← hLdef, List.getElem?_eq_getElem h2lt]; rfl)
    rw [hg, Nat.zero_add, natDecimal_lit_2]
    all_goals decide
  have hn10 : (L.get ⟨10, h10lt⟩).name = "sig.10" := by
    have hg := sig_das_get_name "sig" "neo.analogsignal" none (some "mV")
      (.sampled 1 (some "s") (some "time") 0) 0
      [[0], [1], [2], [3], [4], [5], [6], [7], [8], [9], [10]] 0 10
      (L.get ⟨10, h10lt⟩) (by rw [← hLdef, List.getElem?_eq_getElem h10lt]; rfl)
    rw [hg, Nat.zero_add, natDecimal_lit_10]
    all_goals decide
  rw [hn2, hn10, String.le_iff_toList_le] at hle
  exact absurd hle (by decide)

end Neonix
namespace Neonix

/-- C1 (amended): writing any of the nine entity kinds - Block, Segment,
AnalogSignal, IrregularlySampledSignal, Epoch, Event, SpikeTrain,
ChannelGroup (RecordingChannelGroup), Unit - into a fresh container and
reading it back reproduces every directly mapped attribute: name,
description, timestamps, file origin, annotations, payload, and units.
This holds provided the names and file origins are truthy, the
timestamps are whole seconds, the annotation values are supported
scalars under non-reserved keys, and the time quantities carry the units
the writer rescales to; a multi-channel signal payload is recovered as a
permutation holding all channels, since the reader re-sorts the data
arrays lexicographically by name. -/
theorem C1_attribute_round_trip :
    (∀ (st : SecStore) (om : ObjMap) (b : NeoBlock) (rd fd : DT),
      strTruthy b.name → b.rec_datetime = some rd → rd.usec = 0 →
      b.file_datetime = some fd → fd.usec = 0 → strTruthy b.file_origin →
      (∀ kv ∈ b.annots, ann_scalar kv.2) →
      (∀ kv ∈ b.annots, kv.1 ∉ reserved_keys "block") →
      b.segments = [] → b.rcgs = [] →
      ∃ st' nb om', write_block st [] om b = some (st', [nb], om') ∧
        block_to_neo st' nb =
          { name := b.name.getD "", description := b.description
            rec_datetime := rd, file_datetime := some fd
            file_origin := b.file_origin, annots := b.annots }) ∧
    (∀ (st : SecStore) (blk : NBlock) (om : ObjMap) (sg : NeoSegment)
        (rd fd : DT),
      blk.groups = [] → strTruthy sg.name →
      sg.rec_datetime = some rd → rd.usec = 0 →
      sg.file_datetime = some fd → fd.usec = 0 → strTruthy sg.file_origin →
      (∀ kv ∈ sg.annots, ann_scalar kv.2) →
      (∀ kv ∈ sg.annots, kv.1 ∉ reserved_keys "segment") →
      sg.analogsignals = [] → sg.irregularlysampledsignals = [] →
      sg.epochs = [] → sg.events = [] → sg.spiketrains = [] →
      ∃ st' grp om', write_segment st blk om sg =
          some (st', { blk with groups := blk.groups ++ [grp] }, om') ∧
        group_to_neo st' grp =
          { name := sg.name.getD "", description := sg.description
            rec_datetime := rd, file_datetime := some fd
            file_origin := sg.file_origin, annots := sg.annots }) ∧
    (∀ (st : SecStore) (blk : NBlock) (grp : NGroup) (om : ObjMap)
        (sig : NeoAnalogSignal) (pmId : SectionId),
      blk.dataArrays = [] → grp.dataArrayIds = [] →
      grp.metadata = some pmId → strTruthy sig.name →
      strTruthy sig.file_origin →
      (∀ kv ∈ sig.annots, ann_scalar kv.2) →
      (∀ kv ∈ sig.annots, kv.1 ∉ reserved_keys "signal") →
      sig.sampling_period.unit = "s" → sig.t_start.unit = "s" →
      0 < sig.channels.length →
      ∃ st' blk' grp' om', write_analogsignal st blk grp om sig
          = some (st', blk', grp', om') ∧
        ∃ ra, read_signal st' blk' grp' (sig.name.getD "")
            = Except.ok (.asig ra) ∧
          ra.name = sig.name.getD "" ∧
          ra.description = sig.description ∧
          ra.unit = sig.unit ∧
          ra.sampling_period = sig.sampling_period ∧
          ra.t_start = sig.t_start ∧
          ra.file_origin = sig.file_origin ∧
          ra.annots = sig.annots ∧
          ra.channels.Perm sig.channels) ∧
    (∀ (st : SecStore) (blk : NBlock) (grp : NGroup) (om : ObjMap)
        (sig : NeoIrregularSignal) (pmId : SectionId),
      blk.dataArrays = [] → grp.dataArrayIds = [] →
      grp.metadata = some pmId → strTruthy sig.name →
      strTruthy sig.file_origin →
      (∀ kv ∈ sig.annots, ann_scalar kv.2) →
      (∀ kv ∈ sig.annots, kv.1 ∉ reserved_keys "signal") →
      0 < sig.channels.length →
      ∃ st' blk' grp' om', write_irregularlysampledsignal st blk grp om sig
          = some (st', blk', grp', om') ∧
        ∃ ra, read_signal st' blk' grp' (sig.name.getD "")
            = Except.ok (.isig ra) ∧
          ra.name = sig.name.getD "" ∧
          ra.description = sig.description ∧
          ra.unit = sig.unit ∧
          ra.times = sig.times ∧
          ra.times_unit = sig.times_unit ∧
          ra.file_origin = sig.file_origin ∧
          ra.annots = sig.annots ∧
          ra.channels.Perm sig.channels) ∧
    (∀ (st : SecStore) (blk : NBlock) (grp : NGroup) (ep : NeoEpoch),
      blk.dataArrays = [] → blk.multiTags = [] →
      strTruthy ep.name → strTruthy ep.file_origin →
      (∀ kv ∈ ep.annots, ann_scalar kv.2) →
      (∀ kv ∈ ep.annots, kv.1 ∉ reserved_keys "epoch") →
      ∃ st' blk' grp' mtag, write_epoch st blk grp ep
          = some (st', blk', grp') ∧
        blk'.multiTags = [mtag] ∧
        mtag_eest_to_neo st' blk' mtag = Except.ok (.ep
          { name := ep.name.getD "", description := ep.description
            file_origin := ep.file_origin, annots := ep.annots
            times := ep.times, times_unit := ep.times_unit
            durations := ep.durations, durations_unit := ep.durations_unit
            labels := ep.labels })) ∧
    (∀ (st : SecStore) (blk : NBlock) (grp : NGroup) (ev : NeoEvent),
      blk.dataArrays = [] → blk.multiTags = [] →
      strTruthy ev.name → strTruthy ev.file_origin →
      (∀ kv ∈ ev.annots, ann_scalar kv.2) →
      (∀ kv ∈ ev.annots, kv.1 ∉ reserved_keys "event") →
      ∃ st' blk' grp' mtag, write_event st blk grp ev
          = some (st', blk', grp') ∧
        blk'.multiTags = [mtag] ∧
        mtag_eest_to_neo st' blk' mtag = Except.ok (.ev
          { name := ev.name.getD "", description := ev.description
            file_origin := ev.file_origin, annots := ev.annots
            times := ev.times, times_unit := ev.times_unit
            labels := ev.labels })) ∧
    (∀ (st : SecStore) (blk : NBlock) (grp : NGroup) (om : ObjMap)
        (sptr : NeoSpikeTrain),
      blk.dataArrays = [] → blk.multiTags = [] →
      strTruthy sptr.name → strTruthy sptr.file_origin →
      (∀ kv ∈ sptr.annots, ann_scalar kv.2) →
      (∀ kv ∈ sptr.annots, kv.1 ∉ reserved_keys "spiketrain") →
      sptr.times_unit ≠ "dimensionless" →
      sptr.t_start.unit = sptr.times_unit →
      sptr.t_stop.unit = sptr.times_unit →
      sptr.t_start.mag ≠ 0 → sptr.waveforms = none →
      ∃ st' blk' grp' om' mtag,
        write_spiketrain st blk grp om sptr = some (st', blk', grp', om') ∧
        blk'.multiTags = [mtag] ∧
        mtag_eest_to_neo st' blk' mtag = Except.ok (.sp
          { name := sptr.name.getD "", description := sptr.description
            file_origin := sptr.file_origin, annots := sptr.annots
            times := sptr.times, times_unit := sptr.times_unit
            t_start := some sptr.t_start.mag, t_stop := some sptr.t_stop.mag
            waveforms := none })) ∧
    (∀ (st : SecStore) (blk : NBlock) (om : ObjMap) (rcg : NeoRCG),
      blk.sources = [] → strTruthy rcg.name → strTruthy rcg.file_origin →
      (∀ kv ∈ rcg.annots, ann_scalar kv.2) →
      (∀ kv ∈ rcg.annots, kv.1 ∉ reserved_keys "rcg") →
      rcg.channel_names.length = rcg.channel_indexes.length →
      0 < rcg.channel_indexes.length →
      rcg.coordinates = none → rcg.units = [] →
      rcg.analog_eids = [] → rcg.irregular_eids = [] →
      ∃ st' src, write_recordingchannelgroup st blk om rcg
          = some (st', { blk with sources := blk.sources ++ [src] }, om) ∧
        source_rcg_to_neo st' src = Except.ok
          { name := rcg.name.getD "", description := rcg.description
            file_origin := rcg.file_origin, annots := rcg.annots
            channel_names := rcg.channel_names
            channel_indexes := rcg.channel_indexes
            coordinates := none, runits := [] }) ∧
    (∀ (st : SecStore) (blk : NBlock) (om : ObjMap) (parentSrc : NSource)
        (ut : NeoUnit),
      parentSrc.sources = [] → strTruthy ut.name → strTruthy ut.file_origin →
      (∀ kv ∈ ut.annots, ann_scalar kv.2) →
      (∀ kv ∈ ut.annots, kv.1 ∉ reserved_keys "unit") →
      ut.spiketrain_eids = [] →
      ∃ st' usrc, write_unit st blk om parentSrc ut
          = some (st', blk, parentSrc.addChild usrc) ∧
        source_unit_to_neo st' usrc =
          { name := ut.name.getD "", description := ut.description
            file_origin := ut.file_origin, annots := ut.annots }) := by
  refine ⟨?_, ?_, ?_, ?_, ?_, ?_, ?_, ?_, ?_⟩
  · intro st om b rd fd h1 h2 h3 h4 h5 h6 h7 h8 h9 h10
    exact block_round_trip st om b rd fd h1 h2 h3 h4 h5 h6 h7 h8 h9 h10
  · intro st blk om sg rd fd h1 h2 h3 h4 h5 h6 h7 h8 h9 h10 h11 h12 h13 h14
    exact segment_round_trip st blk om sg rd fd h1 h2 h3 h4 h5 h6 h7 h8 h9
      h10 h11 h12 h13 h14
  · intro st blk grp om sig pmId h1 h2 h3 h4 h5 h6 h7 h8 h9 h10
    obtain ⟨st', blk', grp', om', hw, ra, hr1, hr2, hr3, hr4, hr5, hr6, hr7,
      hr8, hr9, _⟩ :=
      signal_round_trip st blk grp om sig pmId h1 h2 h3 h4 h5 h6 h7 h8 h9 h10
    exact ⟨st', blk', grp', om', hw, ra, hr1, hr2, hr3, hr4, hr5, hr6, hr7,
      hr8, hr9⟩
  · intro st blk grp om sig pmId h1 h2 h3 h4 h5 h6 h7 h8
    exact irregular_round_trip st blk grp om sig pmId h1 h2 h3 h4 h5 h6 h7 h8
  · intro st blk grp ep h1 h2 h3 h4 h5 h6
    exact epoch_round_trip st blk grp ep h1 h2 h3 h4 h5 h6
  · intro st blk grp ev h1 h2 h3 h4 h5 h6
    exact event_round_trip st blk grp ev h1 h2 h3 h4 h5 h6
  · intro st blk grp om sptr h1 h2 h3 h4 h5 h6 h7 h8 h9 h10 h11
    exact spiketrain_round_trip st blk grp om sptr h1 h2 h3 h4 h5 h6 h7 h8
      h9 h10 h11
  · intro st blk om rcg h1 h2 h3 h4 h5 h6 h7 h8 h9 h10 h11
    exact rcg_round_trip st blk om rcg h1 h2 h3 h4 h5 h6 h7 h8 h9 h10 h11
  · intro st blk om parentSrc ut h1 h2 h3 h4 h5 h6
    exact unit_round_trip st blk om parentSrc ut h1 h2 h3 h4 h5 h6

theorem C1_attribute_round_trip_witness :
    (∃ st' nb om', write_block [] [] [] c1Blk = some (st', [nb], om') ∧
      block_to_neo st' nb =
        { name := "b", description := some "d", rec_datetime := ⟨5, 0⟩
          file_datetime := some ⟨7, 0⟩, file_origin := some "f"
          annots := [] }) ∧
    (∃ st' grp om', write_segment [] c1HostBlk [] c1Seg =
        some (st', { c1HostBlk with groups := c1HostBlk.groups ++ [grp] },
          om') ∧
      group_to_neo st' grp =
        { name := "sg", description := none, rec_datetime := ⟨5, 0⟩
          file_datetime := some ⟨7, 0⟩, file_origin := some "f"
          annots := [] }) ∧
    (∃ st' blk' grp' om', write_analogsignal [] c1HostBlk c1Grp [] c1Sig
        = some (st', blk', grp', om') ∧
      ∃ ra, read_signal st' blk' grp' "sig" = Except.ok (.asig ra) ∧
        ra.name = "sig" ∧ ra.description = some "sd" ∧ ra.unit = "mV" ∧
        ra.sampling_period = ⟨1, "s"⟩ ∧ ra.t_start = ⟨0, "s"⟩ ∧
        ra.file_origin = some "f" ∧ ra.annots = [] ∧
        ra.channels.Perm [[1, 2], [3, 4]]) ∧
    (∃ st' blk' grp' om', write_irregularlysampledsignal [] c1HostBlk c1Grp
          [] c1Irr = some (st', blk', grp', om') ∧
      ∃ ra, read_signal st' blk' grp' "isig" = Except.ok (.isig ra) ∧
        ra.name = "isig" ∧ ra.description = some "id" ∧ ra.unit = "mV" ∧
        ra.times = [0, 1] ∧ ra.times_unit = "s" ∧
        ra.file_origin = some "f" ∧ ra.annots = [] ∧
        ra.channels.Perm [[1, 2]]) ∧
    (∃ st' blk' grp' mtag, write_epoch [] c1HostBlk c1Grp c1Ep
        = some (st', blk', grp') ∧
      blk'.multiTags = [mtag] ∧
      mtag_eest_to_neo st' blk' mtag = Except.ok (.ep
        { name := "ep", description := none, file_origin := some "f"
          annots := [], times := [1, 2], times_unit := "s"
          durations := [3, 4], durations_unit := "s"
          labels := ["a", "b"] })) ∧
    (∃ st' blk' grp' mtag, write_event [] c1HostBlk c1Grp c1Ev
        = some (st', blk', grp') ∧
      blk'.multiTags = [mtag] ∧
      mtag_eest_to_neo st' blk' mtag = Except.ok (.ev
        { name := "ev", description := none, file_origin := some "f"
          annots := [], times := [1, 2], times_unit := "s"
          labels := ["a", "b"] })) ∧
    (∃ st' blk' grp' om' mtag, write_spiketrain [] c1HostBlk c1Grp [] c1Sp
        = some (st', blk', grp', om') ∧
      blk'.multiTags = [mtag] ∧
      mtag_eest_to_neo st' blk' mtag = Except.ok (.sp
        { name := "sp", description := none, file_origin := some "f"
          annots := [], times := [1, 2], times_unit := "s"
          t_start := some 1, t_stop := some 2, waveforms := none })) ∧
    (∃ st' src, write_recordingchannelgroup [] c1HostBlk [] c1Rcg
        = some (st', { c1HostBlk with
            sources := c1HostBlk.sources ++ [src] }, []) ∧
      source_rcg_to_neo st' src = Except.ok
        { name := "rcg", description := none, file_origin := some "f"
          annots := [], channel_names := ["c0"], channel_indexes := [0]
          coordinates := none, runits := [] }) ∧
    (∃ st' usrc, write_unit [] c1HostBlk [] c1ParentSrc c1Ut
        = some (st', c1HostBlk, c1ParentSrc.addChild usrc) ∧
      source_unit_to_neo st' usrc =
        { name := "u", description := none, file_origin := some "f"
          annots := [] }) :=
  ⟨C1_attribute_round_trip.1 [] [] c1Blk ⟨5, 0⟩ ⟨7, 0⟩ (by decide) rfl rfl
      rfl rfl (by decide) (by simp [c1Blk]) (by simp [c1Blk]) rfl rfl,
   C1_attribute_round_trip.2.1 [] c1HostBlk [] c1Seg ⟨5, 0⟩ ⟨7, 0⟩ rfl
      (by decide) rfl rfl rfl rfl (by decide) (by simp [c1Seg])
      (by simp [c1Seg]) rfl rfl rfl rfl rfl,
   C1_attribute_round_trip.2.2.1 [] c1HostBlk c1Grp [] c1Sig 0 rfl rfl rfl
      (by decide) (by decide) (by simp [c1Sig]) (by simp [c1Sig]) rfl rfl
      (by decide),
   C1_attribute_round_trip.2.2.2.1 [] c1HostBlk c1Grp [] c1Irr 0 rfl rfl rfl
      (by decide) (by decide) (by simp [c1Irr]) (by simp [c1Irr]) (by decide),
   C1_attribute_round_trip.2.2.2.2.1 [] c1HostBlk c1Grp c1Ep rfl rfl
      (by decide) (by decide) (by simp [c1Ep]) (by simp [c1Ep]),
   C1_attribute_round_trip.2.2.2.2.2.1 [] c1HostBlk c1Grp c1Ev rfl rfl
      (by decide) (by decide) (by simp [c1Ev]) (by simp [c1Ev]),
   C1_attribute_round_trip.2.2.2.2.2.2.1 [] c1HostBlk c1Grp [] c1Sp rfl rfl
      (by decide) (by decide) (by simp [c1Sp]) (by simp [c1Sp]) (by decide)
      rfl rfl (by decide) rfl,
   C1_attribute_round_trip.2.2.2.2.2.2.2.1 [] c1HostBlk [] c1Rcg rfl
      (by decide) (by decide) (by simp [c1Rcg]) (by simp [c1Rcg]) rfl
      (by decide) rfl rfl rfl rfl,
   C1_attribute_round_trip.2.2.2.2.2.2.2.2 [] c1HostBlk [] c1ParentSrc c1Ut
      rfl (by decide) (by decide) (by simp [c1Ut]) (by simp [c1Ut]) rfl⟩

end Neonix
